import Mathlib

/-!
# Matrix multiplication kernels of `matrix_multiply.c`

A shallow embedding of the multiplication kernels (`naive_multiply`,
`cache_aware_multiply`, `cache_aware_multiply_tiled`, `vector_multiply`) and of
the verifier (`verify_result`) of `risc-v-matrix-multiply/matrix_multiply.c`.

Conventions of the embedding.

* A C `double` is a value of an arbitrary type `α` carrying `+`, `*` and `0`
  (no algebraic law is assumed by the kernels themselves); the verifier
  additionally needs subtraction, absolute value and a decidable linear order.
  Statements about equality of results are therefore statements over exact
  arithmetic.
* A C `int` holding a size, a tile width, a loop counter or an index is a natural
  number; the 32-bit range of `int` is not part of the kernels' model and is
  treated on its own through `wrap32` and `Fits32`.
* A `double*` buffer is a `List α`.  Every read and write is bounds checked and
  an access outside the buffer is the fault `Fault.outOfBounds`.
* `Matrix*` arguments are passed by value, so two arguments never alias; a kernel
  returns the output matrix it has written.
* A loop with unit stride runs over `List.range'`.  A loop whose stride is a
  run-time value (`ii += tile_size`, `j += vl`) is executed with a supply of
  `fuel` iterations; when the supply is used up while the loop condition still
  holds the result is the fault `Fault.outOfFuel`.  For a positive stride the same
  loop is also given without fuel, as the total function `forStepWF`.
-/

namespace MatMul

/-- Ways in which the execution of a kernel can fail to produce a result. -/
inductive Fault where
  | outOfBounds
  | outOfFuel
  deriving DecidableEq

/-- The C struct `Matrix`: a buffer `data` and the side length `size`. -/
structure Matrix (α : Type) where
  data : List α
  size : Nat
  deriving DecidableEq

/-- One line printed by `verify_result`: position, both values and their distance. -/
structure Mismatch (α : Type) where
  position : Nat
  v1 : α
  v2 : α
  diff : α
  deriving DecidableEq

/-- The data invariant of an `n x n` row-major matrix: `size` is `n` and the
buffer holds exactly `n * n` values. -/
def Matrix.IsSquare {α : Type} (M : Matrix α) (n : Nat) : Prop :=
  M.size = n ∧ M.data.length = n * n

/-- The read `buf[idx]`. -/
def load {α : Type} (buf : List α) (idx : Nat) : Except Fault α :=
  match buf[idx]? with
  | some v => .ok v
  | none => .error .outOfBounds

/-- The write `buf[idx] = v`. -/
def store {α : Type} (buf : List α) (idx : Nat) (v : α) : Except Fault (List α) :=
  if idx < buf.length then .ok (buf.set idx v) else .error .outOfBounds

/-- The loop `for (int x = lo; x < hi; x++) body`. -/
def forRange {σ : Type} (lo hi : Nat) (body : Nat → σ → Except Fault σ) (s : σ) :
    Except Fault σ :=
  (List.range' lo (hi - lo)).foldlM (fun acc x => body x acc) s

/-- The loop `for (int x = x0; x < hi; x += step) body`, run with `fuel` iterations
available. -/
def forStep {σ : Type} (fuel : Nat) (x hi step : Nat) (body : Nat → σ → Except Fault σ)
    (s : σ) : Except Fault σ :=
  match fuel with
  | 0 => if x < hi then .error .outOfFuel else .ok s
  | fuel + 1 =>
    if x < hi then
      match body x s with
      | .ok s1 => forStep fuel (x + step) hi step body s1
      | .error e => .error e
    else .ok s

/-- The loop `for (int i = 0; i < n * n; i++) C->data[i] = 0.0;`. -/
def zero_fill {α : Type} [Zero α] (n : Nat) (c : List α) : Except Fault (List α) :=
  forRange 0 (n * n) (fun i c => store c i 0) c

/-- The call `memset(C->data, 0, n * n * sizeof(double))`: the first `n * n` values
of the buffer become `0.0`. -/
def memset_zero {α : Type} [Zero α] (c : List α) (count : Nat) : Except Fault (List α) :=
  if count ≤ c.length then .ok (List.replicate count 0 ++ c.drop count)
  else .error .outOfBounds

/-- The function `naive_multiply` (lines 108-124). -/
def naive_multiply {α : Type} [Add α] [Mul α] [Zero α] (A B C : Matrix α) :
    Except Fault (Matrix α) := do
  let n := A.size
  let c ← zero_fill n C.data
  let c ← forRange 0 n (fun i c =>
    forRange 0 n (fun j c =>
      forRange 0 n (fun k c => do
        let cij ← load c (i * n + j)
        let a ← load A.data (i * n + k)
        let b ← load B.data (k * n + j)
        store c (i * n + j) (cij + a * b)) c) c) c
  return { C with data := c }

/-- The function `cache_aware_multiply` (lines 127-157). -/
def cache_aware_multiply {α : Type} [Add α] [Mul α] [Zero α] (fuel : Nat)
    (A B C : Matrix α) (tile_size : Nat) : Except Fault (Matrix α) := do
  let n := A.size
  let c ← zero_fill n C.data
  let c ← forStep fuel 0 n tile_size (fun ii c =>
    forStep fuel 0 n tile_size (fun jj c =>
      forStep fuel 0 n tile_size (fun kk c =>
        let i_end := if ii + tile_size < n then ii + tile_size else n
        let j_end := if jj + tile_size < n then jj + tile_size else n
        let k_end := if kk + tile_size < n then kk + tile_size else n
        forRange ii i_end (fun i c =>
          forRange jj j_end (fun j c => do
            let sum ← load c (i * n + j)
            let sum ← forRange kk k_end (fun k sum => do
              let a ← load A.data (i * n + k)
              let b ← load B.data (k * n + j)
              pure (sum + a * b)) sum
            store c (i * n + j) sum) c) c) c) c) c
  return { C with data := c }

/-- The function `cache_aware_multiply_tiled` (lines 160-187). -/
def cache_aware_multiply_tiled {α : Type} [Add α] [Mul α] [Zero α] (fuel : Nat)
    (A B C : Matrix α) (tile_size : Nat) : Except Fault (Matrix α) := do
  let n := A.size
  let c ← memset_zero C.data (n * n)
  let c ← forStep fuel 0 n tile_size (fun ii c =>
    forStep fuel 0 n tile_size (fun kk c =>
      forStep fuel 0 n tile_size (fun jj c =>
        let i_end := if ii + tile_size < n then ii + tile_size else n
        let j_end := if jj + tile_size < n then jj + tile_size else n
        let k_end := if kk + tile_size < n then kk + tile_size else n
        forRange ii i_end (fun i c =>
          forRange kk k_end (fun k c => do
            let a_ik ← load A.data (i * n + k)
            forRange jj j_end (fun j c => do
              let cij ← load c (i * n + j)
              let b ← load B.data (k * n + j)
              store c (i * n + j) (cij + a_ik * b)) c) c) c) c) c) c
  return { C with data := c }

/-- Modelled from the spec: the intrinsic `vsetvl_e64m1(avl)` of `riscv_vector.h`, which
is not part of the repository; on a machine with `VLMAX` lanes of 64 bits it grants
`min(avl, VLMAX)` lanes. -/
def vsetvl_e64m1 (VLMAX avl : Nat) : Nat :=
  min avl VLMAX

/-- Modelled from the spec: the intrinsic `vfmv_v_f_f64m1(x, vl)` of `riscv_vector.h`,
the broadcast of the scalar `x` into `vl` lanes. -/
def vfmv_v_f_f64m1 {α : Type} (x : α) (vl : Nat) : List α :=
  List.replicate vl x

/-- Modelled from the spec: the intrinsic `vle64_v_f64m1(&buf[off], vl)` of
`riscv_vector.h`, the load of the `vl` contiguous values `buf[off], ..., buf[off + vl - 1]`. -/
def vle64_v_f64m1 {α : Type} [Zero α] (buf : List α) (off vl : Nat) :
    Except Fault (List α) :=
  if off + vl ≤ buf.length then .ok ((List.range vl).map (fun l => buf.getD (off + l) 0))
  else .error .outOfBounds

/-- Modelled from the spec: the intrinsic `vfmadd_vv_f64m1(vd, vs1, vs2, vl)` of
`riscv_vector.h`, the lane-wise fused multiply-add; lane `l < vl` of the result is
`vs2[l] + vd[l] * vs1[l]`. -/
def vfmadd_vv_f64m1 {α : Type} [Add α] [Mul α] [Zero α] (vd vs1 vs2 : List α) (vl : Nat) :
    List α :=
  (List.range vl).map (fun l => vs2.getD l 0 + vd.getD l 0 * vs1.getD l 0)

/-- Modelled from the spec: the intrinsic `vse64_v_f64m1(&buf[off], v, vl)` of
`riscv_vector.h`, the store of the lanes `l < vl` of `v` to `buf[off + l]`. -/
def vse64_v_f64m1 {α : Type} [Zero α] (buf : List α) (off : Nat) (v : List α) (vl : Nat) :
    Except Fault (List α) :=
  if off + vl ≤ buf.length then
    .ok (buf.take off ++ (List.range vl).map (fun l => v.getD l 0) ++ buf.drop (off + vl))
  else .error .outOfBounds

/-- The function `vector_multiply` (lines 191-226) on a machine whose vector
registers hold `VLMAX` values of 64 bits (`vsetvlmax_e64m1()` returns `VLMAX`). -/
def vector_multiply {α : Type} [Add α] [Mul α] [Zero α] (VLMAX fuel : Nat)
    (A B C : Matrix α) (tile_size : Nat) : Except Fault (Matrix α) := do
  let n := A.size
  let c ← memset_zero C.data (n * n)
  let vl := VLMAX
  let c ← forStep fuel 0 n tile_size (fun ii c =>
    forStep fuel 0 n tile_size (fun kk c =>
      forStep fuel 0 n tile_size (fun jj c =>
        let i_end := if ii + tile_size < n then ii + tile_size else n
        let j_end := if jj + tile_size < n then jj + tile_size else n
        let k_end := if kk + tile_size < n then kk + tile_size else n
        forRange ii i_end (fun i c =>
          forRange kk k_end (fun k c => do
            let a_ik ← load A.data (i * n + k)
            let va_ik := vfmv_v_f_f64m1 a_ik vl
            forStep fuel jj j_end vl (fun j c => do
              let actual_vl := vsetvl_e64m1 VLMAX (j_end - j)
              let vb ← vle64_v_f64m1 B.data (k * n + j) actual_vl
              let vc ← vle64_v_f64m1 c (i * n + j) actual_vl
              let vc := vfmadd_vv_f64m1 va_ik vb vc actual_vl
              vse64_v_f64m1 c (i * n + j) vc actual_vl) c) c) c) c) c) c
  return { C with data := c }

/-- The verification loop of `verify_result` (lines 236-243) over the remaining
flat indices: the first pair further apart than `tolerance` is printed and ends
the loop with `0`. -/
def verify_loop {α : Type} [LinearOrderedAddCommGroup α] (c1 c2 : List α) (tolerance : α) :
    List Nat → Except Fault (Int × List (Mismatch α))
  | [] => .ok (1, [])
  | i :: rest => do
    let x ← load c1 i
    let y ← load c2 i
    if |x - y| > tolerance then
      pure (0, [{ position := i, v1 := x, v2 := y, diff := |x - y| }])
    else verify_loop c1 c2 tolerance rest

/-- The function `verify_result` (lines 230-244): the returned `int` together with
the lines it printed. -/
def verify_result {α : Type} [LinearOrderedAddCommGroup α] (C1 C2 : Matrix α)
    (tolerance : α) : Except Fault (Int × List (Mismatch α)) :=
  if C1.size ≠ C2.size then .ok (0, [])
  else
    let n := C1.size
    verify_loop C1.data C2.data tolerance (List.range' 0 (n * n - 0))

/-! ### Notions used to state and prove the properties -/

/-- The value at row `i`, column `j` of a row-major buffer with rows of length `n`. -/
def cell {α : Type} [Zero α] (n : Nat) (c : List α) (i j : Nat) : α :=
  c.getD (i * n + j) 0

/-- The left-nested accumulation `((v + A[i][k0] * B[k0][j]) + A[i][k1] * B[k1][j]) + ...`
over the indices `ks`, taken in the order of the list. -/
def accum {α : Type} [Add α] [Mul α] [Zero α] (n : Nat) (a b : List α) (i j : Nat)
    (v : α) (ks : List Nat) : α :=
  ks.foldl (fun acc k => acc + cell n a i k * cell n b k j) v

/-- The values taken by the counter of `for (x = x0; x < hi; x += step)` during at
most `fuel` iterations. -/
def origins : Nat → Nat → Nat → Nat → List Nat
  | 0, _, _, _ => []
  | fuel + 1, x, hi, step => if x < hi then x :: origins fuel (x + step) hi step else []

/-- The end bound `(o + tile_size < n) ? o + tile_size : n` of the tile with origin `o`. -/
def tileEnd (n tile_size o : Nat) : Nat :=
  if o + tile_size < n then o + tile_size else n

/-- A buffer transformer `F` acts cell by cell on `n x n` buffers: it succeeds, keeps
the length, and the new value of cell `(i, j)` is `T i j` of its old value. -/
def CellWise {α : Type} [Zero α] (n : Nat) (F : List α → Except Fault (List α))
    (T : Nat → Nat → α → α) : Prop :=
  ∀ c : List α, c.length = n * n →
    ∃ c1, F c = .ok c1 ∧ c1.length = n * n ∧
      ∀ i j, i < n → j < n → cell n c1 i j = T i j (cell n c i j)

/-- A body `row jj j_end i k` of the `k` loop of the tiled kernels is a row update
when it adds `A[i][k] * B[k][j]` to the cells `(i, j)` with `jj ≤ j < j_end` and
leaves every other cell as it is. -/
def IsRow {α : Type} [Add α] [Mul α] [Zero α] (n : Nat) (a b : List α)
    (row : Nat → Nat → Nat → Nat → List α → Except Fault (List α)) : Prop :=
  ∀ jj j_end i k, i < n → k < n → j_end ≤ n →
    CellWise n (row jj j_end i k)
      (fun i1 j1 v =>
        if i1 = i then
          (if jj ≤ j1 ∧ j1 < j_end then v + cell n a i k * cell n b k j1 else v)
        else v)

/-- The row-major `n x n` product of the buffers `a` and `b`: the value at flat index
`p` is the accumulation `((0 + a[i][0] * b[0][j]) + a[i][1] * b[1][j]) + ...` over
`k = 0, ..., n - 1` for `i = p / n`, `j = p % n`. -/
def product {α : Type} [Add α] [Mul α] [Zero α] (n : Nat) (a b : List α) : List α :=
  (List.range (n * n)).map (fun p => accum n a b (p / n) (p % n) 0 (List.range' 0 n))

/-- The `n x n` identity matrix in row-major layout: `1` at the flat indices `p` with
`p / n = p % n` and `0` elsewhere. -/
def identity {α : Type} [Zero α] [One α] (n : Nat) : Matrix α :=
  { data := (List.range (n * n)).map (fun p => if p / n = p % n then 1 else 0), size := n }

/-- The `n x n` matrix whose `n * n` values are all `0`. -/
def zero_matrix {α : Type} [Zero α] (n : Nat) : Matrix α :=
  { data := List.replicate (n * n) 0, size := n }

/-! ### Sample inputs -/

/-- The 2 x 2 integer matrix `[[1, 2], [3, 4]]`. -/
def sampleA : Matrix ℤ := { data := [1, 2, 3, 4], size := 2 }

/-- The 2 x 2 integer matrix `[[5, 6], [7, 8]]`. -/
def sampleB : Matrix ℤ := { data := [5, 6, 7, 8], size := 2 }

/-- A 2 x 2 integer output matrix holding stale values. -/
def sampleC : Matrix ℤ := { data := [9, 9, 9, 9], size := 2 }

/-- A second 2 x 2 integer output matrix holding other stale values. -/
def sampleD : Matrix ℤ := { data := [-1, 0, 3, 8], size := 2 }

/-- A 1 x 1 integer matrix. -/
def sampleE : Matrix ℤ := { data := [7], size := 1 }

/-- The 5 x 5 rational matrix with entries `0, 1/2, 1, 3/2, ...` in row-major order. -/
def sampleP : Matrix ℚ := { data := (List.range 25).map (fun p => (p : ℚ) / 2), size := 5 }

/-- The 5 x 5 rational matrix with entries `3, 2, 1, 0, -1, ...` in row-major order. -/
def sampleQ : Matrix ℚ := { data := (List.range 25).map (fun p => 3 - (p : ℚ)), size := 5 }

/-- A 5 x 5 rational output matrix holding stale values. -/
def sampleR : Matrix ℚ := { data := List.replicate 25 7, size := 5 }

/-- The 5 x 5 integer matrix with entries `0, 1, 2, ...` in row-major order. -/
def sampleM : Matrix ℤ := { data := (List.range 25).map (fun p => (p : ℤ)), size := 5 }

/-- A 5 x 5 integer output matrix holding stale values. -/
def sampleN : Matrix ℤ := { data := List.replicate 25 4, size := 5 }

/-- The matrix `[[1, 2], [3, 4]]` of the 2 x 2 scenario. -/
def scenarioA (α : Type) [Semiring α] : Matrix α := { data := [1, 2, 3, 4], size := 2 }

/-- The matrix `[[5, 6], [7, 8]]` of the 2 x 2 scenario. -/
def scenarioB (α : Type) [Semiring α] : Matrix α := { data := [5, 6, 7, 8], size := 2 }

/-- The 1 x 1 matrix `[[a]]`. -/
def single {α : Type} (a : α) : Matrix α := { data := [a], size := 1 }

/-- The number `ceil(n / tile_size)` of tiles of width `tile_size` needed to cover
`[0, n)`. -/
def tileCount (n tile_size : Nat) : Nat :=
  (n + tile_size - 1) / tile_size

/-- The body of the `kk` loop of `cache_aware_multiply` (lines 139-153): the
multiplication of the tiles with origins `ii`, `jj`, `kk`. -/
def ijk_tile {α : Type} [Add α] [Mul α] [Zero α] (n tile_size : Nat) (a b : List α)
    (ii jj kk : Nat) (c : List α) : Except Fault (List α) :=
  let i_end := if ii + tile_size < n then ii + tile_size else n
  let j_end := if jj + tile_size < n then jj + tile_size else n
  let k_end := if kk + tile_size < n then kk + tile_size else n
  forRange ii i_end (fun i c =>
    forRange jj j_end (fun j c => do
      let sum ← load c (i * n + j)
      let sum ← forRange kk k_end (fun k sum => do
        let x ← load a (i * n + k)
        let y ← load b (k * n + j)
        pure (sum + x * y)) sum
      store c (i * n + j) sum) c) c

/-- A buffer transformer `F` stays in bounds on `n x n` buffers: it either succeeds and
keeps the length, or runs out of fuel; it never faults with an access outside a
buffer. -/
def InBounds {α : Type} (n : Nat) (F : List α → Except Fault (List α)) : Prop :=
  ∀ c : List α, c.length = n * n →
    (∃ c1, F c = .ok c1 ∧ c1.length = n * n) ∨ F c = .error .outOfFuel

/-- The body of the innermost tile loop of `cache_aware_multiply_tiled` (lines 170-183):
the multiplication of the tiles with origins `ii`, `kk`, `jj`. -/
def ikj_tile {α : Type} [Add α] [Mul α] [Zero α] (n tile_size : Nat) (a b : List α)
    (ii kk jj : Nat) (c : List α) : Except Fault (List α) :=
  let i_end := if ii + tile_size < n then ii + tile_size else n
  let j_end := if jj + tile_size < n then jj + tile_size else n
  let k_end := if kk + tile_size < n then kk + tile_size else n
  forRange ii i_end (fun i c =>
    forRange kk k_end (fun k c => do
      let a_ik ← load a (i * n + k)
      forRange jj j_end (fun j c => do
        let cij ← load c (i * n + j)
        let y ← load b (k * n + j)
        store c (i * n + j) (cij + a_ik * y)) c) c) c

/-- The loop `for (int x = x0; x < hi; x += step) body` for a positive `step`, without
fuel: a total function by well-founded recursion on `hi - x`. -/
def forStepWF {σ : Type} (hi step : Nat) (hstep : 0 < step)
    (body : Nat → σ → Except Fault σ) (x : Nat) (s : σ) : Except Fault σ :=
  if _h : x < hi then
    match body x s with
    | .ok s1 => forStepWF hi step hstep body (x + step) s1
    | .error e => .error e
  else .ok s
termination_by hi - x
decreasing_by omega

/-- The function `cache_aware_multiply` for a positive tile size, without fuel: its tile
loops are the total loops `forStepWF`. -/
def cache_aware_multiply_total {α : Type} [Add α] [Mul α] [Zero α] (A B C : Matrix α)
    (tile_size : Nat) (hts : 0 < tile_size) : Except Fault (Matrix α) := do
  let n := A.size
  let c ← zero_fill n C.data
  let c ← forStepWF n tile_size hts (fun ii c =>
    forStepWF n tile_size hts (fun jj c =>
      forStepWF n tile_size hts (fun kk c =>
        ijk_tile n tile_size A.data B.data ii jj kk c) 0 c) 0 c) 0 c
  return { C with data := c }

/-- The function `cache_aware_multiply_tiled` for a positive tile size, without fuel:
its tile loops are the total loops `forStepWF`. -/
def cache_aware_multiply_tiled_total {α : Type} [Add α] [Mul α] [Zero α] (A B C : Matrix α)
    (tile_size : Nat) (hts : 0 < tile_size) : Except Fault (Matrix α) := do
  let n := A.size
  let c ← memset_zero C.data (n * n)
  let c ← forStepWF n tile_size hts (fun ii c =>
    forStepWF n tile_size hts (fun kk c =>
      forStepWF n tile_size hts (fun jj c =>
        ikj_tile n tile_size A.data B.data ii kk jj c) 0 c) 0 c) 0 c
  return { C with data := c }

/-- The value held by a 32-bit two's complement `int` after an operation whose exact
result is `x`: `x` wrapped into `[-2^31, 2^31 - 1]`. -/
def wrap32 (x : Int) : Int :=
  (x + 2147483648) % 4294967296 - 2147483648

/-- The `int` addition `x + y` in wrapping 32-bit arithmetic. -/
def add32 (x y : Int) : Int :=
  wrap32 (x + y)

/-- The `int` multiplication `x * y` in wrapping 32-bit arithmetic. -/
def mul32 (x y : Int) : Int :=
  wrap32 (x * y)

/-- The exact value `x` of an `int` expression lies in `[-2^31, 2^31 - 1]`, so that
32-bit arithmetic yields it unchanged. -/
def Fits32 (x : Nat) : Prop :=
  (-2147483648 ≤ (x : Int) ∧ (x : Int) ≤ 2147483647) ∧ wrap32 x = x

/-- One iteration of the `jj` loop of `cache_aware_multiply` (lines 138-154): the `kk`
loop for the tile origins `ii`, `jj`. -/
def ijk_jj_iteration {α : Type} [Add α] [Mul α] [Zero α] (fuel n tile_size : Nat)
    (a b : List α) (ii jj : Nat) (c : List α) : Except Fault (List α) :=
  forStep fuel 0 n tile_size (fun kk c => ijk_tile n tile_size a b ii jj kk c) c

/-- One iteration of the `ii` loop of `cache_aware_multiply` (lines 137-155): the `jj`
loop for the tile origin `ii`. -/
def ijk_ii_iteration {α : Type} [Add α] [Mul α] [Zero α] (fuel n tile_size : Nat)
    (a b : List α) (ii : Nat) (c : List α) : Except Fault (List α) :=
  forStep fuel 0 n tile_size (fun jj c => ijk_jj_iteration fuel n tile_size a b ii jj c) c

/-! ## Properties -/

section Basics

variable {α : Type}

theorem idx_lt {n i j : Nat} (hi : i < n) (hj : j < n) : i * n + j < n * n := by
  have h : (i + 1) * n ≤ n * n := Nat.mul_le_mul_right n hi
  have h2 : (i + 1) * n = i * n + n := by ring
  omega

theorem idx_inj {n i j i1 j1 : Nat} (hj : j < n) (hj1 : j1 < n)
    (h : i * n + j = i1 * n + j1) : i = i1 ∧ j = j1 := by
  have hn : 0 < n := by omega
  have e1 : (i * n + j) / n = i := by
    rw [Nat.add_comm, Nat.add_mul_div_right _ _ hn, Nat.div_eq_of_lt hj, Nat.zero_add]
  have e2 : (i1 * n + j1) / n = i1 := by
    rw [Nat.add_comm, Nat.add_mul_div_right _ _ hn, Nat.div_eq_of_lt hj1, Nat.zero_add]
  have hi : i = i1 := by rw [← e1, ← e2, h]
  subst hi
  exact ⟨rfl, by omega⟩

theorem load_ok [Zero α] {buf : List α} {idx : Nat} (h : idx < buf.length) :
    load buf idx = .ok (buf.getD idx 0) := by
  simp [load, List.getElem?_eq_getElem h]

theorem store_ok {buf : List α} {idx : Nat} (v : α) (h : idx < buf.length) :
    store buf idx v = .ok (buf.set idx v) := by
  simp [store, h]

theorem load_cell [Zero α] {n : Nat} {c : List α} (hc : c.length = n * n) {i j : Nat}
    (hi : i < n) (hj : j < n) : load c (i * n + j) = .ok (cell n c i j) :=
  load_ok (by rw [hc]; exact idx_lt hi hj)

theorem cell_set [Zero α] {n : Nat} {c : List α} (hc : c.length = n * n) {i j : Nat}
    (hi : i < n) (hj : j < n) (v : α) {i1 j1 : Nat} (hj1 : j1 < n) :
    cell n (c.set (i * n + j) v) i1 j1
      = if i1 = i then (if j1 = j then v else cell n c i1 j1) else cell n c i1 j1 := by
  have hlt : i * n + j < c.length := by rw [hc]; exact idx_lt hi hj
  unfold cell
  by_cases h : i1 * n + j1 = i * n + j
  · obtain ⟨e1, e2⟩ := idx_inj hj1 hj h
    subst e1; subst e2
    simp [List.getElem?_set_eq_of_lt, hlt]
  · have hne : ¬ (i1 = i ∧ j1 = j) := by
      rintro ⟨e1, e2⟩; exact h (by rw [e1, e2])
    rw [List.getD_eq_getElem?_getD, List.getElem?_set_ne (Ne.symm h),
      ← List.getD_eq_getElem?_getD]
    by_cases e1 : i1 = i
    · have e2 : ¬ j1 = j := fun e2 => hne ⟨e1, e2⟩
      simp [e1, e2]
    · simp [e1]

theorem foldlM_ok {σ ι : Type} (xs : List ι) (body : ι → σ → Except Fault σ)
    (f : ι → σ → σ) (h : ∀ x ∈ xs, ∀ s, body x s = .ok (f x s)) (s : σ) :
    xs.foldlM (fun acc x => body x acc) s = .ok (xs.foldl (fun acc x => f x acc) s) := by
  induction xs generalizing s with
  | nil => rfl
  | cons x xs ih =>
    rw [List.foldlM_cons, h x (List.mem_cons_self x xs) s]
    exact ih (fun y hy => h y (List.mem_cons_of_mem x hy)) (f x s)

theorem forStep_eq_foldlM {σ : Type} (body : Nat → σ → Except Fault σ) (hi step : Nat) :
    ∀ (fuel x : Nat) (s : σ), hi ≤ x + fuel * step →
      forStep fuel x hi step body s
        = (origins fuel x hi step).foldlM (fun acc o => body o acc) s := by
  intro fuel
  induction fuel with
  | zero =>
    intro x s h
    have hx : ¬ x < hi := by omega
    simp [forStep, origins, hx]
    rfl
  | succ fuel ih =>
    intro x s h
    by_cases hx : x < hi
    · have h2 : hi ≤ (x + step) + fuel * step := by
        have : (fuel + 1) * step = fuel * step + step := by ring
        omega
      simp only [forStep, origins, hx, if_true, List.foldlM_cons]
      cases hb : body x s with
      | error e => rfl
      | ok s1 => exact ih (x + step) s1 h2
    · simp [forStep, origins, hx]
      rfl

end Basics

section Loops

variable {α : Type}

theorem mem_origins {hi step : Nat} :
    ∀ (fuel x o : Nat), o ∈ origins fuel x hi step → x ≤ o ∧ o < hi := by
  intro fuel
  induction fuel with
  | zero => intro x o h; simp [origins] at h
  | succ fuel ih =>
    intro x o h
    by_cases hx : x < hi
    · simp only [origins, hx, if_true, List.mem_cons] at h
      rcases h with h | h
      · subst h; exact ⟨le_refl _, hx⟩
      · have := ih (x + step) o h
        omega
    · simp [origins, hx] at h

theorem CellWise.congr [Zero α] {n : Nat} {F : List α → Except Fault (List α)}
    {T T1 : Nat → Nat → α → α} (h : CellWise n F T)
    (e : ∀ i j v, i < n → j < n → T i j v = T1 i j v) : CellWise n F T1 := by
  intro c hc
  obtain ⟨c1, h1, h2, h3⟩ := h c hc
  exact ⟨c1, h1, h2, fun i j hi hj => by rw [h3 i j hi hj, e i j _ hi hj]⟩

theorem CellWise.foldlM [Zero α] {n : Nat} {ι : Type} (xs : List ι)
    (body : ι → List α → Except Fault (List α)) (T : ι → Nat → Nat → α → α)
    (h : ∀ x ∈ xs, CellWise n (body x) (T x)) :
    CellWise n (fun c => xs.foldlM (fun acc x => body x acc) c)
      (fun i j v => xs.foldl (fun w x => T x i j w) v) := by
  induction xs with
  | nil =>
    intro c hc
    exact ⟨c, rfl, hc, fun _ _ _ _ => rfl⟩
  | cons x xs ih =>
    intro c hc
    obtain ⟨c1, h1, h2, h3⟩ := h x (List.mem_cons_self x xs) c hc
    obtain ⟨c2, k1, k2, k3⟩ := ih (fun y hy => h y (List.mem_cons_of_mem x hy)) c1 h2
    refine ⟨c2, ?_, k2, ?_⟩
    · simp only [List.foldlM_cons, h1]
      exact k1
    · intro i j hi hj
      rw [k3 i j hi hj, h3 i j hi hj]
      rfl

theorem CellWise.forRange [Zero α] {n : Nat} (lo hi : Nat)
    (body : Nat → List α → Except Fault (List α)) (T : Nat → Nat → Nat → α → α)
    (h : ∀ x, lo ≤ x → x < hi → CellWise n (body x) (T x)) :
    CellWise n (MatMul.forRange lo hi body)
      (fun i j v => (List.range' lo (hi - lo)).foldl (fun w x => T x i j w) v) := by
  refine CellWise.foldlM (List.range' lo (hi - lo)) body T ?_
  intro x hx
  rw [List.mem_range'_1] at hx
  exact h x hx.1 (by omega)

theorem CellWise.forStep [Zero α] {n : Nat} (fuel x0 hi step : Nat)
    (hfuel : hi ≤ x0 + fuel * step)
    (body : Nat → List α → Except Fault (List α)) (T : Nat → Nat → Nat → α → α)
    (h : ∀ o, x0 ≤ o → o < hi → CellWise n (body o) (T o)) :
    CellWise n (MatMul.forStep fuel x0 hi step body)
      (fun i j v => (origins fuel x0 hi step).foldl (fun w o => T o i j w) v) := by
  have key := CellWise.foldlM (origins fuel x0 hi step) body T
    (fun o ho => h o (mem_origins fuel x0 o ho).1 (mem_origins fuel x0 o ho).2)
  intro c hc
  obtain ⟨c1, h1, h2, h3⟩ := key c hc
  refine ⟨c1, ?_, h2, h3⟩
  rw [forStep_eq_foldlM body hi step fuel x0 c hfuel]
  exact h1

/-- A guard that does not depend on the loop variable can be moved out of the loop. -/
theorem foldl_guard {β ι : Type} (p : Prop) [Decidable p] (g : ι → β → β) (xs : List ι)
    (v : β) :
    xs.foldl (fun w x => if p then g x w else w) v
      = if p then xs.foldl (fun w x => g x w) v else v := by
  by_cases hp : p
  · simp [hp]
  · simp only [hp, if_false]
    induction xs with
    | nil => rfl
    | cons x xs ih => rw [List.foldl_cons]; exact ih

/-- A unit-stride loop whose body acts only when the loop variable equals `i` acts
exactly once if `i` is in the range and not at all otherwise. -/
theorem foldl_range_pick {β : Type} (i : Nat) (g : Nat → β → β) :
    ∀ (len lo : Nat) (v : β),
      (List.range' lo len).foldl (fun w x => if i = x then g x w else w) v
        = if lo ≤ i ∧ i < lo + len then g i v else v := by
  intro len
  induction len with
  | zero =>
    intro lo v
    have : ¬ (lo ≤ i ∧ i < lo + 0) := by omega
    rw [if_neg this]
    rfl
  | succ len ih =>
    intro lo v
    rw [List.range'_succ, List.foldl_cons, ih (lo + 1)]
    by_cases h : i = lo
    · subst h
      have h1 : ¬ (i + 1 ≤ i ∧ i < i + 1 + len) := by omega
      have h2 : i ≤ i ∧ i < i + (len + 1) := by omega
      rw [if_neg h1, if_pos h2, if_pos rfl]
    · by_cases h1 : lo + 1 ≤ i ∧ i < lo + 1 + len
      · have h2 : lo ≤ i ∧ i < lo + (len + 1) := by omega
        rw [if_pos h1, if_pos h2, if_neg h]
      · have h2 : ¬ (lo ≤ i ∧ i < lo + (len + 1)) := by omega
        rw [if_neg h1, if_neg h2, if_neg h]

/-- A strided loop over tiles `[o, E o)` whose body acts only on the tile holding
`i` acts exactly once if `i` is in the range of the loop and not at all otherwise. -/
theorem foldl_origins_pick {β : Type} (i hi step : Nat) (E : Nat → Nat) (g : β → β)
    (hE : ∀ o, o < hi → E o = min (o + step) hi) :
    ∀ (fuel x : Nat) (v : β), hi ≤ x + fuel * step →
      (origins fuel x hi step).foldl (fun w o => if o ≤ i ∧ i < E o then g w else w) v
        = if x ≤ i ∧ i < hi then g v else v := by
  intro fuel
  induction fuel with
  | zero =>
    intro x v h
    have : ¬ (x ≤ i ∧ i < hi) := by omega
    rw [if_neg this]
    simp [origins]
  | succ fuel ih =>
    intro x v h
    by_cases hx : x < hi
    · have h2 : hi ≤ (x + step) + fuel * step := by
        have : (fuel + 1) * step = fuel * step + step := by ring
        omega
      simp only [origins, hx, if_true, List.foldl_cons]
      rw [ih (x + step) _ h2, hE x hx]
      by_cases h1 : x ≤ i ∧ i < min (x + step) hi
      · have h3 : ¬ (x + step ≤ i ∧ i < hi) := by omega
        have h4 : x ≤ i ∧ i < hi := by omega
        rw [if_pos h1, if_neg h3, if_pos h4]
      · by_cases h3 : x + step ≤ i ∧ i < hi
        · have h4 : x ≤ i ∧ i < hi := by omega
          rw [if_neg h1, if_pos h3, if_pos h4]
        · have h4 : ¬ (x ≤ i ∧ i < hi) := by omega
          rw [if_neg h1, if_neg h3, if_neg h4]
    · have : ¬ (x ≤ i ∧ i < hi) := by omega
      rw [if_neg this]
      simp [origins, hx]

/-- Running a fold tile after tile is running it over the whole range. -/
theorem foldl_origins_concat {β : Type} (hi step : Nat) (E : Nat → Nat) (g : β → Nat → β)
    (hE : ∀ o, o < hi → E o = min (o + step) hi) :
    ∀ (fuel x : Nat) (v : β), hi ≤ x + fuel * step →
      (origins fuel x hi step).foldl (fun w o => (List.range' o (E o - o)).foldl g w) v
        = (List.range' x (hi - x)).foldl g v := by
  intro fuel
  induction fuel with
  | zero =>
    intro x v h
    have : hi - x = 0 := by omega
    simp [origins, this]
  | succ fuel ih =>
    intro x v h
    by_cases hx : x < hi
    · have h2 : hi ≤ (x + step) + fuel * step := by
        have : (fuel + 1) * step = fuel * step + step := by ring
        omega
      simp only [origins, hx, if_true, List.foldl_cons]
      rw [ih (x + step) _ h2, hE x hx, ← List.foldl_append]
      congr 1
      by_cases hs : x + step ≤ hi
      · have e1 : min (x + step) hi - x = step := by omega
        rw [e1, List.range'_append_1]
        congr 1
        omega
      · have e1 : min (x + step) hi - x = hi - x := by omega
        have e2 : hi - (x + step) = 0 := by omega
        rw [e1, e2]
        simp
    · have : hi - x = 0 := by omega
      simp [origins, hx, this]

/-- The unit-stride loop `for (x = lo; x < hi; x++)` whose body acts only when `x = i`. -/
theorem foldl_forRange_pick {β : Type} (i : Nat) (g : Nat → β → β) (lo hi : Nat) (v : β) :
    (List.range' lo (hi - lo)).foldl (fun w x => if i = x then g x w else w) v
      = if lo ≤ i ∧ i < hi then g i v else v := by
  rw [foldl_range_pick]
  by_cases h : lo ≤ i ∧ i < hi
  · have h2 : lo ≤ i ∧ i < lo + (hi - lo) := by omega
    rw [if_pos h, if_pos h2]
  · have h2 : ¬ (lo ≤ i ∧ i < lo + (hi - lo)) := by omega
    rw [if_neg h, if_neg h2]

theorem tileEnd_eq (n tile_size : Nat) (o : Nat) (_h : o < n) :
    tileEnd n tile_size o = min (o + tile_size) n := by
  unfold tileEnd
  split <;> omega

theorem tileEnd_le (n tile_size o : Nat) : tileEnd n tile_size o ≤ n := by
  unfold tileEnd
  split <;> omega

end Loops

section Steps

variable {α : Type}

theorem ok_bind {β γ : Type} (a : β) (f : β → Except Fault γ) :
    (Except.ok a >>= f) = f a := rfl

theorem cell_set_rmw [Zero α] {n : Nat} {c : List α} (hc : c.length = n * n) {i j : Nat}
    (hi : i < n) (hj : j < n) (G : α → α) {i1 j1 : Nat} (hj1 : j1 < n) :
    cell n (c.set (i * n + j) (G (cell n c i j))) i1 j1
      = (fun (v : α) => if i1 = i then (if j1 = j then G v else v) else v) (cell n c i1 j1) := by
  rw [cell_set hc hi hj _ hj1]
  by_cases e1 : i1 = i
  · by_cases e2 : j1 = j
    · subst e1; subst e2; simp
    · simp [e1, e2]
  · simp [e1]

/-- The statement `C[i*n+j] += A[i*n+k] * B[k*n+j]` of `naive_multiply`. -/
theorem cellWise_madd [Add α] [Mul α] [Zero α] {n : Nat} (a b : List α)
    (ha : a.length = n * n) (hb : b.length = n * n) {i j k : Nat}
    (hi : i < n) (hj : j < n) (hk : k < n) :
    CellWise n
      (fun c => do
        let cij ← load c (i * n + j)
        let x ← load a (i * n + k)
        let y ← load b (k * n + j)
        store c (i * n + j) (cij + x * y))
      (fun i1 j1 v =>
        if i1 = i then (if j1 = j then v + cell n a i k * cell n b k j else v) else v) := by
  intro c hc
  have hlt : i * n + j < c.length := by rw [hc]; exact idx_lt hi hj
  refine ⟨c.set (i * n + j) (cell n c i j + cell n a i k * cell n b k j), ?_, ?_, ?_⟩
  · simp only [load_cell hc hi hj, load_cell ha hi hk, load_cell hb hk hj, ok_bind,
      store_ok _ hlt]
  · simp [hc]
  · intro i1 j1 _ hj1
    exact cell_set_rmw hc hi hj (fun v => v + cell n a i k * cell n b k j) hj1

/-- The statement `C[i*n+j] += a_ik * B[k*n+j]` of `cache_aware_multiply_tiled`. -/
theorem cellWise_axpy [Add α] [Mul α] [Zero α] {n : Nat} (x : α) (b : List α)
    (hb : b.length = n * n) {i j k : Nat} (hi : i < n) (hj : j < n) (hk : k < n) :
    CellWise n
      (fun c => do
        let cij ← load c (i * n + j)
        let y ← load b (k * n + j)
        store c (i * n + j) (cij + x * y))
      (fun i1 j1 v => if i1 = i then (if j1 = j then v + x * cell n b k j else v) else v) := by
  intro c hc
  have hlt : i * n + j < c.length := by rw [hc]; exact idx_lt hi hj
  refine ⟨c.set (i * n + j) (cell n c i j + x * cell n b k j), ?_, ?_, ?_⟩
  · simp only [load_cell hc hi hj, load_cell hb hk hj, ok_bind, store_ok _ hlt]
  · simp [hc]
  · intro i1 j1 _ hj1
    exact cell_set_rmw hc hi hj (fun v => v + x * cell n b k j) hj1

/-- The body of the `j` loop of `cache_aware_multiply`: the scalar `sum` starts from
`C[i*n+j]`, accumulates over `k` in `[kk, k_end)` and is written back. -/
theorem cellWise_sum [Add α] [Mul α] [Zero α] {n : Nat} (a b : List α)
    (ha : a.length = n * n) (hb : b.length = n * n) {i j : Nat}
    (hi : i < n) (hj : j < n) (kk k_end : Nat) (hk : k_end ≤ n) :
    CellWise n
      (fun c => do
        let sum ← load c (i * n + j)
        let sum ← MatMul.forRange kk k_end (fun k sum => do
          let x ← load a (i * n + k)
          let y ← load b (k * n + j)
          pure (sum + x * y)) sum
        store c (i * n + j) sum)
      (fun i1 j1 v =>
        if i1 = i then
          (if j1 = j then accum n a b i j v (List.range' kk (k_end - kk)) else v)
        else v) := by
  intro c hc
  have hlt : i * n + j < c.length := by rw [hc]; exact idx_lt hi hj
  have hloop : ∀ s : α, MatMul.forRange kk k_end (fun k sum => do
          let x ← load a (i * n + k)
          let y ← load b (k * n + j)
          pure (sum + x * y)) s = .ok (accum n a b i j s (List.range' kk (k_end - kk))) := by
    intro s
    unfold MatMul.forRange accum
    refine foldlM_ok _ _ (fun k acc => acc + cell n a i k * cell n b k j) ?_ s
    intro k hmem s1
    rw [List.mem_range'_1] at hmem
    have hkn : k < n := by omega
    simp only [load_cell ha hi hkn, load_cell hb hkn hj, ok_bind]
    rfl
  refine ⟨c.set (i * n + j) (accum n a b i j (cell n c i j) (List.range' kk (k_end - kk))),
    ?_, ?_, ?_⟩
  · simp only [load_cell hc hi hj, hloop, ok_bind, store_ok _ hlt]
  · simp [hc]
  · intro i1 j1 _ hj1
    exact cell_set_rmw hc hi hj
      (fun v => accum n a b i j v (List.range' kk (k_end - kk))) hj1

end Steps

section Naive

variable {α : Type} [Add α] [Mul α] [Zero α]

theorem naive_k_loop {n : Nat} (a b : List α) (ha : a.length = n * n)
    (hb : b.length = n * n) {i j : Nat} (hi : i < n) (hj : j < n) :
    CellWise n
      (MatMul.forRange 0 n (fun k c => do
        let cij ← load c (i * n + j)
        let x ← load a (i * n + k)
        let y ← load b (k * n + j)
        store c (i * n + j) (cij + x * y)))
      (fun i1 j1 v =>
        if i1 = i then (if j1 = j then accum n a b i j v (List.range' 0 n) else v)
        else v) := by
  refine (CellWise.forRange 0 n _ _ (fun k _ hk => cellWise_madd a b ha hb hi hj hk)).congr ?_
  intro i1 j1 v _ _
  simp only [Nat.sub_zero]
  rw [foldl_guard, foldl_guard]
  rfl

theorem naive_j_loop {n : Nat} (a b : List α) (ha : a.length = n * n)
    (hb : b.length = n * n) {i : Nat} (hi : i < n) :
    CellWise n
      (MatMul.forRange 0 n (fun j c => MatMul.forRange 0 n (fun k c => do
        let cij ← load c (i * n + j)
        let x ← load a (i * n + k)
        let y ← load b (k * n + j)
        store c (i * n + j) (cij + x * y)) c))
      (fun i1 j1 v => if i1 = i then accum n a b i1 j1 v (List.range' 0 n) else v) := by
  refine (CellWise.forRange 0 n _ _ (fun j _ hj => naive_k_loop a b ha hb hi hj)).congr ?_
  intro i1 j1 v _ hj1
  simp only [Nat.sub_zero]
  rw [foldl_guard, foldl_range_pick j1 (fun j w => accum n a b i j w (List.range' 0 n))]
  have h : 0 ≤ j1 ∧ j1 < 0 + n := by omega
  rw [if_pos h]
  by_cases e : i1 = i
  · rw [e]
  · rw [if_neg e, if_neg e]

theorem naive_i_loop {n : Nat} (a b : List α) (ha : a.length = n * n)
    (hb : b.length = n * n) :
    CellWise n
      (MatMul.forRange 0 n (fun i c =>
        MatMul.forRange 0 n (fun j c => MatMul.forRange 0 n (fun k c => do
          let cij ← load c (i * n + j)
          let x ← load a (i * n + k)
          let y ← load b (k * n + j)
          store c (i * n + j) (cij + x * y)) c) c))
      (fun i1 j1 v => accum n a b i1 j1 v (List.range' 0 n)) := by
  refine (CellWise.forRange 0 n _ _ (fun i _ hi => naive_j_loop a b ha hb hi)).congr ?_
  intro i1 j1 v hi1 _
  simp only [Nat.sub_zero]
  rw [foldl_range_pick i1 (fun _ w => accum n a b i1 j1 w (List.range' 0 n))]
  have h : 0 ≤ i1 ∧ i1 < 0 + n := by omega
  rw [if_pos h]

end Naive

section Blocked

variable {α : Type} [Add α] [Mul α] [Zero α]

theorem ijk_j_loop {n : Nat} (a b : List α) (ha : a.length = n * n)
    (hb : b.length = n * n) {i : Nat} (hi : i < n) (jj j_end kk k_end : Nat)
    (hj : j_end ≤ n) (hk : k_end ≤ n) :
    CellWise n
      (MatMul.forRange jj j_end (fun j c => do
        let sum ← load c (i * n + j)
        let sum ← MatMul.forRange kk k_end (fun k sum => do
          let x ← load a (i * n + k)
          let y ← load b (k * n + j)
          pure (sum + x * y)) sum
        store c (i * n + j) sum))
      (fun i1 j1 v =>
        if i1 = i then
          (if jj ≤ j1 ∧ j1 < j_end then accum n a b i1 j1 v (List.range' kk (k_end - kk))
            else v)
        else v) := by
  refine (CellWise.forRange jj j_end _ _
    (fun j _ hj1 => cellWise_sum a b ha hb hi (show j < n by omega) kk k_end hk)).congr ?_
  intro i1 j1 v _ _
  rw [foldl_guard, foldl_forRange_pick j1
    (fun j w => accum n a b i j w (List.range' kk (k_end - kk)))]
  by_cases e : i1 = i
  · rw [e]
  · rw [if_neg e, if_neg e]

theorem ijk_i_loop {n : Nat} (a b : List α) (ha : a.length = n * n)
    (hb : b.length = n * n) (ii i_end jj j_end kk k_end : Nat)
    (hi : i_end ≤ n) (hj : j_end ≤ n) (hk : k_end ≤ n) :
    CellWise n
      (MatMul.forRange ii i_end (fun i c => MatMul.forRange jj j_end (fun j c => do
        let sum ← load c (i * n + j)
        let sum ← MatMul.forRange kk k_end (fun k sum => do
          let x ← load a (i * n + k)
          let y ← load b (k * n + j)
          pure (sum + x * y)) sum
        store c (i * n + j) sum) c))
      (fun i1 j1 v =>
        if ii ≤ i1 ∧ i1 < i_end then
          (if jj ≤ j1 ∧ j1 < j_end then accum n a b i1 j1 v (List.range' kk (k_end - kk))
            else v)
        else v) := by
  refine (CellWise.forRange ii i_end _ _
    (fun i _ hi1 => ijk_j_loop a b ha hb (show i < n by omega) jj j_end kk k_end hj hk)).congr ?_
  intro i1 j1 v _ _
  rw [foldl_forRange_pick i1 (fun _ w =>
    if jj ≤ j1 ∧ j1 < j_end then accum n a b i1 j1 w (List.range' kk (k_end - kk)) else w)]

theorem ijk_kk_loop {n : Nat} (a b : List α) (ha : a.length = n * n)
    (hb : b.length = n * n) (fuel tile_size : Nat) (hfuel : n ≤ fuel * tile_size)
    (ii jj : Nat) :
    CellWise n
      (MatMul.forStep fuel 0 n tile_size (fun kk c =>
        let i_end := if ii + tile_size < n then ii + tile_size else n
        let j_end := if jj + tile_size < n then jj + tile_size else n
        let k_end := if kk + tile_size < n then kk + tile_size else n
        MatMul.forRange ii i_end (fun i c => MatMul.forRange jj j_end (fun j c => do
          let sum ← load c (i * n + j)
          let sum ← MatMul.forRange kk k_end (fun k sum => do
            let x ← load a (i * n + k)
            let y ← load b (k * n + j)
            pure (sum + x * y)) sum
          store c (i * n + j) sum) c) c))
      (fun i1 j1 v =>
        if ii ≤ i1 ∧ i1 < tileEnd n tile_size ii then
          (if jj ≤ j1 ∧ j1 < tileEnd n tile_size jj then
            accum n a b i1 j1 v (List.range' 0 n)
          else v)
        else v) := by
  refine (CellWise.forStep fuel 0 n tile_size (by omega) _ _
    (fun kk _ _ => ijk_i_loop a b ha hb ii (tileEnd n tile_size ii) jj (tileEnd n tile_size jj)
      kk (tileEnd n tile_size kk) (tileEnd_le _ _ _) (tileEnd_le _ _ _) (tileEnd_le _ _ _))).congr ?_
  intro i1 j1 v _ _
  rw [foldl_guard, foldl_guard]
  unfold accum
  rw [foldl_origins_concat n tile_size (tileEnd n tile_size) _ (tileEnd_eq n tile_size) fuel 0 v
    (by omega)]
  simp only [Nat.sub_zero]

theorem ijk_jj_loop {n : Nat} (a b : List α) (ha : a.length = n * n)
    (hb : b.length = n * n) (fuel tile_size : Nat) (hfuel : n ≤ fuel * tile_size)
    (ii : Nat) :
    CellWise n
      (MatMul.forStep fuel 0 n tile_size (fun jj c =>
        MatMul.forStep fuel 0 n tile_size (fun kk c =>
          let i_end := if ii + tile_size < n then ii + tile_size else n
          let j_end := if jj + tile_size < n then jj + tile_size else n
          let k_end := if kk + tile_size < n then kk + tile_size else n
          MatMul.forRange ii i_end (fun i c => MatMul.forRange jj j_end (fun j c => do
            let sum ← load c (i * n + j)
            let sum ← MatMul.forRange kk k_end (fun k sum => do
              let x ← load a (i * n + k)
              let y ← load b (k * n + j)
              pure (sum + x * y)) sum
            store c (i * n + j) sum) c) c) c))
      (fun i1 j1 v =>
        if ii ≤ i1 ∧ i1 < tileEnd n tile_size ii then accum n a b i1 j1 v (List.range' 0 n)
        else v) := by
  refine (CellWise.forStep fuel 0 n tile_size (by omega) _ _
    (fun jj _ _ => ijk_kk_loop a b ha hb fuel tile_size hfuel ii jj)).congr ?_
  intro i1 j1 v _ hj1
  rw [foldl_guard, foldl_origins_pick j1 n tile_size (tileEnd n tile_size)
    (fun w => accum n a b i1 j1 w (List.range' 0 n)) (tileEnd_eq n tile_size) fuel 0 v (by omega)]
  have h : 0 ≤ j1 ∧ j1 < n := by omega
  rw [if_pos h]

theorem ijk_ii_loop {n : Nat} (a b : List α) (ha : a.length = n * n)
    (hb : b.length = n * n) (fuel tile_size : Nat) (hfuel : n ≤ fuel * tile_size) :
    CellWise n
      (MatMul.forStep fuel 0 n tile_size (fun ii c =>
        MatMul.forStep fuel 0 n tile_size (fun jj c =>
          MatMul.forStep fuel 0 n tile_size (fun kk c =>
            let i_end := if ii + tile_size < n then ii + tile_size else n
            let j_end := if jj + tile_size < n then jj + tile_size else n
            let k_end := if kk + tile_size < n then kk + tile_size else n
            MatMul.forRange ii i_end (fun i c => MatMul.forRange jj j_end (fun j c => do
              let sum ← load c (i * n + j)
              let sum ← MatMul.forRange kk k_end (fun k sum => do
                let x ← load a (i * n + k)
                let y ← load b (k * n + j)
                pure (sum + x * y)) sum
              store c (i * n + j) sum) c) c) c) c))
      (fun i1 j1 v => accum n a b i1 j1 v (List.range' 0 n)) := by
  refine (CellWise.forStep fuel 0 n tile_size (by omega) _ _
    (fun ii _ _ => ijk_jj_loop a b ha hb fuel tile_size hfuel ii)).congr ?_
  intro i1 j1 v hi1 _
  rw [foldl_origins_pick i1 n tile_size (tileEnd n tile_size)
    (fun w => accum n a b i1 j1 w (List.range' 0 n)) (tileEnd_eq n tile_size) fuel 0 v (by omega)]
  have h : 0 ≤ i1 ∧ i1 < n := by omega
  rw [if_pos h]

end Blocked

section Tiled

variable {α : Type} [Add α] [Mul α] [Zero α]

/-- The `j` loop of `cache_aware_multiply_tiled` for a fixed `i`, `k` and a value `x`
held in `a_ik`. -/
theorem ikj_j_loop {n : Nat} (x : α) (b : List α) (hb : b.length = n * n) {i k : Nat}
    (hi : i < n) (hk : k < n) (jj j_end : Nat) (hj : j_end ≤ n) :
    CellWise n
      (MatMul.forRange jj j_end (fun j c => do
        let cij ← load c (i * n + j)
        let y ← load b (k * n + j)
        store c (i * n + j) (cij + x * y)))
      (fun i1 j1 v =>
        if i1 = i then (if jj ≤ j1 ∧ j1 < j_end then v + x * cell n b k j1 else v)
        else v) := by
  refine (CellWise.forRange jj j_end _ _
    (fun j _ hj1 => cellWise_axpy x b hb hi (show j < n by omega) hk)).congr ?_
  intro i1 j1 v _ _
  rw [foldl_guard, foldl_forRange_pick j1 (fun j w => w + x * cell n b k j)]

/-- The body of the `k` loop of `cache_aware_multiply_tiled`. -/
theorem ikj_row {n : Nat} (a b : List α) (ha : a.length = n * n) (hb : b.length = n * n)
    (jj j_end i k : Nat) (hi : i < n) (hk : k < n) (hj : j_end ≤ n) :
    CellWise n
      (fun c => do
        let a_ik ← load a (i * n + k)
        MatMul.forRange jj j_end (fun j c => do
          let cij ← load c (i * n + j)
          let y ← load b (k * n + j)
          store c (i * n + j) (cij + a_ik * y)) c)
      (fun i1 j1 v =>
        if i1 = i then
          (if jj ≤ j1 ∧ j1 < j_end then v + cell n a i k * cell n b k j1 else v)
        else v) := by
  intro c hc
  simp only [load_cell ha hi hk, ok_bind]
  exact ikj_j_loop (cell n a i k) b hb hi hk jj j_end hj c hc


theorem ikj_row_isRow {n : Nat} (a b : List α) (ha : a.length = n * n)
    (hb : b.length = n * n) :
    IsRow n a b (fun jj j_end i k c => do
      let a_ik ← load a (i * n + k)
      MatMul.forRange jj j_end (fun j c => do
        let cij ← load c (i * n + j)
        let y ← load b (k * n + j)
        store c (i * n + j) (cij + a_ik * y)) c) :=
  fun jj j_end i k hi hk hj => ikj_row a b ha hb jj j_end i k hi hk hj

theorem ikj_k_loop {n : Nat} (a b : List α)
    (row : Nat → Nat → Nat → Nat → List α → Except Fault (List α)) (hrow : IsRow n a b row)
    {i : Nat} (hi : i < n) (jj j_end kk k_end : Nat) (hj : j_end ≤ n) (hk : k_end ≤ n) :
    CellWise n
      (MatMul.forRange kk k_end (fun k c => row jj j_end i k c))
      (fun i1 j1 v =>
        if i1 = i then
          (if jj ≤ j1 ∧ j1 < j_end then accum n a b i1 j1 v (List.range' kk (k_end - kk))
            else v)
        else v) := by
  refine (CellWise.forRange kk k_end _ _
    (fun k _ hk1 => hrow jj j_end i k hi (show k < n by omega) hj)).congr ?_
  intro i1 j1 v _ _
  rw [foldl_guard, foldl_guard]
  by_cases e : i1 = i
  · rw [e]; rfl
  · rw [if_neg e, if_neg e]

theorem ikj_i_loop {n : Nat} (a b : List α)
    (row : Nat → Nat → Nat → Nat → List α → Except Fault (List α)) (hrow : IsRow n a b row)
    (ii i_end jj j_end kk k_end : Nat) (hi : i_end ≤ n) (hj : j_end ≤ n) (hk : k_end ≤ n) :
    CellWise n
      (MatMul.forRange ii i_end (fun i c =>
        MatMul.forRange kk k_end (fun k c => row jj j_end i k c) c))
      (fun i1 j1 v =>
        if ii ≤ i1 ∧ i1 < i_end then
          (if jj ≤ j1 ∧ j1 < j_end then accum n a b i1 j1 v (List.range' kk (k_end - kk))
            else v)
        else v) := by
  refine (CellWise.forRange ii i_end _ _
    (fun i _ hi1 => ikj_k_loop a b row hrow (show i < n by omega) jj j_end kk k_end hj hk)).congr ?_
  intro i1 j1 v _ _
  rw [foldl_forRange_pick i1 (fun _ w =>
    if jj ≤ j1 ∧ j1 < j_end then accum n a b i1 j1 w (List.range' kk (k_end - kk)) else w)]

theorem ikj_jj_loop {n : Nat} (a b : List α)
    (row : Nat → Nat → Nat → Nat → List α → Except Fault (List α)) (hrow : IsRow n a b row)
    (fuel tile_size : Nat) (hfuel : n ≤ fuel * tile_size) (ii kk : Nat) :
    CellWise n
      (MatMul.forStep fuel 0 n tile_size (fun jj c =>
        let i_end := if ii + tile_size < n then ii + tile_size else n
        let j_end := if jj + tile_size < n then jj + tile_size else n
        let k_end := if kk + tile_size < n then kk + tile_size else n
        MatMul.forRange ii i_end (fun i c =>
          MatMul.forRange kk k_end (fun k c => row jj j_end i k c) c) c))
      (fun i1 j1 v =>
        if ii ≤ i1 ∧ i1 < tileEnd n tile_size ii then
          accum n a b i1 j1 v (List.range' kk (tileEnd n tile_size kk - kk))
        else v) := by
  refine (CellWise.forStep fuel 0 n tile_size (by omega) _ _
    (fun jj _ _ => ikj_i_loop a b row hrow ii (tileEnd n tile_size ii) jj
      (tileEnd n tile_size jj) kk (tileEnd n tile_size kk) (tileEnd_le _ _ _) (tileEnd_le _ _ _)
      (tileEnd_le _ _ _))).congr ?_
  intro i1 j1 v _ hj1
  rw [foldl_guard, foldl_origins_pick j1 n tile_size (tileEnd n tile_size)
    (fun w => accum n a b i1 j1 w (List.range' kk (tileEnd n tile_size kk - kk)))
    (tileEnd_eq n tile_size) fuel 0 v (by omega)]
  have h : 0 ≤ j1 ∧ j1 < n := by omega
  rw [if_pos h]

theorem ikj_kk_loop {n : Nat} (a b : List α)
    (row : Nat → Nat → Nat → Nat → List α → Except Fault (List α)) (hrow : IsRow n a b row)
    (fuel tile_size : Nat) (hfuel : n ≤ fuel * tile_size) (ii : Nat) :
    CellWise n
      (MatMul.forStep fuel 0 n tile_size (fun kk c =>
        MatMul.forStep fuel 0 n tile_size (fun jj c =>
          let i_end := if ii + tile_size < n then ii + tile_size else n
          let j_end := if jj + tile_size < n then jj + tile_size else n
          let k_end := if kk + tile_size < n then kk + tile_size else n
          MatMul.forRange ii i_end (fun i c =>
            MatMul.forRange kk k_end (fun k c => row jj j_end i k c) c) c) c))
      (fun i1 j1 v =>
        if ii ≤ i1 ∧ i1 < tileEnd n tile_size ii then accum n a b i1 j1 v (List.range' 0 n)
        else v) := by
  refine (CellWise.forStep fuel 0 n tile_size (by omega) _ _
    (fun kk _ _ => ikj_jj_loop a b row hrow fuel tile_size hfuel ii kk)).congr ?_
  intro i1 j1 v _ _
  rw [foldl_guard]
  unfold accum
  rw [foldl_origins_concat n tile_size (tileEnd n tile_size) _ (tileEnd_eq n tile_size) fuel 0 v
    (by omega)]
  simp only [Nat.sub_zero]

theorem ikj_ii_loop {n : Nat} (a b : List α)
    (row : Nat → Nat → Nat → Nat → List α → Except Fault (List α)) (hrow : IsRow n a b row)
    (fuel tile_size : Nat) (hfuel : n ≤ fuel * tile_size) :
    CellWise n
      (MatMul.forStep fuel 0 n tile_size (fun ii c =>
        MatMul.forStep fuel 0 n tile_size (fun kk c =>
          MatMul.forStep fuel 0 n tile_size (fun jj c =>
            let i_end := if ii + tile_size < n then ii + tile_size else n
            let j_end := if jj + tile_size < n then jj + tile_size else n
            let k_end := if kk + tile_size < n then kk + tile_size else n
            MatMul.forRange ii i_end (fun i c =>
              MatMul.forRange kk k_end (fun k c => row jj j_end i k c) c) c) c) c))
      (fun i1 j1 v => accum n a b i1 j1 v (List.range' 0 n)) := by
  refine (CellWise.forStep fuel 0 n tile_size (by omega) _ _
    (fun ii _ _ => ikj_kk_loop a b row hrow fuel tile_size hfuel ii)).congr ?_
  intro i1 j1 v hi1 _
  rw [foldl_origins_pick i1 n tile_size (tileEnd n tile_size)
    (fun w => accum n a b i1 j1 w (List.range' 0 n)) (tileEnd_eq n tile_size) fuel 0 v (by omega)]
  have h : 0 ≤ i1 ∧ i1 < n := by omega
  rw [if_pos h]

end Tiled

section Kernels

variable {α : Type}

theorem zero_fill_steps [Zero α] (buf : List α) :
    ∀ t, t ≤ buf.length →
      ∃ c1, (List.range' 0 t).foldlM (fun acc x => store acc x (0 : α)) buf = .ok c1 ∧
        c1.length = buf.length ∧ ∀ p : Nat, c1[p]? = (if p < t then some (0 : α) else (buf[p]?)) := by
  intro t
  induction t with
  | zero =>
    intro _
    exact ⟨buf, rfl, rfl, fun p => by simp⟩
  | succ t ih =>
    intro ht
    obtain ⟨c1, h1, h2, h3⟩ := ih (by omega)
    have hlt : 0 + t < c1.length := by omega
    refine ⟨c1.set (0 + t) 0, ?_, by simp [h2], ?_⟩
    · rw [List.range'_1_concat, List.foldlM_append, h1]
      simp only [List.foldlM_cons, List.foldlM_nil, ok_bind, store_ok _ hlt]
      rfl
    · intro p
      by_cases hp : p = t
      · subst hp
        have : p < c1.length := by omega
        simp [List.getElem?_set_eq_of_lt, this]
      · rw [List.getElem?_set_ne (by omega), h3 p]
        by_cases hpt : p < t
        · have : p < t + 1 := by omega
          simp [hpt, this]
        · have : ¬ p < t + 1 := by omega
          simp [hpt, this]

theorem zero_fill_ok [Zero α] {n : Nat} {c : List α} (hc : c.length = n * n) :
    zero_fill n c = .ok (List.replicate (n * n) 0) := by
  obtain ⟨c1, h1, h2, h3⟩ := zero_fill_steps c (n * n) (by omega)
  unfold zero_fill MatMul.forRange
  rw [Nat.sub_zero, h1]
  congr 1
  apply List.ext_getElem?
  intro p
  rw [h3 p, List.getElem?_replicate]
  by_cases hp : p < n * n
  · simp [hp]
  · have : c.length ≤ p := by omega
    simp [hp, List.getElem?_eq_none this]

theorem memset_zero_ok [Zero α] {n : Nat} {c : List α} (hc : c.length = n * n) :
    memset_zero c (n * n) = .ok (List.replicate (n * n) 0) := by
  unfold memset_zero
  have h : n * n ≤ c.length := by omega
  rw [if_pos h, ← hc, List.drop_length, List.append_nil]

theorem cell_replicate_zero [Zero α] {n i j : Nat} (hi : i < n) (hj : j < n) :
    cell n (List.replicate (n * n) (0 : α)) i j = 0 := by
  unfold cell
  simp [List.getElem?_replicate, idx_lt hi hj]

theorem div_mul_add_mod (n p : Nat) : p / n * n + p % n = p := by
  rw [Nat.mul_comm]
  exact Nat.div_add_mod p n

theorem eq_of_cells [Zero α] {n : Nat} {c : List α} (hc : c.length = n * n)
    (f : Nat → Nat → α) (h : ∀ i j, i < n → j < n → cell n c i j = f i j) :
    c = (List.range (n * n)).map (fun p => f (p / n) (p % n)) := by
  apply List.ext_getElem
  · simp [hc]
  · intro p h1 h2
    have hp : p < n * n := by omega
    have hn : 0 < n := by
      rcases Nat.eq_zero_or_pos n with h0 | h0
      · subst h0; simp at hp
      · exact h0
    have hi : p / n < n := (Nat.div_lt_iff_lt_mul hn).2 hp
    have hj : p % n < n := Nat.mod_lt p hn
    have hcell := h (p / n) (p % n) hi hj
    unfold cell at hcell
    rw [div_mul_add_mod, List.getD_eq_getElem?_getD, List.getElem?_eq_getElem h1] at hcell
    simp only [List.getElem_map, List.getElem_range]
    exact hcell

/-- A cell-wise accumulation over `k = 0, ..., n - 1` started on the zeroed buffer
yields the product. -/
theorem product_of_cellWise [Add α] [Mul α] [Zero α] {n : Nat} (a b : List α)
    (F : List α → Except Fault (List α))
    (h : CellWise n F (fun i j v => accum n a b i j v (List.range' 0 n))) :
    F (List.replicate (n * n) 0) = .ok (product n a b) := by
  obtain ⟨c1, h1, h2, h3⟩ := h (List.replicate (n * n) 0) (by simp)
  rw [h1]
  congr 1
  refine eq_of_cells h2 (fun i j => accum n a b i j 0 (List.range' 0 n)) ?_
  intro i j hi hj
  rw [h3 i j hi hj, cell_replicate_zero hi hj]

theorem product_length [Add α] [Mul α] [Zero α] (n : Nat) (a b : List α) :
    (product n a b).length = n * n := by
  simp [product]

theorem product_at [Add α] [Mul α] [Zero α] {n : Nat} (a b : List α) {i j : Nat}
    (hi : i < n) (hj : j < n) :
    (product n a b)[i * n + j]? = some (accum n a b i j 0 (List.range' 0 n)) := by
  have hn : 0 < n := by omega
  have e1 : (i * n + j) / n = i := by
    rw [Nat.add_comm, Nat.add_mul_div_right _ _ hn, Nat.div_eq_of_lt hj, Nat.zero_add]
  have e2 : (i * n + j) % n = j := by
    rw [Nat.add_comm, Nat.add_mul_mod_self_right, Nat.mod_eq_of_lt hj]
  unfold product
  rw [List.getElem?_map, List.getElem?_range (idx_lt hi hj)]
  simp [e1, e2]

/-- The result of `naive_multiply` on `n x n` matrices. -/
theorem naive_multiply_eq [Add α] [Mul α] [Zero α] {n : Nat} {A B C : Matrix α}
    (hA : A.IsSquare n) (hB : B.data.length = n * n) (hC : C.data.length = n * n) :
    naive_multiply A B C = .ok { C with data := product n A.data B.data } := by
  unfold naive_multiply
  simp only [hA.1, zero_fill_ok hC, ok_bind]
  have h := product_of_cellWise A.data B.data _ (naive_i_loop A.data B.data hA.2 hB)
  simp only [h, ok_bind]
  rfl

/-- The result of `cache_aware_multiply` on `n x n` matrices, given enough fuel for
the tile loops. -/
theorem cache_aware_multiply_eq [Add α] [Mul α] [Zero α] {n fuel tile_size : Nat}
    {A B C : Matrix α} (hA : A.IsSquare n) (hB : B.data.length = n * n)
    (hC : C.data.length = n * n) (hfuel : n ≤ fuel * tile_size) :
    cache_aware_multiply fuel A B C tile_size
      = .ok { C with data := product n A.data B.data } := by
  unfold cache_aware_multiply
  simp only [hA.1, zero_fill_ok hC, ok_bind]
  have h := product_of_cellWise A.data B.data _
    (ijk_ii_loop A.data B.data hA.2 hB fuel tile_size hfuel)
  simp only [h, ok_bind]
  rfl

/-- The result of `cache_aware_multiply_tiled` on `n x n` matrices, given enough fuel
for the tile loops. -/
theorem cache_aware_multiply_tiled_eq [Add α] [Mul α] [Zero α] {n fuel tile_size : Nat}
    {A B C : Matrix α} (hA : A.IsSquare n) (hB : B.data.length = n * n)
    (hC : C.data.length = n * n) (hfuel : n ≤ fuel * tile_size) :
    cache_aware_multiply_tiled fuel A B C tile_size
      = .ok { C with data := product n A.data B.data } := by
  unfold cache_aware_multiply_tiled
  simp only [hA.1, memset_zero_ok hC, ok_bind]
  have h := product_of_cellWise A.data B.data _
    (ikj_ii_loop A.data B.data _ (ikj_row_isRow A.data B.data hA.2 hB) fuel tile_size hfuel)
  simp only [h, ok_bind]
  rfl

end Kernels

section Vector

variable {α : Type}

theorem getD_map_range {β : Type} (f : Nat → β) (d : β) {m l : Nat} (h : l < m) :
    ((List.range m).map f).getD l d = f l := by
  rw [List.getD_eq_getElem?_getD, List.getElem?_map, List.getElem?_range h]
  rfl

theorem getD_splice [Zero α] (buf lanes : List α) (off len : Nat)
    (h : off + len ≤ buf.length) (hl : lanes.length = len) (p : Nat) :
    (buf.take off ++ lanes ++ buf.drop (off + len)).getD p 0
      = if off ≤ p ∧ p < off + len then lanes.getD (p - off) 0 else buf.getD p 0 := by
  have ht : (buf.take off).length = off := by
    rw [List.length_take]; omega
  simp only [List.getD_eq_getElem?_getD]
  by_cases h1 : p < off
  · have hc : ¬ (off ≤ p ∧ p < off + len) := by omega
    rw [if_neg hc, List.append_assoc, List.getElem?_append_left (by omega),
      List.getElem?_take_of_lt h1]
  · by_cases h2 : p < off + len
    · have hc : off ≤ p ∧ p < off + len := by omega
      rw [if_pos hc, List.append_assoc, List.getElem?_append_right (by omega),
        List.getElem?_append_left (by omega), ht]
    · have hc : ¬ (off ≤ p ∧ p < off + len) := by omega
      rw [if_neg hc, List.getElem?_append_right (by simp [ht, hl]; omega),
        List.getElem?_drop]
      congr 2
      simp [ht, hl]
      omega

/-- A vector load, multiply-add and store of `vl` lanes starting at column `j0`. -/
theorem cellWise_lanes [Add α] [Mul α] [Zero α] {n : Nat} (x : α) (VLMAX : Nat)
    (b : List α) (hb : b.length = n * n) {i k j0 j_end : Nat} (hi : i < n) (hk : k < n)
    (hj : j_end ≤ n) (vl : Nat) (hvl1 : j0 + vl ≤ j_end) (hvl2 : vl ≤ VLMAX) :
    CellWise n
      (fun c => do
        let vb ← vle64_v_f64m1 b (k * n + j0) vl
        let vc ← vle64_v_f64m1 c (i * n + j0) vl
        vse64_v_f64m1 c (i * n + j0) (vfmadd_vv_f64m1 (vfmv_v_f_f64m1 x VLMAX) vb vc vl) vl)
      (fun i1 j1 v =>
        if i1 = i then (if j0 ≤ j1 ∧ j1 < j0 + vl then v + x * cell n b k j1 else v)
        else v) := by
  intro c hc
  have hin : (i + 1) * n ≤ n * n := Nat.mul_le_mul_right n hi
  have hkn : (k + 1) * n ≤ n * n := Nat.mul_le_mul_right n hk
  have ein : (i + 1) * n = i * n + n := by ring
  have ekn : (k + 1) * n = k * n + n := by ring
  have hbl : k * n + j0 + vl ≤ b.length := by omega
  have hcl : i * n + j0 + vl ≤ c.length := by omega
  refine ⟨c.take (i * n + j0) ++ (List.range vl).map (fun l =>
      (vfmadd_vv_f64m1 (vfmv_v_f_f64m1 x VLMAX)
        ((List.range vl).map (fun l => b.getD (k * n + j0 + l) 0))
        ((List.range vl).map (fun l => c.getD (i * n + j0 + l) 0)) vl).getD l 0)
      ++ c.drop (i * n + j0 + vl), ?_, ?_, ?_⟩
  · simp only [vle64_v_f64m1, vse64_v_f64m1, if_pos hbl, if_pos hcl, ok_bind]
  · simp only [List.length_append, List.length_take, List.length_map, List.length_range,
      List.length_drop]
    omega
  · intro i1 j1 _ hj1
    unfold cell
    beta_reduce
    rw [getD_splice c _ (i * n + j0) vl hcl (by simp)]
    by_cases hin1 : i1 = i ∧ (j0 ≤ j1 ∧ j1 < j0 + vl)
    · obtain ⟨e, h1, h2⟩ := hin1
      subst e
      have hp : i1 * n + j0 ≤ i1 * n + j1 ∧ i1 * n + j1 < i1 * n + j0 + vl := by omega
      have hl : i1 * n + j1 - (i1 * n + j0) = j1 - j0 := by omega
      have hlt : j1 - j0 < vl := by omega
      rw [if_pos hp, hl, getD_map_range _ _ hlt, if_pos rfl, if_pos ⟨h1, h2⟩]
      unfold vfmadd_vv_f64m1 vfmv_v_f_f64m1
      rw [getD_map_range _ _ hlt, getD_map_range _ _ hlt, getD_map_range _ _ hlt]
      have e1 : i1 * n + j0 + (j1 - j0) = i1 * n + j1 := by omega
      have e2 : k * n + j0 + (j1 - j0) = k * n + j1 := by omega
      rw [e1, e2]
      congr 2
      simp [List.getElem?_replicate, show j1 - j0 < VLMAX by omega]
    · have hp : ¬ (i * n + j0 ≤ i1 * n + j1 ∧ i1 * n + j1 < i * n + j0 + vl) := by
        rintro ⟨h1, h2⟩
        have hj2 : j0 + (i1 * n + j1 - (i * n + j0)) < n := by omega
        have e : i1 * n + j1 = i * n + (j0 + (i1 * n + j1 - (i * n + j0))) := by omega
        obtain ⟨e1, e2⟩ := idx_inj hj1 hj2 e
        exact hin1 ⟨e1, by omega⟩
      rw [if_neg hp]
      by_cases e : i1 = i
      · have : ¬ (j0 ≤ j1 ∧ j1 < j0 + vl) := fun h => hin1 ⟨e, h⟩
        rw [if_pos e, if_neg this]
      · rw [if_neg e]

/-- One chunk of the vectorised `j` loop of `vector_multiply`: `actual_vl` lanes of `B`
and `C` are loaded, multiplied and added, and stored. -/
theorem cellWise_chunk [Add α] [Mul α] [Zero α] {n : Nat} (x : α) (VLMAX : Nat)
    (b : List α) (hb : b.length = n * n) {i k j0 j_end : Nat} (hi : i < n) (hk : k < n)
    (hj0 : j0 < j_end) (hj : j_end ≤ n) :
    CellWise n
      (fun c => do
        let actual_vl := vsetvl_e64m1 VLMAX (j_end - j0)
        let vb ← vle64_v_f64m1 b (k * n + j0) actual_vl
        let vc ← vle64_v_f64m1 c (i * n + j0) actual_vl
        let vc := vfmadd_vv_f64m1 (vfmv_v_f_f64m1 x VLMAX) vb vc actual_vl
        vse64_v_f64m1 c (i * n + j0) vc actual_vl)
      (fun i1 j1 v =>
        if i1 = i then
          (if j0 ≤ j1 ∧ j1 < j0 + min (j_end - j0) VLMAX then v + x * cell n b k j1 else v)
        else v) :=
  cellWise_lanes x VLMAX b hb hi hk hj (min (j_end - j0) VLMAX) (by omega) (by omega)

/-- The chunked `j` loop of `vector_multiply` (step `VLMAX`, the last chunk narrowed to
`j_end - j` lanes) adds `x * B[k][j]` to each cell `(i, j)` with `jj ≤ j < j_end`
exactly once and leaves every other cell as it is. -/
theorem vector_j_loop [Add α] [Mul α] [Zero α] {n : Nat} (x : α) (b : List α)
    (hb : b.length = n * n) (VLMAX fuel : Nat) (hfuel : n ≤ fuel * VLMAX)
    {i k : Nat} (hi : i < n) (hk : k < n) (jj j_end : Nat) (hj : j_end ≤ n) :
    CellWise n
      (MatMul.forStep fuel jj j_end VLMAX (fun j c => do
        let actual_vl := vsetvl_e64m1 VLMAX (j_end - j)
        let vb ← vle64_v_f64m1 b (k * n + j) actual_vl
        let vc ← vle64_v_f64m1 c (i * n + j) actual_vl
        let vc := vfmadd_vv_f64m1 (vfmv_v_f_f64m1 x VLMAX) vb vc actual_vl
        vse64_v_f64m1 c (i * n + j) vc actual_vl))
      (fun i1 j1 v =>
        if i1 = i then (if jj ≤ j1 ∧ j1 < j_end then v + x * cell n b k j1 else v)
        else v) := by
  refine (CellWise.forStep fuel jj j_end VLMAX (by omega) _ _
      (fun o _ h2 => cellWise_chunk x VLMAX b hb hi hk h2 hj)).congr ?_
  intro i1 j1 v _ _
  rw [foldl_guard, foldl_origins_pick j1 j_end VLMAX (fun o => o + min (j_end - o) VLMAX)
    (fun w => w + x * cell n b k j1) (fun o ho => by beta_reduce; omega) fuel jj v
    (by omega)]

/-- The body of the `k` loop of `vector_multiply` is a row update. -/
theorem vector_row_isRow [Add α] [Mul α] [Zero α] {n : Nat} (a b : List α)
    (ha : a.length = n * n) (hb : b.length = n * n) (VLMAX fuel : Nat)
    (hfuel : n ≤ fuel * VLMAX) :
    IsRow n a b (fun jj j_end i k c => do
      let a_ik ← load a (i * n + k)
      let va_ik := vfmv_v_f_f64m1 a_ik VLMAX
      MatMul.forStep fuel jj j_end VLMAX (fun j c => do
        let actual_vl := vsetvl_e64m1 VLMAX (j_end - j)
        let vb ← vle64_v_f64m1 b (k * n + j) actual_vl
        let vc ← vle64_v_f64m1 c (i * n + j) actual_vl
        let vc := vfmadd_vv_f64m1 va_ik vb vc actual_vl
        vse64_v_f64m1 c (i * n + j) vc actual_vl) c) := by
  intro jj j_end i k hi hk hj c hc
  simp only [load_cell ha hi hk, ok_bind]
  exact vector_j_loop (cell n a i k) b hb VLMAX fuel hfuel hi hk jj j_end hj c hc

/-- The result of `vector_multiply` on `n x n` matrices, given enough fuel for the
tile loops and for the chunked `j` loop. -/
theorem vector_multiply_eq [Add α] [Mul α] [Zero α] {n fuel tile_size VLMAX : Nat}
    {A B C : Matrix α} (hA : A.IsSquare n) (hB : B.data.length = n * n)
    (hC : C.data.length = n * n) (hfuel : n ≤ fuel * tile_size) (hvl : n ≤ fuel * VLMAX) :
    vector_multiply VLMAX fuel A B C tile_size
      = .ok { C with data := product n A.data B.data } := by
  unfold vector_multiply
  simp only [hA.1, memset_zero_ok hC, ok_bind]
  have h := product_of_cellWise A.data B.data _
    (ikj_ii_loop A.data B.data _ (vector_row_isRow A.data B.data hA.2 hB VLMAX fuel hvl)
      fuel tile_size hfuel)
  simp only [h, ok_bind]
  rfl

end Vector

section Verifier

variable {α : Type} [LinearOrderedAddCommGroup α]

theorem verify_loop_cons {c1 c2 : List α} (tol : α) {i : Nat} (rest : List Nat)
    (h1 : i < c1.length) (h2 : i < c2.length) :
    verify_loop c1 c2 tol (i :: rest)
      = if |c1.getD i 0 - c2.getD i 0| > tol then
          .ok (0, [{ position := i, v1 := c1.getD i 0, v2 := c2.getD i 0,
                     diff := |c1.getD i 0 - c2.getD i 0| }])
        else verify_loop c1 c2 tol rest := by
  rw [verify_loop]
  simp only [load_ok h1, load_ok h2, ok_bind]
  rfl

/-- When every visited pair is within the tolerance the loop returns `1` and prints
nothing. -/
theorem verify_loop_pass {c1 c2 : List α} (tol : α) (xs : List Nat)
    (h : ∀ p ∈ xs, p < c1.length ∧ p < c2.length ∧ |c1.getD p 0 - c2.getD p 0| ≤ tol) :
    verify_loop c1 c2 tol xs = .ok (1, []) := by
  induction xs with
  | nil => rfl
  | cons i rest ih =>
    obtain ⟨h1, h2, h3⟩ := h i (List.mem_cons_self i rest)
    rw [verify_loop_cons tol rest h1 h2, if_neg (not_lt.2 h3)]
    exact ih (fun p hp => h p (List.mem_cons_of_mem i hp))

/-- The first visited pair further apart than the tolerance ends the loop: it returns
`0` and prints that pair; no later index is read. -/
theorem verify_loop_fail {c1 c2 : List α} (tol : α) (pre : List Nat) (i : Nat)
    (post : List Nat)
    (h : ∀ p ∈ pre, p < c1.length ∧ p < c2.length ∧ |c1.getD p 0 - c2.getD p 0| ≤ tol)
    (h1 : i < c1.length) (h2 : i < c2.length) (hd : |c1.getD i 0 - c2.getD i 0| > tol) :
    verify_loop c1 c2 tol (pre ++ i :: post)
      = .ok (0, [{ position := i, v1 := c1.getD i 0, v2 := c2.getD i 0,
                   diff := |c1.getD i 0 - c2.getD i 0| }]) := by
  induction pre with
  | nil =>
    rw [List.nil_append, verify_loop_cons tol post h1 h2, if_pos hd]
  | cons q pre ih =>
    obtain ⟨k1, k2, k3⟩ := h q (List.mem_cons_self q pre)
    rw [List.cons_append, verify_loop_cons tol _ k1 k2, if_neg (not_lt.2 k3)]
    exact ih (fun p hp => h p (List.mem_cons_of_mem q hp))

/-- Either every pair of the visited indices is within the tolerance, or the indices
split at a first pair that is not. -/
theorem within_or_first_mismatch (c1 c2 : List α) (tol : α) (xs : List Nat) :
    (∀ p ∈ xs, |c1.getD p 0 - c2.getD p 0| ≤ tol) ∨
    ∃ pre i post, xs = pre ++ i :: post ∧
      (∀ p ∈ pre, |c1.getD p 0 - c2.getD p 0| ≤ tol) ∧ |c1.getD i 0 - c2.getD i 0| > tol := by
  induction xs with
  | nil => exact Or.inl (fun p hp => by simp at hp)
  | cons q rest ih =>
    by_cases hq : |c1.getD q 0 - c2.getD q 0| > tol
    · exact Or.inr ⟨[], q, rest, rfl, fun p hp => by simp at hp, hq⟩
    · rcases ih with ih | ⟨pre, i, post, e, hpre, hi⟩
      · left
        intro p hp
        rcases List.mem_cons.1 hp with hp | hp
        · rw [hp]; exact not_lt.1 hq
        · exact ih p hp
      · right
        refine ⟨q :: pre, i, post, by rw [e]; rfl, ?_, hi⟩
        intro p hp
        rcases List.mem_cons.1 hp with hp | hp
        · rw [hp]; exact not_lt.1 hq
        · exact hpre p hp

theorem verify_result_same_size {C1 C2 : Matrix α} (tol : α) (h : C1.size = C2.size) :
    verify_result C1 C2 tol
      = verify_loop C1.data C2.data tol (List.range' 0 (C1.size * C1.size)) := by
  unfold verify_result
  rw [if_neg (not_not.2 h)]
  rfl

/-- Two buffers of `n x n` matrices that are equal pass the verifier for every
non-negative tolerance. -/
theorem verify_result_of_eq {n : Nat} {C1 C2 : Matrix α} (tol : α) (htol : 0 ≤ tol)
    (h1 : C1.IsSquare n) (h2 : C2.IsSquare n) (e : C2.data = C1.data) :
    verify_result C1 C2 tol = .ok (1, []) := by
  rw [verify_result_same_size tol (h1.1.trans h2.1.symm), h1.1]
  apply verify_loop_pass
  intro p hp
  rw [List.mem_range'_1] at hp
  refine ⟨by rw [h1.2]; omega, by rw [h2.2]; omega, ?_⟩
  rw [e, sub_self, abs_zero]
  exact htol

end Verifier

section Algebra

variable {α : Type}

theorem div_of_idx {n i j : Nat} (hj : j < n) : (i * n + j) / n = i := by
  have hn : 0 < n := by omega
  rw [Nat.add_comm, Nat.add_mul_div_right _ _ hn, Nat.div_eq_of_lt hj, Nat.zero_add]

theorem mod_of_idx {n i j : Nat} (hj : j < n) : (i * n + j) % n = j := by
  rw [Nat.add_comm, Nat.add_mul_mod_self_right, Nat.mod_eq_of_lt hj]

theorem cell_identity [Zero α] [One α] {n i j : Nat} (hi : i < n) (hj : j < n) :
    cell n (identity n : Matrix α).data i j = if i = j then 1 else 0 := by
  unfold cell identity
  rw [getD_map_range _ _ (idx_lt hi hj), div_of_idx hj, mod_of_idx hj]

theorem accum_identity [NonAssocSemiring α] {n : Nat} (a : List α) (i j : Nat) (hj : j < n) :
    ∀ m, m ≤ n →
      accum n a (identity n : Matrix α).data i j 0 (List.range' 0 m)
        = if j < m then cell n a i j else 0 := by
  intro m
  induction m with
  | zero => intro _; rfl
  | succ m ih =>
    intro hm
    have hmn : m < n := by omega
    unfold accum at ih ⊢
    rw [List.range'_1_concat, List.foldl_append, ih (by omega), List.foldl_cons, List.foldl_nil,
      Nat.zero_add, cell_identity hmn hj]
    by_cases e : m = j
    · have h1 : ¬ j < m := by omega
      have h2 : j < m + 1 := by omega
      rw [if_neg h1, if_pos e, if_pos h2, e, mul_one, zero_add]
    · by_cases h1 : j < m
      · have h2 : j < m + 1 := by omega
        rw [if_pos h1, if_neg e, if_pos h2, mul_zero, add_zero]
      · have h2 : ¬ j < m + 1 := by omega
        rw [if_neg h1, if_neg e, if_neg h2, mul_zero, add_zero]

/-- Multiplying on the right by the identity matrix gives back the left operand. -/
theorem product_identity [NonAssocSemiring α] {n : Nat} (a : List α) (ha : a.length = n * n) :
    product n a (identity n : Matrix α).data = a := by
  conv_rhs => rw [eq_of_cells ha (fun i j => cell n a i j) (fun _ _ _ _ => rfl)]
  unfold product
  apply List.map_congr_left
  intro p hp
  rw [List.mem_range] at hp
  have hn : 0 < n := by
    rcases Nat.eq_zero_or_pos n with h0 | h0
    · subst h0; simp at hp
    · exact h0
  have hj : p % n < n := Nat.mod_lt p hn
  rw [accum_identity a (p / n) (p % n) hj n (le_refl n), if_pos hj]

theorem cell_replicate_zero_any [Zero α] (n m i j : Nat) :
    cell n (List.replicate m (0 : α)) i j = 0 := by
  unfold cell
  rw [List.getD_eq_getElem?_getD, List.getElem?_replicate]
  split <;> rfl

theorem accum_zero_left [NonUnitalNonAssocSemiring α] (n m : Nat) (b : List α) (i j : Nat)
    (ks : List Nat) : accum n (List.replicate m (0 : α)) b i j 0 ks = 0 := by
  unfold accum
  induction ks with
  | nil => rfl
  | cons k ks ih =>
    rw [List.foldl_cons, cell_replicate_zero_any, zero_mul, add_zero]
    exact ih

theorem accum_zero_right [NonUnitalNonAssocSemiring α] (n m : Nat) (a : List α) (i j : Nat)
    (ks : List Nat) : accum n a (List.replicate m (0 : α)) i j 0 ks = 0 := by
  unfold accum
  induction ks with
  | nil => rfl
  | cons k ks ih =>
    rw [List.foldl_cons, cell_replicate_zero_any, mul_zero, add_zero]
    exact ih

theorem product_zero_left [NonUnitalNonAssocSemiring α] (n : Nat) (b : List α) :
    product n (zero_matrix n : Matrix α).data b = List.replicate (n * n) 0 := by
  unfold product zero_matrix
  rw [List.eq_replicate_iff]
  refine ⟨by simp, ?_⟩
  intro x hx
  rw [List.mem_map] at hx
  obtain ⟨p, _, rfl⟩ := hx
  exact accum_zero_left n (n * n) b _ _ _

theorem product_zero_right [NonUnitalNonAssocSemiring α] (n : Nat) (a : List α) :
    product n a (zero_matrix n : Matrix α).data = List.replicate (n * n) 0 := by
  unfold product zero_matrix
  rw [List.eq_replicate_iff]
  refine ⟨by simp, ?_⟩
  intro x hx
  rw [List.mem_map] at hx
  obtain ⟨p, _, rfl⟩ := hx
  exact accum_zero_right n (n * n) a _ _ _

theorem identity_isSquare [Zero α] [One α] (n : Nat) : (identity n : Matrix α).IsSquare n :=
  ⟨rfl, by simp [identity]⟩

theorem zero_matrix_isSquare [Zero α] (n : Nat) : (zero_matrix n : Matrix α).IsSquare n :=
  ⟨rfl, by simp [zero_matrix]⟩

theorem tolerance_nonneg [LinearOrderedField α] : (0 : α) ≤ 1e-10 := by
  norm_num

end Algebra

section Tiles

theorem tileCount_zero {step : Nat} (hs : 1 ≤ step) : tileCount 0 step = 0 := by
  unfold tileCount
  exact Nat.div_eq_of_lt (by omega)

theorem tileCount_step {d step : Nat} (hs : 1 ≤ step) (hd : 0 < d) :
    tileCount d step = tileCount (d - step) step + 1 := by
  unfold tileCount
  by_cases h : step ≤ d
  · have e : d + step - 1 = (d - step + step - 1) + step := by omega
    rw [e, Nat.add_div_right _ (by omega)]
  · have e : d - step = 0 := by omega
    rw [e, Nat.zero_add, Nat.div_eq_of_lt (show step - 1 < step by omega)]
    exact Nat.div_eq_of_lt_le (by omega) (by omega)

/-- With enough fuel the counter of a strided loop takes the values `x`, `x + step`,
`x + 2 * step`, ..., one for each of the `ceil((hi - x) / step)` tiles. -/
theorem origins_eq_map {hi step : Nat} (hs : 1 ≤ step) :
    ∀ (fuel x : Nat), hi ≤ x + fuel * step →
      origins fuel x hi step
        = (List.range (tileCount (hi - x) step)).map (fun t => x + t * step) := by
  intro fuel
  induction fuel with
  | zero =>
    intro x h
    have e : hi - x = 0 := by omega
    rw [e, tileCount_zero hs]
    rfl
  | succ fuel ih =>
    intro x h
    by_cases hx : x < hi
    · have h2 : hi ≤ (x + step) + fuel * step := by
        have : (fuel + 1) * step = fuel * step + step := by ring
        omega
      have e : hi - x - step = hi - (x + step) := by omega
      simp only [origins, hx, if_true]
      rw [ih (x + step) h2, tileCount_step hs (show 0 < hi - x by omega), e,
        List.range_succ_eq_map, List.map_cons, List.map_map]
      congr 1
      · simp
      · apply List.map_congr_left
        intro t _
        simp only [Function.comp, Nat.succ_eq_add_one]
        ring
    · have e : hi - x = 0 := by omega
      rw [e, tileCount_zero hs]
      simp [origins, hx]

theorem lt_tileCount_iff {n step t : Nat} (hs : 1 ≤ step) :
    t < tileCount n step ↔ t * step < n := by
  unfold tileCount
  rw [Nat.lt_iff_add_one_le, Nat.le_div_iff_mul_le (by omega)]
  have e : (t + 1) * step = t * step + step := by ring
  rw [e]
  omega

/-- The tile origins of `for (o = 0; o < n; o += tile_size)` are the multiples of
`tile_size` below `n`. -/
theorem mem_origins_iff {n step fuel : Nat} (hs : 1 ≤ step) (hfuel : n ≤ fuel * step)
    (o : Nat) : o ∈ origins fuel 0 n step ↔ ∃ t, o = t * step ∧ o < n := by
  rw [origins_eq_map hs fuel 0 (by omega), List.mem_map]
  simp only [Nat.sub_zero, Nat.zero_add, List.mem_range]
  constructor
  · rintro ⟨t, ht, rfl⟩
    exact ⟨t, rfl, (lt_tileCount_iff hs).1 ht⟩
  · rintro ⟨t, rfl, ht⟩
    exact ⟨t, (lt_tileCount_iff hs).2 ht, rfl⟩

/-- The origin of the tile that holds the index `i`. -/
theorem tile_of_index {n step : Nat} (hs : 1 ≤ step) {i : Nat} (hi : i < n) :
    i / step * step ≤ i ∧ i < tileEnd n step (i / step * step) := by
  have h1 : i / step * step ≤ i := Nat.div_mul_le_self i step
  have h2 : i < i / step * step + step := by
    have := Nat.div_add_mod i step
    have hm : i % step < step := Nat.mod_lt i (by omega)
    rw [Nat.mul_comm] at this
    omega
  refine ⟨h1, ?_⟩
  rw [tileEnd_eq n step _ (by omega)]
  omega

theorem tile_unique {n step : Nat} {i t : Nat}
    (h1 : t * step ≤ i) (h2 : i < tileEnd n step (t * step)) : t * step = i / step * step := by
  have hlt : i < t * step + step := by
    unfold tileEnd at h2
    split at h2 <;> omega
  have e : (t + 1) * step = t * step + step := by ring
  rw [Nat.div_eq_of_lt_le h1 (by rw [e]; exact hlt)]

end Tiles

theorem cell_lookup {α : Type} [Zero α] {n : Nat} {buf : List α} (hc : buf.length = n * n)
    {i j : Nat} (hi : i < n) (hj : j < n) : buf[i * n + j]? = some (cell n buf i j) := by
  have h : i * n + j < buf.length := by rw [hc]; exact idx_lt hi hj
  unfold cell
  rw [List.getD_eq_getElem?_getD, List.getElem?_eq_getElem h]
  rfl

section CrossTile

variable {α : Type} [Add α] [Mul α] [Zero α]

/-- A loop whose body never acts on a given cell leaves that cell as it is. -/
theorem foldl_skip {β ι : Type} (p : ι → Prop) [DecidablePred p] (g : ι → β → β)
    (xs : List ι) (v : β) (h : ∀ x ∈ xs, ¬ p x) :
    xs.foldl (fun w x => if p x then g x w else w) v = v := by
  induction xs with
  | nil => rfl
  | cons x xs ih =>
    rw [List.foldl_cons, if_neg (h x (List.mem_cons_self x xs))]
    exact ih (fun y hy => h y (List.mem_cons_of_mem x hy))

/-- Running a fold over the tiles with origins `0, tile_size, ..., t * tile_size` is
running it over `[0, k_end)` for the end bound `k_end` of the last of these tiles. -/
theorem foldl_tiles_upto {β : Type} (n tile_size : Nat) (g : β → Nat → β) (v : β) :
    ∀ t, t * tile_size < n →
      ((List.range (t + 1)).map (fun q => q * tile_size)).foldl
          (fun w o => (List.range' o (tileEnd n tile_size o - o)).foldl g w) v
        = (List.range' 0 (tileEnd n tile_size (t * tile_size))).foldl g v := by
  intro t
  induction t with
  | zero =>
    intro _
    show (List.range' (0 * tile_size) (tileEnd n tile_size (0 * tile_size) - 0 * tile_size)).foldl
      g v = _
    rw [Nat.zero_mul, Nat.sub_zero]
  | succ t ih =>
    intro ht
    have e : (t + 1) * tile_size = t * tile_size + tile_size := by ring
    have ht0 : t * tile_size < n := by omega
    have hend : tileEnd n tile_size (t * tile_size) = (t + 1) * tile_size := by
      rw [tileEnd_eq n tile_size _ ht0]
      omega
    have hle : (t + 1) * tile_size ≤ tileEnd n tile_size ((t + 1) * tile_size) := by
      rw [tileEnd_eq n tile_size _ ht]
      omega
    rw [List.range_succ, List.map_append, List.foldl_append, ih ht0, hend, List.map_singleton,
      List.foldl_cons, List.foldl_nil, ← List.foldl_append]
    congr 1
    have := List.range'_append_1 0 ((t + 1) * tile_size)
      (tileEnd n tile_size ((t + 1) * tile_size) - (t + 1) * tile_size)
    rw [Nat.zero_add] at this
    rw [this]
    congr 1
    omega

/-- One tile multiplication of `cache_aware_multiply`: in the tile the scalar starts
from the value found in `C[i][j]`, accumulates over `k` in `[kk, k_end)` and is written
back; every cell outside the tile keeps its value. -/
theorem ijk_tile_cellWise {n : Nat} (a b : List α) (ha : a.length = n * n)
    (hb : b.length = n * n) (tile_size ii jj kk : Nat) :
    CellWise n (ijk_tile n tile_size a b ii jj kk)
      (fun i1 j1 v =>
        if ii ≤ i1 ∧ i1 < tileEnd n tile_size ii then
          (if jj ≤ j1 ∧ j1 < tileEnd n tile_size jj then
            accum n a b i1 j1 v
              (List.range' kk (tileEnd n tile_size kk - kk))
          else v)
        else v) :=
  ijk_i_loop a b ha hb ii (tileEnd n tile_size ii) jj (tileEnd n tile_size jj) kk
    (tileEnd n tile_size kk) (tileEnd_le _ _ _) (tileEnd_le _ _ _) (tileEnd_le _ _ _)

/-- The `kk` loop of `cache_aware_multiply` stopped after the tile with origin
`t * tile_size`: the cells of the tile `(ii, jj)` hold their previous value plus the
sum over `k` in `[0, k_end)`. -/
theorem ijk_kk_upto {n : Nat} (a b : List α) (ha : a.length = n * n)
    (hb : b.length = n * n) (tile_size ii jj t : Nat) (ht : t * tile_size < n) :
    CellWise n
      (fun c => ((List.range (t + 1)).map (fun q => q * tile_size)).foldlM
        (fun acc kk => ijk_tile n tile_size a b ii jj kk acc) c)
      (fun i1 j1 v =>
        if ii ≤ i1 ∧ i1 < tileEnd n tile_size ii then
          (if jj ≤ j1 ∧ j1 < tileEnd n tile_size jj then
            accum n a b i1 j1 v (List.range' 0 (tileEnd n tile_size (t * tile_size)))
          else v)
        else v) := by
  refine (CellWise.foldlM _ _ _
    (fun kk _ => ijk_tile_cellWise a b ha hb tile_size ii jj kk)).congr ?_
  intro i1 j1 v _ _
  rw [foldl_guard, foldl_guard]
  unfold accum
  rw [foldl_tiles_upto n tile_size _ v t ht]

/-- The tiles with origins `r * tile_size`, `r < q`, end at or before `q * tile_size`. -/
theorem earlier_tile_misses {n tile_size q : Nat} {x i : Nat} (hq : q * tile_size ≤ i)
    (hx : x ∈ (List.range q).map (fun r => r * tile_size)) :
    ¬ (x ≤ i ∧ i < tileEnd n tile_size x) := by
  rw [List.mem_map] at hx
  obtain ⟨r, hr, rfl⟩ := hx
  rw [List.mem_range] at hr
  have h1 : (r + 1) * tile_size ≤ q * tile_size := Nat.mul_le_mul_right _ hr
  have e : (r + 1) * tile_size = r * tile_size + tile_size := by ring
  unfold tileEnd
  split <;> omega

end CrossTile

section Diagnostic

variable {α : Type} [LinearOrderedAddCommGroup α]

/-- The verification loop over the flat indices `0, ..., m - 1` of two buffers that hold
at least `m` values either finds every pair within the tolerance, returns `1` and prints
nothing, or stops at the least index whose pair is not, returns `0` and prints that
pair. -/
theorem verify_loop_range (c1 c2 : List α) (tol : α) (m : Nat) (h1 : m ≤ c1.length)
    (h2 : m ≤ c2.length) :
    ((∀ i, i < m → |c1.getD i 0 - c2.getD i 0| ≤ tol) ∧
      verify_loop c1 c2 tol (List.range' 0 m) = .ok (1, [])) ∨
    (∃ i, i < m ∧ |c1.getD i 0 - c2.getD i 0| > tol ∧
      (∀ p, p < i → |c1.getD p 0 - c2.getD p 0| ≤ tol) ∧
      verify_loop c1 c2 tol (List.range' 0 m)
        = .ok (0, [{ position := i, v1 := c1.getD i 0, v2 := c2.getD i 0,
                     diff := |c1.getD i 0 - c2.getD i 0| }])) := by
  rcases within_or_first_mismatch c1 c2 tol (List.range' 0 m) with hall | ⟨pre, i, post, e, hpre, hi⟩
  · left
    have hw : ∀ i, i < m → |c1.getD i 0 - c2.getD i 0| ≤ tol := by
      intro i him
      exact hall i (by rw [List.mem_range'_1]; omega)
    refine ⟨hw, verify_loop_pass tol _ ?_⟩
    intro p hp
    rw [List.mem_range'_1] at hp
    exact ⟨by omega, by omega, hw p (by omega)⟩
  · right
    obtain ⟨k, hk, epre, epost⟩ := List.range'_eq_append_iff.1 e
    rw [Nat.zero_add] at epost
    obtain ⟨eki, hpos, _⟩ := List.range'_eq_cons_iff.1 epost.symm
    subst eki
    have hpre2 : ∀ p, p < k → |c1.getD p 0 - c2.getD p 0| ≤ tol := by
      intro p hp
      exact hpre p (by rw [epre, List.mem_range'_1]; omega)
    refine ⟨k, by omega, hi, hpre2, ?_⟩
    rw [e]
    refine verify_loop_fail tol pre k post ?_ (by omega) (by omega) hi
    intro p hp
    rw [epre, List.mem_range'_1] at hp
    exact ⟨by omega, by omega, hpre2 p (by omega)⟩

end Diagnostic

section Bounds

variable {α : Type}

theorem inBounds_of_cellWise [Zero α] {n : Nat} {F : List α → Except Fault (List α)}
    {T : Nat → Nat → α → α} (h : CellWise n F T) : InBounds n F := by
  intro c hc
  obtain ⟨c1, h1, h2, _⟩ := h c hc
  exact Or.inl ⟨c1, h1, h2⟩

/-- A strided loop over in-bounds bodies stays in bounds, whatever the fuel, the bounds
and the stride. -/
theorem inBounds_forStep {n : Nat} (hi step : Nat)
    (body : Nat → List α → Except Fault (List α)) (h : ∀ o, InBounds n (body o)) :
    ∀ (fuel x : Nat), InBounds n (MatMul.forStep fuel x hi step body) := by
  intro fuel
  induction fuel with
  | zero =>
    intro x c hc
    by_cases hx : x < hi
    · right
      simp [MatMul.forStep, hx]
    · left
      exact ⟨c, by simp [MatMul.forStep, hx], hc⟩
  | succ fuel ih =>
    intro x c hc
    by_cases hx : x < hi
    · rcases h x c hc with ⟨c1, h1, h2⟩ | h1
      · rcases ih (x + step) c1 h2 with ⟨c2, k1, k2⟩ | k1
        · left
          refine ⟨c2, ?_, k2⟩
          simp only [MatMul.forStep, hx, if_true, h1]
          exact k1
        · right
          simp only [MatMul.forStep, hx, if_true, h1]
          exact k1
      · right
        simp only [MatMul.forStep, hx, if_true, h1]
    · left
      exact ⟨c, by simp [MatMul.forStep, hx], hc⟩

theorem ikj_tile_cellWise [Add α] [Mul α] [Zero α] {n : Nat} (a b : List α)
    (ha : a.length = n * n) (hb : b.length = n * n) (tile_size ii kk jj : Nat) :
    CellWise n (ikj_tile n tile_size a b ii kk jj)
      (fun i1 j1 v =>
        if ii ≤ i1 ∧ i1 < tileEnd n tile_size ii then
          (if jj ≤ j1 ∧ j1 < tileEnd n tile_size jj then
            accum n a b i1 j1 v (List.range' kk (tileEnd n tile_size kk - kk))
          else v)
        else v) :=
  ikj_i_loop a b _ (ikj_row_isRow a b ha hb) ii (tileEnd n tile_size ii) jj
    (tileEnd n tile_size jj) kk (tileEnd n tile_size kk) (tileEnd_le _ _ _) (tileEnd_le _ _ _)
    (tileEnd_le _ _ _)

/-- The three tile loops of `cache_aware_multiply` stay in bounds for every fuel and
every tile size. -/
theorem ijk_nest_inBounds [Add α] [Mul α] [Zero α] {n : Nat} (a b : List α)
    (ha : a.length = n * n) (hb : b.length = n * n) (fuel tile_size : Nat) :
    InBounds n (MatMul.forStep fuel 0 n tile_size (fun ii c =>
      MatMul.forStep fuel 0 n tile_size (fun jj c =>
        MatMul.forStep fuel 0 n tile_size (fun kk c =>
          ijk_tile n tile_size a b ii jj kk c) c) c)) :=
  inBounds_forStep n tile_size _ (fun ii =>
    inBounds_forStep n tile_size _ (fun jj =>
      inBounds_forStep n tile_size _ (fun kk =>
        inBounds_of_cellWise (ijk_tile_cellWise a b ha hb tile_size ii jj kk)) fuel 0) fuel 0)
    fuel 0

/-- The three tile loops of `cache_aware_multiply_tiled` stay in bounds for every fuel
and every tile size. -/
theorem ikj_nest_inBounds [Add α] [Mul α] [Zero α] {n : Nat} (a b : List α)
    (ha : a.length = n * n) (hb : b.length = n * n) (fuel tile_size : Nat) :
    InBounds n (MatMul.forStep fuel 0 n tile_size (fun ii c =>
      MatMul.forStep fuel 0 n tile_size (fun kk c =>
        MatMul.forStep fuel 0 n tile_size (fun jj c =>
          ikj_tile n tile_size a b ii kk jj c) c) c)) :=
  inBounds_forStep n tile_size _ (fun ii =>
    inBounds_forStep n tile_size _ (fun kk =>
      inBounds_forStep n tile_size _ (fun jj =>
        inBounds_of_cellWise (ikj_tile_cellWise a b ha hb tile_size ii kk jj)) fuel 0) fuel 0)
    fuel 0

theorem cache_aware_multiply_inBounds [Add α] [Mul α] [Zero α] {n : Nat} {A B C : Matrix α}
    (hA : A.IsSquare n) (hB : B.data.length = n * n) (hC : C.data.length = n * n)
    (fuel tile_size : Nat) :
    (∃ R, cache_aware_multiply fuel A B C tile_size = .ok R) ∨
      cache_aware_multiply fuel A B C tile_size = .error .outOfFuel := by
  have e : cache_aware_multiply fuel A B C tile_size = (do
      let c ← zero_fill A.size C.data
      let c ← MatMul.forStep fuel 0 A.size tile_size (fun ii c =>
        MatMul.forStep fuel 0 A.size tile_size (fun jj c =>
          MatMul.forStep fuel 0 A.size tile_size (fun kk c =>
            ijk_tile A.size tile_size A.data B.data ii jj kk c) c) c) c
      pure { C with data := c }) := rfl
  rw [e, hA.1, zero_fill_ok hC, ok_bind]
  rcases ijk_nest_inBounds A.data B.data hA.2 hB fuel tile_size (List.replicate (n * n) 0)
    (by simp) with ⟨c1, h1, _⟩ | h1
  · left; rw [h1]; exact ⟨_, rfl⟩
  · right; rw [h1]; rfl

theorem cache_aware_multiply_tiled_inBounds [Add α] [Mul α] [Zero α] {n : Nat}
    {A B C : Matrix α} (hA : A.IsSquare n) (hB : B.data.length = n * n)
    (hC : C.data.length = n * n) (fuel tile_size : Nat) :
    (∃ R, cache_aware_multiply_tiled fuel A B C tile_size = .ok R) ∨
      cache_aware_multiply_tiled fuel A B C tile_size = .error .outOfFuel := by
  have e : cache_aware_multiply_tiled fuel A B C tile_size = (do
      let c ← memset_zero C.data (A.size * A.size)
      let c ← MatMul.forStep fuel 0 A.size tile_size (fun ii c =>
        MatMul.forStep fuel 0 A.size tile_size (fun kk c =>
          MatMul.forStep fuel 0 A.size tile_size (fun jj c =>
            ikj_tile A.size tile_size A.data B.data ii kk jj c) c) c) c
      pure { C with data := c }) := rfl
  rw [e, hA.1, memset_zero_ok hC, ok_bind]
  rcases ikj_nest_inBounds A.data B.data hA.2 hB fuel tile_size (List.replicate (n * n) 0)
    (by simp) with ⟨c1, h1, _⟩ | h1
  · left; rw [h1]; exact ⟨_, rfl⟩
  · right; rw [h1]; rfl

end Bounds

section Termination

variable {α : Type}

/-- With fuel for the remaining tiles the fuelled loop is the total loop. -/
theorem forStep_eq_wf {σ : Type} (hi step : Nat) (hstep : 0 < step)
    (body : Nat → σ → Except Fault σ) :
    ∀ (fuel x : Nat) (s : σ), hi ≤ x + fuel * step →
      forStep fuel x hi step body s = forStepWF hi step hstep body x s := by
  intro fuel
  induction fuel with
  | zero =>
    intro x s h
    have hx : ¬ x < hi := by omega
    rw [forStepWF]
    simp [forStep, hx]
  | succ fuel ih =>
    intro x s h
    rw [forStepWF]
    by_cases hx : x < hi
    · have h2 : hi ≤ (x + step) + fuel * step := by
        have : (fuel + 1) * step = fuel * step + step := by ring
        omega
      simp only [forStep, hx, if_true, dif_pos]
      cases hb : body x s with
      | error e => rfl
      | ok s1 => exact ih (x + step) s1 h2
    · simp [forStep, hx]

/-- With less fuel than tiles a loop whose body succeeds runs out of fuel. -/
theorem forStep_outOfFuel {σ : Type} (hi step : Nat)
    (body : Nat → σ → Except Fault σ) (f : Nat → σ → σ) (hb : ∀ o s, body o s = .ok (f o s)) :
    ∀ (fuel x : Nat) (s : σ), x + fuel * step < hi →
      forStep fuel x hi step body s = .error .outOfFuel := by
  intro fuel
  induction fuel with
  | zero =>
    intro x s h
    have hx : x < hi := by omega
    simp [forStep, hx]
  | succ fuel ih =>
    intro x s h
    have e : (fuel + 1) * step = fuel * step + step := by ring
    have hx : x < hi := by omega
    simp only [forStep, hx, if_true, hb]
    exact ih (x + step) (f x s) (by omega)

theorem tileCount_le_iff {n step fuel : Nat} (hs : 1 ≤ step) :
    tileCount n step ≤ fuel ↔ n ≤ fuel * step := by
  have h := @lt_tileCount_iff n step fuel hs
  constructor
  · intro h1
    by_contra h2
    exact absurd (h.2 (by omega)) (by omega)
  · intro h1
    by_contra h2
    exact absurd (h.1 (by omega)) (by omega)

theorem cache_aware_multiply_eq_total [Add α] [Mul α] [Zero α] (A B C : Matrix α)
    (tile_size fuel : Nat) (hts : 0 < tile_size) (hfuel : A.size ≤ fuel * tile_size) :
    cache_aware_multiply fuel A B C tile_size
      = cache_aware_multiply_total A B C tile_size hts := by
  have e : ∀ (body : Nat → List α → Except Fault (List α)),
      forStep fuel 0 A.size tile_size body = fun s => forStepWF A.size tile_size hts body 0 s :=
    fun body => funext (fun s =>
      forStep_eq_wf A.size tile_size hts body fuel 0 s (by omega))
  unfold cache_aware_multiply cache_aware_multiply_total
  simp only [e]
  rfl

theorem cache_aware_multiply_tiled_eq_total [Add α] [Mul α] [Zero α] (A B C : Matrix α)
    (tile_size fuel : Nat) (hts : 0 < tile_size) (hfuel : A.size ≤ fuel * tile_size) :
    cache_aware_multiply_tiled fuel A B C tile_size
      = cache_aware_multiply_tiled_total A B C tile_size hts := by
  have e : ∀ (body : Nat → List α → Except Fault (List α)),
      forStep fuel 0 A.size tile_size body = fun s => forStepWF A.size tile_size hts body 0 s :=
    fun body => funext (fun s =>
      forStep_eq_wf A.size tile_size hts body fuel 0 s (by omega))
  unfold cache_aware_multiply_tiled cache_aware_multiply_tiled_total
  simp only [e]
  rfl

end Termination

section Int32

theorem fits32_of_le {x : Nat} (h : x ≤ 2147483647) : Fits32 x := by
  unfold Fits32 wrap32
  omega

theorem sq_le_int32 {n : Nat} (h : n ≤ 46340) : n * n ≤ 2147395600 :=
  Nat.mul_le_mul h h

theorem add32_of_le {x y : Nat} (h : x + y ≤ 2147483647) :
    add32 x y = ((x + y : Nat) : Int) := by
  unfold add32 wrap32
  omega

theorem mul32_of_le {x y : Nat} (h : x * y ≤ 2147483647) :
    mul32 x y = ((x * y : Nat) : Int) := by
  unfold mul32 wrap32
  rw [← Nat.cast_mul]
  omega

end Int32

section TileList

theorem ite_lt_eq_min (a b : Nat) : (if a < b then a else b) = min a b := by
  split <;> omega

/-- With enough fuel a tile loop `for (o = 0; o < n; o += tile_size)` runs its body on
the origins `0, tile_size, 2 * tile_size, ...` below `n`, in this order. -/
theorem forStep_eq_tiles {σ : Type} (body : Nat → σ → Except Fault σ)
    (n tile_size fuel : Nat) (hts : 1 ≤ tile_size) (hfuel : n ≤ fuel * tile_size) :
    forStep fuel 0 n tile_size body
      = fun s => ((List.range (tileCount n tile_size)).map (fun t => t * tile_size)).foldlM
          (fun acc o => body o acc) s := by
  funext s
  rw [forStep_eq_foldlM body n tile_size fuel 0 s (by omega),
    origins_eq_map hts fuel 0 (by omega)]
  simp

theorem mem_tiles_iff {n tile_size : Nat} (hts : 1 ≤ tile_size) (o : Nat) :
    o ∈ (List.range (tileCount n tile_size)).map (fun t => t * tile_size) ↔
      ∃ t, o = t * tile_size ∧ o < n := by
  rw [List.mem_map]
  simp only [List.mem_range]
  constructor
  · rintro ⟨t, ht, rfl⟩
    exact ⟨t, rfl, (lt_tileCount_iff hts).1 ht⟩
  · rintro ⟨t, rfl, ht⟩
    exact ⟨t, (lt_tileCount_iff hts).2 ht, rfl⟩

end TileList

section LoopSplit

theorem range_split {tc p : Nat} (hp : p < tc) :
    List.range tc = List.range p ++ p :: List.range' (p + 1) (tc - (p + 1)) := by
  have e : tc = (tc - (p + 1) + 1) + p := by omega
  have h := List.range'_append_1 0 p (tc - (p + 1) + 1)
  rw [Nat.zero_add, ← e, List.range'_succ] at h
  rw [List.range_eq_range', List.range_eq_range', ← h]

theorem range_split_incl {tc p : Nat} (hp : p < tc) :
    List.range tc = List.range (p + 1) ++ List.range' (p + 1) (tc - (p + 1)) := by
  rw [range_split hp, List.range_succ, List.append_assoc]
  rfl

/-- A tile loop is the iterations before the origin `p * tile_size`, then the iteration
at that origin, then the iterations after it. -/
theorem loop_split {σ : Type} (body : Nat → σ → Except Fault σ) (n tile_size fuel : Nat)
    (hts : 1 ≤ tile_size) (hfuel : n ≤ fuel * tile_size) (p : Nat) (hp : p * tile_size < n)
    (s : σ) :
    forStep fuel 0 n tile_size body s = (do
      let s1 ← ((List.range p).map (fun t => t * tile_size)).foldlM
        (fun acc o => body o acc) s
      let s2 ← body (p * tile_size) s1
      ((List.range' (p + 1) (tileCount n tile_size - (p + 1))).map
        (fun t => t * tile_size)).foldlM (fun acc o => body o acc) s2) := by
  rw [forStep_eq_tiles body n tile_size fuel hts hfuel]
  show List.foldlM _ s (List.map _ (List.range (tileCount n tile_size))) = _
  rw [range_split ((lt_tileCount_iff hts).2 hp), List.map_append, List.map_cons,
    List.foldlM_append]
  simp only [List.foldlM_cons]

/-- A tile loop is the iterations up to and including the origin `p * tile_size`
followed by the iterations after it. -/
theorem loop_split_incl {σ : Type} (body : Nat → σ → Except Fault σ)
    (n tile_size fuel : Nat) (hts : 1 ≤ tile_size) (hfuel : n ≤ fuel * tile_size) (p : Nat)
    (hp : p * tile_size < n) (s : σ) :
    forStep fuel 0 n tile_size body s = (do
      let s1 ← ((List.range (p + 1)).map (fun t => t * tile_size)).foldlM
        (fun acc o => body o acc) s
      ((List.range' (p + 1) (tileCount n tile_size - (p + 1))).map
        (fun t => t * tile_size)).foldlM (fun acc o => body o acc) s1) := by
  rw [forStep_eq_tiles body n tile_size fuel hts hfuel]
  show List.foldlM _ s (List.map _ (List.range (tileCount n tile_size))) = _
  rw [range_split_incl ((lt_tileCount_iff hts).2 hp), List.map_append, List.foldlM_append]

end LoopSplit

section TileForm

variable {α : Type} [Add α] [Mul α] [Zero α]

/-- The function `cache_aware_multiply` as the zero fill followed by the three nested
loops over the tile origins, each tile ending at `min(origin + tile_size, n)`. -/
theorem cache_aware_multiply_tiles_eq (n tile_size fuel : Nat) (A B C : Matrix α)
    (hts : 1 ≤ tile_size) (hfuel : n ≤ fuel * tile_size) (hA : A.size = n) :
    cache_aware_multiply fuel A B C tile_size = (do
      let c ← zero_fill n C.data
      let c ← ((List.range (tileCount n tile_size)).map (fun t => t * tile_size)).foldlM
        (fun c ii =>
          ((List.range (tileCount n tile_size)).map (fun t => t * tile_size)).foldlM
            (fun c jj =>
              ((List.range (tileCount n tile_size)).map (fun t => t * tile_size)).foldlM
                (fun c kk =>
                  forRange ii (min (ii + tile_size) n) (fun i c =>
                    forRange jj (min (jj + tile_size) n) (fun j c => do
                      let sum ← load c (i * n + j)
                      let sum ← forRange kk (min (kk + tile_size) n) (fun k sum => do
                        let x ← load A.data (i * n + k)
                        let y ← load B.data (k * n + j)
                        pure (sum + x * y)) sum
                      store c (i * n + j) sum) c) c) c) c) c
      pure { C with data := c }) := by
  unfold cache_aware_multiply
  simp only [hA, forStep_eq_tiles _ n tile_size fuel hts hfuel, ite_lt_eq_min]

/-- The function `cache_aware_multiply_tiled` as the zero fill followed by the three
nested loops over the tile origins, each tile ending at `min(origin + tile_size, n)`. -/
theorem cache_aware_multiply_tiled_tiles_eq (n tile_size fuel : Nat) (A B C : Matrix α)
    (hts : 1 ≤ tile_size) (hfuel : n ≤ fuel * tile_size) (hA : A.size = n) :
    cache_aware_multiply_tiled fuel A B C tile_size = (do
      let c ← memset_zero C.data (n * n)
      let c ← ((List.range (tileCount n tile_size)).map (fun t => t * tile_size)).foldlM
        (fun c ii =>
          ((List.range (tileCount n tile_size)).map (fun t => t * tile_size)).foldlM
            (fun c kk =>
              ((List.range (tileCount n tile_size)).map (fun t => t * tile_size)).foldlM
                (fun c jj =>
                  forRange ii (min (ii + tile_size) n) (fun i c =>
                    forRange kk (min (kk + tile_size) n) (fun k c => do
                      let a_ik ← load A.data (i * n + k)
                      forRange jj (min (jj + tile_size) n) (fun j c => do
                        let cij ← load c (i * n + j)
                        let y ← load B.data (k * n + j)
                        store c (i * n + j) (cij + a_ik * y)) c) c) c) c) c) c
      pure { C with data := c }) := by
  unfold cache_aware_multiply_tiled
  simp only [hA, forStep_eq_tiles _ n tile_size fuel hts hfuel, ite_lt_eq_min]

theorem single_tile {m tile_size : Nat} (hm : 1 ≤ m) (hle : m ≤ tile_size) :
    (List.range (tileCount m tile_size)).map (fun t => t * tile_size) = [0] := by
  have hc : tileCount m tile_size = 1 := by
    unfold tileCount
    exact Nat.div_eq_of_lt_le (by omega) (by omega)
  rw [hc]
  show [0 * tile_size] = [0]
  rw [Nat.zero_mul]

/-- For a tile size at least the matrix size `cache_aware_multiply` is the zero fill
followed by the untiled loops over `[0, m)`. -/
theorem cache_aware_multiply_untiled (m tile_size fuel : Nat) (A B C : Matrix α)
    (hm : 1 ≤ m) (hle : m ≤ tile_size) (hfuel : 1 ≤ fuel) (hA : A.size = m) :
    cache_aware_multiply fuel A B C tile_size = (do
      let c ← zero_fill m C.data
      let c ← forRange 0 m (fun i c =>
        forRange 0 m (fun j c => do
          let sum ← load c (i * m + j)
          let sum ← forRange 0 m (fun k sum => do
            let x ← load A.data (i * m + k)
            let y ← load B.data (k * m + j)
            pure (sum + x * y)) sum
          store c (i * m + j) sum) c) c
      pure { C with data := c }) := by
  have hf : m ≤ fuel * tile_size := le_trans hle (Nat.le_mul_of_pos_left tile_size hfuel)
  rw [cache_aware_multiply_tiles_eq m tile_size fuel A B C (by omega) hf hA]
  simp only [single_tile hm hle, List.foldlM_cons, List.foldlM_nil, bind_pure, Nat.zero_add,
    Nat.min_eq_right hle]

/-- For a tile size at least the matrix size `cache_aware_multiply_tiled` is the zero
fill followed by the untiled loops over `[0, m)`. -/
theorem cache_aware_multiply_tiled_untiled (m tile_size fuel : Nat) (A B C : Matrix α)
    (hm : 1 ≤ m) (hle : m ≤ tile_size) (hfuel : 1 ≤ fuel) (hA : A.size = m) :
    cache_aware_multiply_tiled fuel A B C tile_size = (do
      let c ← memset_zero C.data (m * m)
      let c ← forRange 0 m (fun i c =>
        forRange 0 m (fun k c => do
          let a_ik ← load A.data (i * m + k)
          forRange 0 m (fun j c => do
            let cij ← load c (i * m + j)
            let y ← load B.data (k * m + j)
            store c (i * m + j) (cij + a_ik * y)) c) c) c
      pure { C with data := c }) := by
  have hf : m ≤ fuel * tile_size := le_trans hle (Nat.le_mul_of_pos_left tile_size hfuel)
  rw [cache_aware_multiply_tiled_tiles_eq m tile_size fuel A B C (by omega) hf hA]
  simp only [single_tile hm hle, List.foldlM_cons, List.foldlM_nil, bind_pure, Nat.zero_add,
    Nat.min_eq_right hle]

end TileForm

section Claims

variable {α : Type}

/-- C1: `naive_multiply` computes the matrix product. For `n ≥ 1`, `n x n` row-major
inputs `A`, `B` and an `n x n` output `C` with arbitrary previous contents, the call
returns and afterwards `C[i*n+j]`, for all `i, j < n`, is the sum of
`A[i*n+k] * B[k*n+j]` accumulated from `0` in increasing `k = 0, ..., n-1`. -/
theorem naive_multiply_computes_product [Add α] [Mul α] [Zero α] (n : Nat)
    (A B C : Matrix α) (_hn : 1 ≤ n) (hA : A.IsSquare n) (hB : B.IsSquare n)
    (hC : C.IsSquare n) :
    ∃ R, naive_multiply A B C = .ok R ∧ R.size = C.size ∧ R.data.length = n * n ∧
      ∀ i j, i < n → j < n →
        R.data[i * n + j]? = some ((List.range n).foldl
          (fun acc k => acc + A.data.getD (i * n + k) 0 * B.data.getD (k * n + j) 0) 0) := by
  refine ⟨_, naive_multiply_eq hA hB.2 hC.2, rfl, product_length n A.data B.data, ?_⟩
  intro i j hi hj
  rw [List.range_eq_range']
  exact product_at A.data B.data hi hj

theorem naive_multiply_computes_product_witness :
    1 ≤ 2 ∧ sampleA.IsSquare 2 ∧ sampleB.IsSquare 2 ∧ sampleC.IsSquare 2 ∧
    ∃ R, naive_multiply sampleA sampleB sampleC = .ok R ∧ R.size = sampleC.size ∧
      R.data.length = 2 * 2 ∧
      ∀ i j, i < 2 → j < 2 →
        R.data[i * 2 + j]? = some ((List.range 2).foldl
          (fun acc k => acc + sampleA.data.getD (i * 2 + k) 0 * sampleB.data.getD (k * 2 + j) 0)
          0) :=
  ⟨by decide, ⟨rfl, rfl⟩, ⟨rfl, rfl⟩, ⟨rfl, rfl⟩,
    naive_multiply_computes_product 2 sampleA sampleB sampleC (by decide) ⟨rfl, rfl⟩ ⟨rfl, rfl⟩
      ⟨rfl, rfl⟩⟩

/-- C2: for `n ≥ 1`, `n x n` inputs and every `tile_size ≥ 1` (with fuel for
`ceil(n / tile_size)` iterations of each tile loop), `cache_aware_multiply` and
`naive_multiply` both return, their outputs are equal element for element, hence every
element is within `1e-10` of its counterpart and `verify_result(C_naive, C_blocked,
1e-10)` returns `1` printing nothing. -/
theorem cache_aware_multiply_matches_naive [LinearOrderedField α] (n tile_size fuel : Nat)
    (A B Cn Cc : Matrix α) (_hn : 1 ≤ n) (_hts : 1 ≤ tile_size)
    (hfuel : n ≤ fuel * tile_size) (hA : A.IsSquare n) (hB : B.IsSquare n)
    (hCn : Cn.IsSquare n) (hCc : Cc.IsSquare n) :
    ∃ Rn Rc, naive_multiply A B Cn = .ok Rn ∧
      cache_aware_multiply fuel A B Cc tile_size = .ok Rc ∧
      Rn.data.length = n * n ∧ Rc.data = Rn.data ∧
      (∀ p, p < n * n → |Rn.data.getD p 0 - Rc.data.getD p 0| ≤ 1e-10) ∧
      verify_result Rn Rc 1e-10 = .ok (1, []) := by
  refine ⟨_, _, naive_multiply_eq hA hB.2 hCn.2, cache_aware_multiply_eq hA hB.2 hCc.2 hfuel,
    product_length n A.data B.data, rfl, ?_, ?_⟩
  · intro p _
    rw [sub_self, abs_zero]
    exact tolerance_nonneg
  · exact verify_result_of_eq _ tolerance_nonneg ⟨hCn.1, product_length n A.data B.data⟩
      ⟨hCc.1, product_length n A.data B.data⟩ rfl

theorem cache_aware_multiply_matches_naive_witness :
    1 ≤ 5 ∧ 1 ≤ 3 ∧ 5 ≤ 2 * 3 ∧ sampleP.IsSquare 5 ∧ sampleQ.IsSquare 5 ∧
    sampleR.IsSquare 5 ∧ sampleR.IsSquare 5 ∧
    ∃ Rn Rc, naive_multiply sampleP sampleQ sampleR = .ok Rn ∧
      cache_aware_multiply 2 sampleP sampleQ sampleR 3 = .ok Rc ∧
      Rn.data.length = 5 * 5 ∧ Rc.data = Rn.data ∧
      (∀ p, p < 5 * 5 → |Rn.data.getD p 0 - Rc.data.getD p 0| ≤ 1e-10) ∧
      verify_result Rn Rc 1e-10 = .ok (1, []) :=
  ⟨by decide, by decide, by decide, ⟨rfl, rfl⟩, ⟨rfl, rfl⟩, ⟨rfl, rfl⟩, ⟨rfl, rfl⟩,
    cache_aware_multiply_matches_naive 5 3 2 sampleP sampleQ sampleR sampleR (by decide)
      (by decide) (by decide) ⟨rfl, rfl⟩ ⟨rfl, rfl⟩ ⟨rfl, rfl⟩ ⟨rfl, rfl⟩⟩

/-- C3: for `n ≥ 1`, `n x n` inputs and every `tile_size ≥ 1` (with fuel for
`ceil(n / tile_size)` iterations of each tile loop), `cache_aware_multiply_tiled` and
`naive_multiply` both return, their outputs are equal element for element, hence every
element is within `1e-10` of its counterpart and `verify_result(C_naive, C_tiled,
1e-10)` returns `1` printing nothing. -/
theorem cache_aware_multiply_tiled_matches_naive [LinearOrderedField α]
    (n tile_size fuel : Nat) (A B Cn Ct : Matrix α) (_hn : 1 ≤ n) (_hts : 1 ≤ tile_size)
    (hfuel : n ≤ fuel * tile_size) (hA : A.IsSquare n) (hB : B.IsSquare n)
    (hCn : Cn.IsSquare n) (hCt : Ct.IsSquare n) :
    ∃ Rn Rt, naive_multiply A B Cn = .ok Rn ∧
      cache_aware_multiply_tiled fuel A B Ct tile_size = .ok Rt ∧
      Rn.data.length = n * n ∧ Rt.data = Rn.data ∧
      (∀ p, p < n * n → |Rn.data.getD p 0 - Rt.data.getD p 0| ≤ 1e-10) ∧
      verify_result Rn Rt 1e-10 = .ok (1, []) := by
  refine ⟨_, _, naive_multiply_eq hA hB.2 hCn.2,
    cache_aware_multiply_tiled_eq hA hB.2 hCt.2 hfuel,
    product_length n A.data B.data, rfl, ?_, ?_⟩
  · intro p _
    rw [sub_self, abs_zero]
    exact tolerance_nonneg
  · exact verify_result_of_eq _ tolerance_nonneg ⟨hCn.1, product_length n A.data B.data⟩
      ⟨hCt.1, product_length n A.data B.data⟩ rfl

theorem cache_aware_multiply_tiled_matches_naive_witness :
    1 ≤ 5 ∧ 1 ≤ 3 ∧ 5 ≤ 2 * 3 ∧ sampleQ.IsSquare 5 ∧ sampleP.IsSquare 5 ∧
    sampleR.IsSquare 5 ∧ sampleR.IsSquare 5 ∧
    ∃ Rn Rt, naive_multiply sampleQ sampleP sampleR = .ok Rn ∧
      cache_aware_multiply_tiled 2 sampleQ sampleP sampleR 3 = .ok Rt ∧
      Rn.data.length = 5 * 5 ∧ Rt.data = Rn.data ∧
      (∀ p, p < 5 * 5 → |Rn.data.getD p 0 - Rt.data.getD p 0| ≤ 1e-10) ∧
      verify_result Rn Rt 1e-10 = .ok (1, []) :=
  ⟨by decide, by decide, by decide, ⟨rfl, rfl⟩, ⟨rfl, rfl⟩, ⟨rfl, rfl⟩, ⟨rfl, rfl⟩,
    cache_aware_multiply_tiled_matches_naive 5 3 2 sampleQ sampleP sampleR sampleR (by decide)
      (by decide) (by decide) ⟨rfl, rfl⟩ ⟨rfl, rfl⟩ ⟨rfl, rfl⟩ ⟨rfl, rfl⟩⟩

/-- C4: for two `n x n` matrices, `verify_result(C1, C2, tolerance)` always returns `0` or
`1`; it returns `1` if and only if `|C1[i] - C2[i]| ≤ tolerance` for every flat index
`i < n * n` (a difference equal to the tolerance passes), and it returns `0` whenever
some pair's difference is strictly greater than the tolerance. -/
theorem verify_result_iff_within [LinearOrderedAddCommGroup α] (n : Nat) (C1 C2 : Matrix α)
    (tolerance : α) (h1 : C1.IsSquare n) (h2 : C2.IsSquare n) :
    (∃ r out, verify_result C1 C2 tolerance = .ok (r, out) ∧ (r = 1 ∨ r = 0)) ∧
    ((∃ out, verify_result C1 C2 tolerance = .ok (1, out)) ↔
      ∀ i, i < n * n → |C1.data.getD i 0 - C2.data.getD i 0| ≤ tolerance) ∧
    ((∃ i, i < n * n ∧ |C1.data.getD i 0 - C2.data.getD i 0| > tolerance) →
      ∃ out, verify_result C1 C2 tolerance = .ok (0, out)) := by
  have hsz : verify_result C1 C2 tolerance
      = verify_loop C1.data C2.data tolerance (List.range' 0 (n * n)) := by
    rw [verify_result_same_size tolerance (h1.1.trans h2.1.symm), h1.1]
  have hb : ∀ p ∈ List.range' 0 (n * n), p < C1.data.length ∧ p < C2.data.length := by
    intro p hp
    rw [List.mem_range'_1] at hp
    exact ⟨by rw [h1.2]; omega, by rw [h2.2]; omega⟩
  have hpass : (∀ i, i < n * n → |C1.data.getD i 0 - C2.data.getD i 0| ≤ tolerance) →
      verify_result C1 C2 tolerance = .ok (1, []) := by
    intro h
    rw [hsz]
    apply verify_loop_pass
    intro p hp
    refine ⟨(hb p hp).1, (hb p hp).2, h p ?_⟩
    rw [List.mem_range'_1] at hp
    omega
  have hfail : ¬ (∀ i, i < n * n → |C1.data.getD i 0 - C2.data.getD i 0| ≤ tolerance) →
      ∃ out, verify_result C1 C2 tolerance = .ok (0, out) := by
    intro h
    rcases within_or_first_mismatch C1.data C2.data tolerance (List.range' 0 (n * n)) with
      hall | ⟨pre, i, post, e, hpre, hi⟩
    · exfalso
      apply h
      intro i hi
      exact hall i (by rw [List.mem_range'_1]; omega)
    · have hmem : ∀ p ∈ pre, p ∈ List.range' 0 (n * n) := by
        intro p hp; rw [e]; exact List.mem_append_left _ hp
      have himem : i ∈ List.range' 0 (n * n) := by
        rw [e]; exact List.mem_append_right _ (List.mem_cons_self i post)
      refine ⟨[{ position := i, v1 := C1.data.getD i 0, v2 := C2.data.getD i 0,
                 diff := |C1.data.getD i 0 - C2.data.getD i 0| }], ?_⟩
      rw [hsz, e]
      exact verify_loop_fail tolerance pre i post
        (fun p hp => ⟨(hb p (hmem p hp)).1, (hb p (hmem p hp)).2, hpre p hp⟩)
        (hb i himem).1 (hb i himem).2 hi
  refine ⟨?_, ⟨?_, fun h => ⟨[], hpass h⟩⟩, ?_⟩
  · by_cases h : ∀ i, i < n * n → |C1.data.getD i 0 - C2.data.getD i 0| ≤ tolerance
    · exact ⟨1, [], hpass h, Or.inl rfl⟩
    · obtain ⟨out, ho⟩ := hfail h
      exact ⟨0, out, ho, Or.inr rfl⟩
  · rintro ⟨out, ho⟩
    by_contra h
    obtain ⟨out0, ho0⟩ := hfail h
    rw [ho] at ho0
    injection ho0 with e
    injection e with e1 _
    exact absurd e1 (by decide)
  · rintro ⟨i, hi, hd⟩
    apply hfail
    intro h
    exact absurd (h i hi) (not_le.2 hd)

theorem verify_result_iff_within_witness :
    sampleA.IsSquare 2 ∧ sampleB.IsSquare 2 ∧
    ((∃ r out, verify_result sampleA sampleB 4 = .ok (r, out) ∧ (r = 1 ∨ r = 0)) ∧
    ((∃ out, verify_result sampleA sampleB 4 = .ok (1, out)) ↔
      ∀ i, i < 2 * 2 → |sampleA.data.getD i 0 - sampleB.data.getD i 0| ≤ 4) ∧
    ((∃ i, i < 2 * 2 ∧ |sampleA.data.getD i 0 - sampleB.data.getD i 0| > 4) →
      ∃ out, verify_result sampleA sampleB 4 = .ok (0, out))) :=
  ⟨⟨rfl, rfl⟩, ⟨rfl, rfl⟩, verify_result_iff_within 2 sampleA sampleB 4 ⟨rfl, rfl⟩ ⟨rfl, rfl⟩⟩

/-- C5: the output of each kernel does not depend on the previous contents of `C`. For
`n ≥ 1`, `tile_size ≥ 1` and any two `n x n` outputs `C1`, `C2` with the same `A`, `B`,
each of `naive_multiply`, `cache_aware_multiply` and `cache_aware_multiply_tiled`
returns the same matrix, whose `n * n` values are `product n A B`, a function of `A` and
`B` alone; running the kernel again on its own output returns that matrix again. -/
theorem kernels_overwrite_output [Add α] [Mul α] [Zero α] (n tile_size fuel : Nat)
    (A B C1 C2 : Matrix α) (_hn : 1 ≤ n) (_hts : 1 ≤ tile_size)
    (hfuel : n ≤ fuel * tile_size) (hA : A.IsSquare n) (hB : B.IsSquare n)
    (hC1 : C1.IsSquare n) (hC2 : C2.IsSquare n) :
    (∃ R, naive_multiply A B C1 = .ok R ∧ naive_multiply A B C2 = .ok R ∧
      naive_multiply A B R = .ok R ∧
      R.data = product n A.data B.data ∧ R.data.length = n * n) ∧
    (∃ R, cache_aware_multiply fuel A B C1 tile_size = .ok R ∧
      cache_aware_multiply fuel A B C2 tile_size = .ok R ∧
      cache_aware_multiply fuel A B R tile_size = .ok R ∧
      R.data = product n A.data B.data ∧ R.data.length = n * n) ∧
    (∃ R, cache_aware_multiply_tiled fuel A B C1 tile_size = .ok R ∧
      cache_aware_multiply_tiled fuel A B C2 tile_size = .ok R ∧
      cache_aware_multiply_tiled fuel A B R tile_size = .ok R ∧
      R.data = product n A.data B.data ∧ R.data.length = n * n) := by
  have hsz : C2.size = C1.size := hC2.1.trans hC1.1.symm
  have hR : ({ C1 with data := product n A.data B.data } : Matrix α).data.length = n * n :=
    product_length n A.data B.data
  have e2 : ({ C2 with data := product n A.data B.data } : Matrix α)
      = { C1 with data := product n A.data B.data } := by
    rw [hsz]
  refine ⟨⟨_, naive_multiply_eq hA hB.2 hC1.2, ?_, naive_multiply_eq hA hB.2 hR, rfl, hR⟩,
    ⟨_, cache_aware_multiply_eq hA hB.2 hC1.2 hfuel, ?_,
      cache_aware_multiply_eq hA hB.2 hR hfuel, rfl, hR⟩,
    ⟨_, cache_aware_multiply_tiled_eq hA hB.2 hC1.2 hfuel, ?_,
      cache_aware_multiply_tiled_eq hA hB.2 hR hfuel, rfl, hR⟩⟩
  · rw [naive_multiply_eq hA hB.2 hC2.2, e2]
  · rw [cache_aware_multiply_eq hA hB.2 hC2.2 hfuel, e2]
  · rw [cache_aware_multiply_tiled_eq hA hB.2 hC2.2 hfuel, e2]

theorem kernels_overwrite_output_witness :
    1 ≤ 2 ∧ 1 ≤ 1 ∧ 2 ≤ 2 * 1 ∧ sampleA.IsSquare 2 ∧ sampleB.IsSquare 2 ∧
    sampleC.IsSquare 2 ∧ sampleD.IsSquare 2 ∧
    ((∃ R, naive_multiply sampleA sampleB sampleC = .ok R ∧
      naive_multiply sampleA sampleB sampleD = .ok R ∧
      naive_multiply sampleA sampleB R = .ok R ∧
      R.data = product 2 sampleA.data sampleB.data ∧ R.data.length = 2 * 2) ∧
    (∃ R, cache_aware_multiply 2 sampleA sampleB sampleC 1 = .ok R ∧
      cache_aware_multiply 2 sampleA sampleB sampleD 1 = .ok R ∧
      cache_aware_multiply 2 sampleA sampleB R 1 = .ok R ∧
      R.data = product 2 sampleA.data sampleB.data ∧ R.data.length = 2 * 2) ∧
    (∃ R, cache_aware_multiply_tiled 2 sampleA sampleB sampleC 1 = .ok R ∧
      cache_aware_multiply_tiled 2 sampleA sampleB sampleD 1 = .ok R ∧
      cache_aware_multiply_tiled 2 sampleA sampleB R 1 = .ok R ∧
      R.data = product 2 sampleA.data sampleB.data ∧ R.data.length = 2 * 2)) :=
  ⟨by decide, by decide, by decide, ⟨rfl, rfl⟩, ⟨rfl, rfl⟩, ⟨rfl, rfl⟩, ⟨rfl, rfl⟩,
    kernels_overwrite_output 2 1 2 sampleA sampleB sampleC sampleD (by decide) (by decide)
      (by decide) ⟨rfl, rfl⟩ ⟨rfl, rfl⟩ ⟨rfl, rfl⟩ ⟨rfl, rfl⟩⟩

/-- C6: `vector_multiply` gives the same result as `cache_aware_multiply_tiled`. For
`n ≥ 1`, `tile_size ≥ 1` and `VLMAX ≥ 1` (with fuel for the tile loops and for the
chunked loop), with `vsetvl_e64m1(avl) = min(avl, VLMAX)` and the lane-wise fused
multiply-add `C[i][j+l] + a_ik * B[k][j+l]`: the chunked `j` loop (step `VLMAX`, last
chunk narrowed to `j_end - j` lanes) returns and updates exactly the cells `(i, j)`,
`jj ≤ j < j_end`, once each, and both kernels return the same matrix. -/
theorem vector_multiply_matches_tiled [Add α] [Mul α] [Zero α]
    (n tile_size VLMAX fuel : Nat) (A B C : Matrix α) (_hn : 1 ≤ n) (_hts : 1 ≤ tile_size)
    (_hvl : 1 ≤ VLMAX) (hfuel : n ≤ fuel * tile_size) (hfuelv : n ≤ fuel * VLMAX)
    (hA : A.IsSquare n) (hB : B.IsSquare n) (hC : C.IsSquare n) :
    (∀ (x : α) (i k jj j_end : Nat), i < n → k < n → j_end ≤ n →
      CellWise n
        (forStep fuel jj j_end VLMAX (fun j c => do
          let actual_vl := vsetvl_e64m1 VLMAX (j_end - j)
          let vb ← vle64_v_f64m1 B.data (k * n + j) actual_vl
          let vc ← vle64_v_f64m1 c (i * n + j) actual_vl
          let vc := vfmadd_vv_f64m1 (vfmv_v_f_f64m1 x VLMAX) vb vc actual_vl
          vse64_v_f64m1 c (i * n + j) vc actual_vl))
        (fun i1 j1 v =>
          if i1 = i then (if jj ≤ j1 ∧ j1 < j_end then v + x * cell n B.data k j1 else v)
          else v)) ∧
    ∃ R, cache_aware_multiply_tiled fuel A B C tile_size = .ok R ∧
      vector_multiply VLMAX fuel A B C tile_size = .ok R ∧ R.data.length = n * n :=
  ⟨fun x _ _ jj j_end hi hk hj => vector_j_loop x B.data hB.2 VLMAX fuel hfuelv hi hk jj j_end hj,
    _, cache_aware_multiply_tiled_eq hA hB.2 hC.2 hfuel,
    vector_multiply_eq hA hB.2 hC.2 hfuel hfuelv, product_length n A.data B.data⟩

theorem vector_multiply_matches_tiled_witness :
    1 ≤ 5 ∧ 1 ≤ 3 ∧ 1 ≤ 2 ∧ 5 ≤ 3 * 3 ∧ 5 ≤ 3 * 2 ∧ sampleM.IsSquare 5 ∧
    sampleM.IsSquare 5 ∧ sampleN.IsSquare 5 ∧
    ((∀ (x : ℤ) (i k jj j_end : Nat), i < 5 → k < 5 → j_end ≤ 5 →
      CellWise 5
        (forStep 3 jj j_end 2 (fun j c => do
          let actual_vl := vsetvl_e64m1 2 (j_end - j)
          let vb ← vle64_v_f64m1 sampleM.data (k * 5 + j) actual_vl
          let vc ← vle64_v_f64m1 c (i * 5 + j) actual_vl
          let vc := vfmadd_vv_f64m1 (vfmv_v_f_f64m1 x 2) vb vc actual_vl
          vse64_v_f64m1 c (i * 5 + j) vc actual_vl))
        (fun i1 j1 v =>
          if i1 = i then (if jj ≤ j1 ∧ j1 < j_end then v + x * cell 5 sampleM.data k j1 else v)
          else v)) ∧
    ∃ R, cache_aware_multiply_tiled 3 sampleM sampleM sampleN 3 = .ok R ∧
      vector_multiply 2 3 sampleM sampleM sampleN 3 = .ok R ∧ R.data.length = 5 * 5) :=
  ⟨by decide, by decide, by decide, by decide, by decide, ⟨rfl, rfl⟩, ⟨rfl, rfl⟩, ⟨rfl, rfl⟩,
    vector_multiply_matches_tiled 5 3 2 3 sampleM sampleM sampleN (by decide) (by decide)
      (by decide) (by decide) (by decide) ⟨rfl, rfl⟩ ⟨rfl, rfl⟩ ⟨rfl, rfl⟩⟩

/-- C7: identity property. For `n ≥ 1`, an `n x n` matrix `A`, the `n x n` identity
matrix `I` and `tile_size ≥ 1`, each of `naive_multiply`, `cache_aware_multiply` and
`cache_aware_multiply_tiled` applied to `A` and `I` returns an output equal to `A`
element for element, and `verify_result(C, A, 1e-10)` returns `1`. -/
theorem multiply_by_identity [LinearOrderedField α] (n tile_size fuel : Nat)
    (A C : Matrix α) (_hn : 1 ≤ n) (_hts : 1 ≤ tile_size) (hfuel : n ≤ fuel * tile_size)
    (hA : A.IsSquare n) (hC : C.IsSquare n) :
    (∃ R, naive_multiply A (identity n) C = .ok R ∧ R.data = A.data ∧
      verify_result R A 1e-10 = .ok (1, [])) ∧
    (∃ R, cache_aware_multiply fuel A (identity n) C tile_size = .ok R ∧ R.data = A.data ∧
      verify_result R A 1e-10 = .ok (1, [])) ∧
    (∃ R, cache_aware_multiply_tiled fuel A (identity n) C tile_size = .ok R ∧
      R.data = A.data ∧ verify_result R A 1e-10 = .ok (1, [])) := by
  have hI : (identity n : Matrix α).data.length = n * n := (identity_isSquare n).2
  have hp : product n A.data (identity n : Matrix α).data = A.data :=
    product_identity A.data hA.2
  have hv : verify_result ({ C with data := product n A.data (identity n : Matrix α).data })
      A 1e-10 = .ok (1, []) :=
    verify_result_of_eq _ tolerance_nonneg ⟨hC.1, product_length _ _ _⟩ hA hp.symm
  exact ⟨⟨_, naive_multiply_eq hA hI hC.2, hp, hv⟩,
    ⟨_, cache_aware_multiply_eq hA hI hC.2 hfuel, hp, hv⟩,
    ⟨_, cache_aware_multiply_tiled_eq hA hI hC.2 hfuel, hp, hv⟩⟩

theorem multiply_by_identity_witness :
    1 ≤ 5 ∧ 1 ≤ 2 ∧ 5 ≤ 3 * 2 ∧ sampleP.IsSquare 5 ∧ sampleR.IsSquare 5 ∧
    ((∃ R, naive_multiply sampleP (identity 5) sampleR = .ok R ∧ R.data = sampleP.data ∧
      verify_result R sampleP 1e-10 = .ok (1, [])) ∧
    (∃ R, cache_aware_multiply 3 sampleP (identity 5) sampleR 2 = .ok R ∧
      R.data = sampleP.data ∧ verify_result R sampleP 1e-10 = .ok (1, [])) ∧
    (∃ R, cache_aware_multiply_tiled 3 sampleP (identity 5) sampleR 2 = .ok R ∧
      R.data = sampleP.data ∧ verify_result R sampleP 1e-10 = .ok (1, []))) :=
  ⟨by decide, by decide, by decide, ⟨rfl, rfl⟩, ⟨rfl, rfl⟩,
    multiply_by_identity 5 2 3 sampleP sampleR (by decide) (by decide) (by decide) ⟨rfl, rfl⟩
      ⟨rfl, rfl⟩⟩

/-- C8: zero property. For `n ≥ 1`, an `n x n` matrix `M` and `tile_size ≥ 1`, each of
`naive_multiply`, `cache_aware_multiply` and `cache_aware_multiply_tiled` applied to `M`
and the all-zero matrix, in either order, returns an output whose `n * n` elements are
all exactly `0`. -/
theorem multiply_by_zero [NonUnitalNonAssocSemiring α] (n tile_size fuel : Nat)
    (M C : Matrix α) (_hn : 1 ≤ n) (_hts : 1 ≤ tile_size) (hfuel : n ≤ fuel * tile_size)
    (hM : M.IsSquare n) (hC : C.IsSquare n) :
    (∃ R, naive_multiply M (zero_matrix n) C = .ok R ∧ R.data = List.replicate (n * n) 0) ∧
    (∃ R, naive_multiply (zero_matrix n) M C = .ok R ∧ R.data = List.replicate (n * n) 0) ∧
    (∃ R, cache_aware_multiply fuel M (zero_matrix n) C tile_size = .ok R ∧
      R.data = List.replicate (n * n) 0) ∧
    (∃ R, cache_aware_multiply fuel (zero_matrix n) M C tile_size = .ok R ∧
      R.data = List.replicate (n * n) 0) ∧
    (∃ R, cache_aware_multiply_tiled fuel M (zero_matrix n) C tile_size = .ok R ∧
      R.data = List.replicate (n * n) 0) ∧
    (∃ R, cache_aware_multiply_tiled fuel (zero_matrix n) M C tile_size = .ok R ∧
      R.data = List.replicate (n * n) 0) := by
  have hZ : (zero_matrix n : Matrix α).IsSquare n := zero_matrix_isSquare n
  have hr : product n M.data (zero_matrix n : Matrix α).data = List.replicate (n * n) 0 :=
    product_zero_right n M.data
  have hl : product n (zero_matrix n : Matrix α).data M.data = List.replicate (n * n) 0 :=
    product_zero_left n M.data
  exact ⟨⟨_, naive_multiply_eq hM hZ.2 hC.2, hr⟩, ⟨_, naive_multiply_eq hZ hM.2 hC.2, hl⟩,
    ⟨_, cache_aware_multiply_eq hM hZ.2 hC.2 hfuel, hr⟩,
    ⟨_, cache_aware_multiply_eq hZ hM.2 hC.2 hfuel, hl⟩,
    ⟨_, cache_aware_multiply_tiled_eq hM hZ.2 hC.2 hfuel, hr⟩,
    ⟨_, cache_aware_multiply_tiled_eq hZ hM.2 hC.2 hfuel, hl⟩⟩

theorem multiply_by_zero_witness :
    1 ≤ 2 ∧ 1 ≤ 5 ∧ 2 ≤ 1 * 5 ∧ sampleB.IsSquare 2 ∧ sampleD.IsSquare 2 ∧
    ((∃ R, naive_multiply sampleB (zero_matrix 2) sampleD = .ok R ∧
      R.data = List.replicate (2 * 2) 0) ∧
    (∃ R, naive_multiply (zero_matrix 2) sampleB sampleD = .ok R ∧
      R.data = List.replicate (2 * 2) 0) ∧
    (∃ R, cache_aware_multiply 1 sampleB (zero_matrix 2) sampleD 5 = .ok R ∧
      R.data = List.replicate (2 * 2) 0) ∧
    (∃ R, cache_aware_multiply 1 (zero_matrix 2) sampleB sampleD 5 = .ok R ∧
      R.data = List.replicate (2 * 2) 0) ∧
    (∃ R, cache_aware_multiply_tiled 1 sampleB (zero_matrix 2) sampleD 5 = .ok R ∧
      R.data = List.replicate (2 * 2) 0) ∧
    (∃ R, cache_aware_multiply_tiled 1 (zero_matrix 2) sampleB sampleD 5 = .ok R ∧
      R.data = List.replicate (2 * 2) 0)) :=
  ⟨by decide, by decide, by decide, ⟨rfl, rfl⟩, ⟨rfl, rfl⟩,
    multiply_by_zero 2 5 1 sampleB sampleD (by decide) (by decide) (by decide) ⟨rfl, rfl⟩
      ⟨rfl, rfl⟩⟩

/-- C9: reflexivity of the verifier. For every matrix `C` (of any size `n ≥ 0`, with any
contents) and every tolerance `≥ 0`, `verify_result(C, C, tolerance)` returns `1` and
prints nothing. -/
theorem verify_result_refl [LinearOrderedAddCommGroup α] (n : Nat) (C : Matrix α)
    (tolerance : α) (htol : 0 ≤ tolerance) (hC : C.IsSquare n) :
    verify_result C C tolerance = .ok (1, []) :=
  verify_result_of_eq tolerance htol hC hC rfl

theorem verify_result_refl_witness :
    (0 : ℤ) ≤ 0 ∧ sampleD.IsSquare 2 ∧ verify_result sampleD sampleD 0 = .ok (1, []) :=
  ⟨by decide, ⟨rfl, rfl⟩, verify_result_refl 2 sampleD 0 (by decide) ⟨rfl, rfl⟩⟩

/-- C10: for matrices `C1`, `C2` with `C1.size != C2.size`, whatever their buffers hold
(even buffers too short for their size) and whatever the tolerance,
`verify_result(C1, C2, tolerance)` returns `0` without a read and prints nothing. -/
theorem verify_result_size_mismatch [LinearOrderedAddCommGroup α] (C1 C2 : Matrix α)
    (tolerance : α) (h : C1.size ≠ C2.size) :
    verify_result C1 C2 tolerance = .ok (0, []) := by
  unfold verify_result
  rw [if_pos h]

theorem verify_result_size_mismatch_witness :
    sampleA.size ≠ sampleE.size ∧ verify_result sampleA sampleE 100 = .ok (0, []) :=
  ⟨by decide, verify_result_size_mismatch sampleA sampleE 100 (by decide)⟩

/-- C11: scenario 2 x 2. With `A = [[1,2],[3,4]]` and `B = [[5,6],[7,8]]` (row-major,
`n = 2`), `naive_multiply` yields exactly `[[19,22],[43,50]]`, and for every
`tile_size ≥ 1` (with fuel for the tile loops) `cache_aware_multiply` and
`cache_aware_multiply_tiled` yield exactly the same matrix. -/
theorem scenario_two_by_two [Semiring α] (tile_size fuel : Nat) (C : Matrix α)
    (_hts : 1 ≤ tile_size) (hfuel : 2 ≤ fuel * tile_size) (hC : C.IsSquare 2) :
    naive_multiply (scenarioA α) (scenarioB α) C
      = .ok { C with data := [19, 22, 43, 50] } ∧
    cache_aware_multiply fuel (scenarioA α) (scenarioB α) C tile_size
      = .ok { C with data := [19, 22, 43, 50] } ∧
    cache_aware_multiply_tiled fuel (scenarioA α) (scenarioB α) C tile_size
      = .ok { C with data := [19, 22, 43, 50] } := by
  have hA : (scenarioA α).IsSquare 2 := ⟨rfl, rfl⟩
  have hB : (scenarioB α).data.length = 2 * 2 := rfl
  have hp : product 2 (scenarioA α).data (scenarioB α).data = [19, 22, 43, 50] := by
    simp only [scenarioA, scenarioB, product, accum, cell, List.range, List.range.loop, List.range', List.map,
      List.foldl, List.getD_cons_zero, List.getD_cons_succ]
    norm_num
  rw [naive_multiply_eq hA hB hC.2, cache_aware_multiply_eq hA hB hC.2 hfuel,
    cache_aware_multiply_tiled_eq hA hB hC.2 hfuel]
  simp only [hp, and_self]

theorem scenario_two_by_two_witness :
    1 ≤ 1 ∧ 2 ≤ 2 * 1 ∧ sampleC.IsSquare 2 ∧
    (naive_multiply (scenarioA ℤ) (scenarioB ℤ)
        sampleC
      = .ok { sampleC with data := [19, 22, 43, 50] } ∧
    cache_aware_multiply 2 (scenarioA ℤ) (scenarioB ℤ) sampleC 1
      = .ok { sampleC with data := [19, 22, 43, 50] } ∧
    cache_aware_multiply_tiled 2 (scenarioA ℤ) (scenarioB ℤ) sampleC 1
      = .ok { sampleC with data := [19, 22, 43, 50] }) :=
  ⟨by decide, by decide, ⟨rfl, rfl⟩,
    scenario_two_by_two 1 2 sampleC (by decide) (by decide) ⟨rfl, rfl⟩⟩

/-- C12: scenario `N = 1`. For `n = 1` and any entries `a`, `b` every kernel
(`naive_multiply`, and `cache_aware_multiply` and `cache_aware_multiply_tiled` for every
`tile_size ≥ 1`) yields the single output element `a * b`; for `A = [[7]]`, `B = [[6]]`
that is `[[42]]`. -/
theorem scenario_one_by_one [Semiring α] (tile_size fuel : Nat) (a b : α) (C : Matrix α)
    (_hts : 1 ≤ tile_size) (hfuel : 1 ≤ fuel * tile_size) (hC : C.IsSquare 1) :
    (naive_multiply (single a) (single b) C
        = .ok { C with data := [a * b] } ∧
      cache_aware_multiply fuel (single a) (single b) C
          tile_size = .ok { C with data := [a * b] } ∧
      cache_aware_multiply_tiled fuel (single a) (single b) C
          tile_size = .ok { C with data := [a * b] }) ∧
    (naive_multiply (single 7) (single 6) C
        = .ok { C with data := [42] } ∧
      cache_aware_multiply fuel (single 7) (single 6) C
          tile_size = .ok { C with data := [42] } ∧
      cache_aware_multiply_tiled fuel (single 7) (single 6) C
          tile_size = .ok { C with data := [42] }) := by
  have key : ∀ x y : α,
      naive_multiply (single x) (single y) C
        = .ok { C with data := [x * y] } ∧
      cache_aware_multiply fuel (single x) (single y) C
          tile_size = .ok { C with data := [x * y] } ∧
      cache_aware_multiply_tiled fuel (single x) (single y) C
          tile_size = .ok { C with data := [x * y] } := by
    intro x y
    have hA : (single x).IsSquare 1 := ⟨rfl, rfl⟩
    have hB : (single y).data.length = 1 * 1 := rfl
    have hp : product 1 (single x).data (single y).data = [x * y] := by
      simp only [single, product, accum, cell, List.range, List.range.loop, List.range', List.map,
        List.foldl, List.getD_cons_zero]
      norm_num
    rw [naive_multiply_eq hA hB hC.2, cache_aware_multiply_eq hA hB hC.2 hfuel,
      cache_aware_multiply_tiled_eq hA hB hC.2 hfuel]
    simp only [hp, and_self]
  refine ⟨key a b, ?_⟩
  have h := key 7 6
  have e : (7 : α) * 6 = 42 := by norm_num
  rw [e] at h
  exact h

theorem scenario_one_by_one_witness :
    1 ≤ 4 ∧ 1 ≤ 1 * 4 ∧ sampleE.IsSquare 1 ∧
    ((naive_multiply (single 3) (single (-5)) sampleE
        = .ok { sampleE with data := [3 * -5] } ∧
      cache_aware_multiply 1 (single 3) (single (-5)) sampleE
          4 = .ok { sampleE with data := [3 * -5] } ∧
      cache_aware_multiply_tiled 1 (single 3) (single (-5))
          sampleE 4 = .ok { sampleE with data := [3 * -5] }) ∧
    (naive_multiply (single 7) (single 6) sampleE
        = .ok { sampleE with data := [42] } ∧
      cache_aware_multiply 1 (single 7) (single 6) sampleE
          4 = .ok { sampleE with data := [42] } ∧
      cache_aware_multiply_tiled 1 (single 7) (single 6)
          sampleE 4 = .ok { sampleE with data := [42] })) :=
  ⟨by decide, by decide, ⟨rfl, rfl⟩,
    scenario_one_by_one 4 1 3 (-5) sampleE (by decide) (by decide) ⟨rfl, rfl⟩⟩

/-- C13: tile-boundary arithmetic. For `n ≥ 1`, `tile_size ≥ 1` and matrices of size `n`
(with fuel for the tile loops), `cache_aware_multiply` and `cache_aware_multiply_tiled`
are the zero fill followed by their three nested loops over the tile origins
`0, tile_size, 2 * tile_size, ...` below `n`, in this order, each tile running over
`[origin, min(origin + tile_size, n))`, which is the end bound the code computes. Every
such tile is non-empty and lies in `[0, n)`, every index of `[0, n)` lies in exactly one
tile, and two different tiles are disjoint. For `n = 5`, `tile_size = 3` the tiles are
`[0,3)` and `[3,5)`; for matrices of a size `m ≤ tile_size` the only tile is `[0, m)`
and both kernels are the zero fill followed by their untiled loops over `[0, m)`. -/
theorem tile_boundaries [Add α] [Mul α] [Zero α] (n tile_size fuel : Nat)
    (A B C : Matrix α) (_hn : 1 ≤ n) (hts : 1 ≤ tile_size) (hfuel : n ≤ fuel * tile_size)
    (hA : A.size = n) :
    (cache_aware_multiply fuel A B C tile_size = (do
      let c ← zero_fill n C.data
      let c ← ((List.range (tileCount n tile_size)).map (fun t => t * tile_size)).foldlM
        (fun c ii =>
          ((List.range (tileCount n tile_size)).map (fun t => t * tile_size)).foldlM
            (fun c jj =>
              ((List.range (tileCount n tile_size)).map (fun t => t * tile_size)).foldlM
                (fun c kk =>
                  forRange ii (min (ii + tile_size) n) (fun i c =>
                    forRange jj (min (jj + tile_size) n) (fun j c => do
                      let sum ← load c (i * n + j)
                      let sum ← forRange kk (min (kk + tile_size) n) (fun k sum => do
                        let x ← load A.data (i * n + k)
                        let y ← load B.data (k * n + j)
                        pure (sum + x * y)) sum
                      store c (i * n + j) sum) c) c) c) c) c
      pure { C with data := c })) ∧
    (cache_aware_multiply_tiled fuel A B C tile_size = (do
      let c ← memset_zero C.data (n * n)
      let c ← ((List.range (tileCount n tile_size)).map (fun t => t * tile_size)).foldlM
        (fun c ii =>
          ((List.range (tileCount n tile_size)).map (fun t => t * tile_size)).foldlM
            (fun c kk =>
              ((List.range (tileCount n tile_size)).map (fun t => t * tile_size)).foldlM
                (fun c jj =>
                  forRange ii (min (ii + tile_size) n) (fun i c =>
                    forRange kk (min (kk + tile_size) n) (fun k c => do
                      let a_ik ← load A.data (i * n + k)
                      forRange jj (min (jj + tile_size) n) (fun j c => do
                        let cij ← load c (i * n + j)
                        let y ← load B.data (k * n + j)
                        store c (i * n + j) (cij + a_ik * y)) c) c) c) c) c) c
      pure { C with data := c })) ∧
    (∀ o, o ∈ (List.range (tileCount n tile_size)).map (fun t => t * tile_size) ↔
      ∃ t, o = t * tile_size ∧ o < n) ∧
    (∀ o, (if o + tile_size < n then o + tile_size else n) = min (o + tile_size) n) ∧
    (∀ o, o ∈ (List.range (tileCount n tile_size)).map (fun t => t * tile_size) →
      o < min (o + tile_size) n ∧ min (o + tile_size) n ≤ n) ∧
    (∀ i, i < n →
      ∃ o, o ∈ (List.range (tileCount n tile_size)).map (fun t => t * tile_size) ∧
        (o ≤ i ∧ i < min (o + tile_size) n) ∧
        ∀ o2, o2 ∈ (List.range (tileCount n tile_size)).map (fun t => t * tile_size) →
          o2 ≤ i → i < min (o2 + tile_size) n → o2 = o) ∧
    (∀ o1 o2 i,
      o1 ∈ (List.range (tileCount n tile_size)).map (fun t => t * tile_size) →
      o2 ∈ (List.range (tileCount n tile_size)).map (fun t => t * tile_size) → o1 ≠ o2 →
      ¬ ((o1 ≤ i ∧ i < min (o1 + tile_size) n) ∧ (o2 ≤ i ∧ i < min (o2 + tile_size) n))) ∧
    ((List.range (tileCount 5 3)).map (fun t => t * 3) = [0, 3] ∧ min (0 + 3) 5 = 3 ∧
      min (3 + 3) 5 = 5) ∧
    (∀ (m fuel2 : Nat) (A2 B2 C2 : Matrix α), 1 ≤ m → m ≤ tile_size → 1 ≤ fuel2 →
      A2.size = m →
      (List.range (tileCount m tile_size)).map (fun t => t * tile_size) = [0] ∧
      min (0 + tile_size) m = m ∧
      cache_aware_multiply fuel2 A2 B2 C2 tile_size = (do
        let c ← zero_fill m C2.data
        let c ← forRange 0 m (fun i c =>
          forRange 0 m (fun j c => do
            let sum ← load c (i * m + j)
            let sum ← forRange 0 m (fun k sum => do
              let x ← load A2.data (i * m + k)
              let y ← load B2.data (k * m + j)
              pure (sum + x * y)) sum
            store c (i * m + j) sum) c) c
        pure { C2 with data := c }) ∧
      cache_aware_multiply_tiled fuel2 A2 B2 C2 tile_size = (do
        let c ← memset_zero C2.data (m * m)
        let c ← forRange 0 m (fun i c =>
          forRange 0 m (fun k c => do
            let a_ik ← load A2.data (i * m + k)
            forRange 0 m (fun j c => do
              let cij ← load c (i * m + j)
              let y ← load B2.data (k * m + j)
              store c (i * m + j) (cij + a_ik * y)) c) c) c
        pure { C2 with data := c })) := by
  have huniq : ∀ o i, o ∈ (List.range (tileCount n tile_size)).map (fun t => t * tile_size) →
      o ≤ i → i < min (o + tile_size) n → o = i / tile_size * tile_size := by
    intro o i ho h1 h2
    obtain ⟨t, rfl, ht⟩ := (mem_tiles_iff hts o).1 ho
    have h3 : i < tileEnd n tile_size (t * tile_size) := by
      rw [tileEnd_eq n tile_size _ ht]
      exact h2
    exact tile_unique h1 h3
  refine ⟨?_, ?_, mem_tiles_iff hts, fun o => ite_lt_eq_min _ _, ?_, ?_, ?_, ?_, ?_⟩
  · exact cache_aware_multiply_tiles_eq n tile_size fuel A B C hts hfuel hA
  · exact cache_aware_multiply_tiled_tiles_eq n tile_size fuel A B C hts hfuel hA
  · intro o ho
    obtain ⟨t, rfl, ht⟩ := (mem_tiles_iff hts o).1 ho
    omega
  · intro i hi
    have hd := tile_of_index hts hi
    rw [tileEnd_eq n tile_size _ (by omega)] at hd
    refine ⟨i / tile_size * tile_size, (mem_tiles_iff hts _).2 ⟨_, rfl, by omega⟩, hd, ?_⟩
    intro o2 ho2 h1 h2
    exact huniq o2 i ho2 h1 h2
  · rintro o1 o2 i ho1 ho2 hne ⟨⟨h1, h2⟩, ⟨h3, h4⟩⟩
    exact hne ((huniq o1 i ho1 h1 h2).trans (huniq o2 i ho2 h3 h4).symm)
  · exact ⟨by decide, by decide, by decide⟩
  · intro m fuel2 A2 B2 C2 hm hle hf2 hA2
    exact ⟨single_tile hm hle, by omega,
      cache_aware_multiply_untiled m tile_size fuel2 A2 B2 C2 hm hle hf2 hA2,
      cache_aware_multiply_tiled_untiled m tile_size fuel2 A2 B2 C2 hm hle hf2 hA2⟩

theorem tile_boundaries_witness :
    1 ≤ 5 ∧ 1 ≤ 3 ∧ 5 ≤ 2 * 3 ∧ sampleM.size = 5 ∧
    ((cache_aware_multiply 2 sampleM sampleM sampleN 3 = (do
      let c ← zero_fill 5 sampleN.data
      let c ← ((List.range (tileCount 5 3)).map (fun t => t * 3)).foldlM
        (fun c ii =>
          ((List.range (tileCount 5 3)).map (fun t => t * 3)).foldlM
            (fun c jj =>
              ((List.range (tileCount 5 3)).map (fun t => t * 3)).foldlM
                (fun c kk =>
                  forRange ii (min (ii + 3) 5) (fun i c =>
                    forRange jj (min (jj + 3) 5) (fun j c => do
                      let sum ← load c (i * 5 + j)
                      let sum ← forRange kk (min (kk + 3) 5) (fun k sum => do
                        let x ← load sampleM.data (i * 5 + k)
                        let y ← load sampleM.data (k * 5 + j)
                        pure (sum + x * y)) sum
                      store c (i * 5 + j) sum) c) c) c) c) c
      pure { sampleN with data := c })) ∧
    (cache_aware_multiply_tiled 2 sampleM sampleM sampleN 3 = (do
      let c ← memset_zero sampleN.data (5 * 5)
      let c ← ((List.range (tileCount 5 3)).map (fun t => t * 3)).foldlM
        (fun c ii =>
          ((List.range (tileCount 5 3)).map (fun t => t * 3)).foldlM
            (fun c kk =>
              ((List.range (tileCount 5 3)).map (fun t => t * 3)).foldlM
                (fun c jj =>
                  forRange ii (min (ii + 3) 5) (fun i c =>
                    forRange kk (min (kk + 3) 5) (fun k c => do
                      let a_ik ← load sampleM.data (i * 5 + k)
                      forRange jj (min (jj + 3) 5) (fun j c => do
                        let cij ← load c (i * 5 + j)
                        let y ← load sampleM.data (k * 5 + j)
                        store c (i * 5 + j) (cij + a_ik * y)) c) c) c) c) c) c
      pure { sampleN with data := c })) ∧
    (∀ o, o ∈ (List.range (tileCount 5 3)).map (fun t => t * 3) ↔
      ∃ t, o = t * 3 ∧ o < 5) ∧
    (∀ o, (if o + 3 < 5 then o + 3 else 5) = min (o + 3) 5) ∧
    (∀ o, o ∈ (List.range (tileCount 5 3)).map (fun t => t * 3) →
      o < min (o + 3) 5 ∧ min (o + 3) 5 ≤ 5) ∧
    (∀ i, i < 5 →
      ∃ o, o ∈ (List.range (tileCount 5 3)).map (fun t => t * 3) ∧
        (o ≤ i ∧ i < min (o + 3) 5) ∧
        ∀ o2, o2 ∈ (List.range (tileCount 5 3)).map (fun t => t * 3) →
          o2 ≤ i → i < min (o2 + 3) 5 → o2 = o) ∧
    (∀ o1 o2 i,
      o1 ∈ (List.range (tileCount 5 3)).map (fun t => t * 3) →
      o2 ∈ (List.range (tileCount 5 3)).map (fun t => t * 3) → o1 ≠ o2 →
      ¬ ((o1 ≤ i ∧ i < min (o1 + 3) 5) ∧ (o2 ≤ i ∧ i < min (o2 + 3) 5))) ∧
    ((List.range (tileCount 5 3)).map (fun t => t * 3) = [0, 3] ∧ min (0 + 3) 5 = 3 ∧
      min (3 + 3) 5 = 5) ∧
    (∀ (m fuel2 : Nat) (A2 B2 C2 : Matrix ℤ), 1 ≤ m → m ≤ 3 → 1 ≤ fuel2 →
      A2.size = m →
      (List.range (tileCount m 3)).map (fun t => t * 3) = [0] ∧
      min (0 + 3) m = m ∧
      cache_aware_multiply fuel2 A2 B2 C2 3 = (do
        let c ← zero_fill m C2.data
        let c ← forRange 0 m (fun i c =>
          forRange 0 m (fun j c => do
            let sum ← load c (i * m + j)
            let sum ← forRange 0 m (fun k sum => do
              let x ← load A2.data (i * m + k)
              let y ← load B2.data (k * m + j)
              pure (sum + x * y)) sum
            store c (i * m + j) sum) c) c
        pure { C2 with data := c }) ∧
      cache_aware_multiply_tiled fuel2 A2 B2 C2 3 = (do
        let c ← memset_zero C2.data (m * m)
        let c ← forRange 0 m (fun i c =>
          forRange 0 m (fun k c => do
            let a_ik ← load A2.data (i * m + k)
            forRange 0 m (fun j c => do
              let cij ← load c (i * m + j)
              let y ← load B2.data (k * m + j)
              store c (i * m + j) (cij + a_ik * y)) c) c) c
        pure { C2 with data := c }))) :=
  ⟨by decide, by decide, by decide, rfl,
    tile_boundaries 5 3 2 sampleM sampleM sampleN (by decide) (by decide) (by decide) rfl⟩

/-- C14: cross-tile accumulation in `cache_aware_multiply`. One tile multiplication never
resets `C[i][j]`: in its tile the scalar `sum` starts from the value found in `C[i][j]`,
accumulates over `k` in `[kk, k_end)` and is written back once, and cells outside the
tile are not touched. For `n ≥ 1`, `tile_size ≥ 1` and tile origins `ii = p * tile_size`,
`jj = q * tile_size`, `kk = t * tile_size` below `n`, the execution of the kernel is: the
zero fill, the `ii` iterations before `ii`, the `jj` iterations of `ii` before `jj`, the
`kk` iterations of `(ii, jj)` with origins `0, tile_size, ..., kk`, and then the
remaining `kk`, `jj` and `ii` iterations. In the state `s3` reached after the `kk`
iterations `0, ..., kk`, from which the kernel continues, every `C[i*n+j]` of the tile
`(ii, jj)` (still `0` in the state `s2` before these `kk` iterations) equals the sum of
`A[i*n+k] * B[k*n+j]` over `k` in `[0, k_end)`, `k_end = min(kk + tile_size, n)`. -/
theorem cross_tile_accumulation [Add α] [Mul α] [Zero α] (n tile_size fuel : Nat)
    (A B C : Matrix α) (_hn : 1 ≤ n) (hts : 1 ≤ tile_size) (hfuel : n ≤ fuel * tile_size)
    (hA : A.IsSquare n) (hB : B.IsSquare n) (hC : C.IsSquare n) (p q t : Nat)
    (hp : p * tile_size < n) (hq : q * tile_size < n) (ht : t * tile_size < n) :
    CellWise n (ijk_tile n tile_size A.data B.data (p * tile_size) (q * tile_size)
        (t * tile_size))
      (fun i j v =>
        if p * tile_size ≤ i ∧ i < min (p * tile_size + tile_size) n then
          (if q * tile_size ≤ j ∧ j < min (q * tile_size + tile_size) n then
            (List.range' (t * tile_size)
              (min (t * tile_size + tile_size) n - t * tile_size)).foldl
              (fun acc k => acc + A.data.getD (i * n + k) 0 * B.data.getD (k * n + j) 0) v
          else v)
        else v) ∧
    (cache_aware_multiply fuel A B C tile_size = (do
      let c0 ← zero_fill n C.data
      let s1 ← ((List.range p).map (fun r => r * tile_size)).foldlM
        (fun acc ii => ijk_ii_iteration fuel n tile_size A.data B.data ii acc) c0
      let s2 ← ((List.range q).map (fun r => r * tile_size)).foldlM
        (fun acc jj =>
          ijk_jj_iteration fuel n tile_size A.data B.data (p * tile_size) jj acc) s1
      let s3 ← ((List.range (t + 1)).map (fun r => r * tile_size)).foldlM
        (fun acc kk =>
          ijk_tile n tile_size A.data B.data (p * tile_size) (q * tile_size) kk acc) s2
      let s4 ← ((List.range' (t + 1) (tileCount n tile_size - (t + 1))).map
        (fun r => r * tile_size)).foldlM
        (fun acc kk =>
          ijk_tile n tile_size A.data B.data (p * tile_size) (q * tile_size) kk acc) s3
      let s5 ← ((List.range' (q + 1) (tileCount n tile_size - (q + 1))).map
        (fun r => r * tile_size)).foldlM
        (fun acc jj =>
          ijk_jj_iteration fuel n tile_size A.data B.data (p * tile_size) jj acc) s4
      let s6 ← ((List.range' (p + 1) (tileCount n tile_size - (p + 1))).map
        (fun r => r * tile_size)).foldlM
        (fun acc ii => ijk_ii_iteration fuel n tile_size A.data B.data ii acc) s5
      pure { C with data := s6 })) ∧
    ∃ s2 s3 : List α,
      (do
        let c0 ← zero_fill n C.data
        let s1 ← ((List.range p).map (fun r => r * tile_size)).foldlM
          (fun acc ii => ijk_ii_iteration fuel n tile_size A.data B.data ii acc) c0
        ((List.range q).map (fun r => r * tile_size)).foldlM
          (fun acc jj =>
            ijk_jj_iteration fuel n tile_size A.data B.data (p * tile_size) jj acc) s1)
        = .ok s2 ∧
      ((List.range (t + 1)).map (fun r => r * tile_size)).foldlM
        (fun acc kk =>
          ijk_tile n tile_size A.data B.data (p * tile_size) (q * tile_size) kk acc) s2
        = .ok s3 ∧
      cache_aware_multiply fuel A B C tile_size = (do
        let s4 ← ((List.range' (t + 1) (tileCount n tile_size - (t + 1))).map
          (fun r => r * tile_size)).foldlM
          (fun acc kk =>
            ijk_tile n tile_size A.data B.data (p * tile_size) (q * tile_size) kk acc) s3
        let s5 ← ((List.range' (q + 1) (tileCount n tile_size - (q + 1))).map
          (fun r => r * tile_size)).foldlM
          (fun acc jj =>
            ijk_jj_iteration fuel n tile_size A.data B.data (p * tile_size) jj acc) s4
        let s6 ← ((List.range' (p + 1) (tileCount n tile_size - (p + 1))).map
          (fun r => r * tile_size)).foldlM
          (fun acc ii => ijk_ii_iteration fuel n tile_size A.data B.data ii acc) s5
        pure { C with data := s6 }) ∧
      ∀ i j, p * tile_size ≤ i → i < min (p * tile_size + tile_size) n →
        q * tile_size ≤ j → j < min (q * tile_size + tile_size) n →
        s2[i * n + j]? = some 0 ∧
        s3[i * n + j]? = some ((List.range (min (t * tile_size + tile_size) n)).foldl
          (fun acc k => acc + A.data.getD (i * n + k) 0 * B.data.getD (k * n + j) 0) 0) := by
  have hEp := tileEnd_eq n tile_size _ hp
  have hEq := tileEnd_eq n tile_size _ hq
  have hEt := tileEnd_eq n tile_size _ ht
  -- the kernel as the seven stages
  have hJ : ∀ s : List α,
      ijk_jj_iteration fuel n tile_size A.data B.data (p * tile_size) (q * tile_size) s = (do
        let s3 ← ((List.range (t + 1)).map (fun r => r * tile_size)).foldlM
          (fun acc kk =>
            ijk_tile n tile_size A.data B.data (p * tile_size) (q * tile_size) kk acc) s
        ((List.range' (t + 1) (tileCount n tile_size - (t + 1))).map
          (fun r => r * tile_size)).foldlM
          (fun acc kk =>
            ijk_tile n tile_size A.data B.data (p * tile_size) (q * tile_size) kk acc) s3) :=
    fun s => loop_split_incl _ n tile_size fuel hts hfuel t ht s
  have hI : ∀ s : List α,
      ijk_ii_iteration fuel n tile_size A.data B.data (p * tile_size) s = (do
        let s2 ← ((List.range q).map (fun r => r * tile_size)).foldlM
          (fun acc jj =>
            ijk_jj_iteration fuel n tile_size A.data B.data (p * tile_size) jj acc) s
        let s5 ← ijk_jj_iteration fuel n tile_size A.data B.data (p * tile_size)
          (q * tile_size) s2
        ((List.range' (q + 1) (tileCount n tile_size - (q + 1))).map
          (fun r => r * tile_size)).foldlM
          (fun acc jj =>
            ijk_jj_iteration fuel n tile_size A.data B.data (p * tile_size) jj acc) s5) :=
    fun s => loop_split _ n tile_size fuel hts hfuel q hq s
  have hK : ∀ s : List α,
      forStep fuel 0 n tile_size
          (fun ii c => ijk_ii_iteration fuel n tile_size A.data B.data ii c) s = (do
        let s1 ← ((List.range p).map (fun r => r * tile_size)).foldlM
          (fun acc ii => ijk_ii_iteration fuel n tile_size A.data B.data ii acc) s
        let s5 ← ijk_ii_iteration fuel n tile_size A.data B.data (p * tile_size) s1
        ((List.range' (p + 1) (tileCount n tile_size - (p + 1))).map
          (fun r => r * tile_size)).foldlM
          (fun acc ii => ijk_ii_iteration fuel n tile_size A.data B.data ii acc) s5) :=
    fun s => loop_split _ n tile_size fuel hts hfuel p hp s
  have e0 : cache_aware_multiply fuel A B C tile_size = (do
      let c ← zero_fill A.size C.data
      let c ← forStep fuel 0 A.size tile_size
        (fun ii c => ijk_ii_iteration fuel A.size tile_size A.data B.data ii c) c
      pure { C with data := c }) := rfl
  have hD : cache_aware_multiply fuel A B C tile_size = (do
      let c0 ← zero_fill n C.data
      let s1 ← ((List.range p).map (fun r => r * tile_size)).foldlM
        (fun acc ii => ijk_ii_iteration fuel n tile_size A.data B.data ii acc) c0
      let s2 ← ((List.range q).map (fun r => r * tile_size)).foldlM
        (fun acc jj =>
          ijk_jj_iteration fuel n tile_size A.data B.data (p * tile_size) jj acc) s1
      let s3 ← ((List.range (t + 1)).map (fun r => r * tile_size)).foldlM
        (fun acc kk =>
          ijk_tile n tile_size A.data B.data (p * tile_size) (q * tile_size) kk acc) s2
      let s4 ← ((List.range' (t + 1) (tileCount n tile_size - (t + 1))).map
        (fun r => r * tile_size)).foldlM
        (fun acc kk =>
          ijk_tile n tile_size A.data B.data (p * tile_size) (q * tile_size) kk acc) s3
      let s5 ← ((List.range' (q + 1) (tileCount n tile_size - (q + 1))).map
        (fun r => r * tile_size)).foldlM
        (fun acc jj =>
          ijk_jj_iteration fuel n tile_size A.data B.data (p * tile_size) jj acc) s4
      let s6 ← ((List.range' (p + 1) (tileCount n tile_size - (p + 1))).map
        (fun r => r * tile_size)).foldlM
        (fun acc ii => ijk_ii_iteration fuel n tile_size A.data B.data ii acc) s5
      pure { C with data := s6 }) := by
    rw [e0, hA.1]
    simp only [hK, hI, hJ, bind_assoc]
  -- the states before and after the `kk` iterations `0, ..., kk`
  have h0 : (List.replicate (n * n) (0 : α)).length = n * n := by simp
  obtain ⟨s1, e1, l1, c1⟩ := CellWise.foldlM ((List.range p).map (fun r => r * tile_size))
    (fun ii => ijk_ii_iteration fuel n tile_size A.data B.data ii) _
    (fun ii _ => ijk_jj_loop A.data B.data hA.2 hB.2 fuel tile_size hfuel ii)
    (List.replicate (n * n) 0) h0
  obtain ⟨s2, e2, l2, c2⟩ := CellWise.foldlM ((List.range q).map (fun r => r * tile_size))
    (fun jj => ijk_jj_iteration fuel n tile_size A.data B.data (p * tile_size) jj) _
    (fun jj _ => ijk_kk_loop A.data B.data hA.2 hB.2 fuel tile_size hfuel (p * tile_size) jj)
    s1 l1
  obtain ⟨s3, e3, l3, c3⟩ := ijk_kk_upto A.data B.data hA.2 hB.2 tile_size (p * tile_size)
    (q * tile_size) t ht s2 l2
  have hpre : (do
        let c0 ← zero_fill n C.data
        let s1 ← ((List.range p).map (fun r => r * tile_size)).foldlM
          (fun acc ii => ijk_ii_iteration fuel n tile_size A.data B.data ii acc) c0
        ((List.range q).map (fun r => r * tile_size)).foldlM
          (fun acc jj =>
            ijk_jj_iteration fuel n tile_size A.data B.data (p * tile_size) jj acc) s1)
        = .ok s2 := by
    rw [zero_fill_ok hC.2, ok_bind]
    exact (congrArg (fun r => r >>= fun s1 =>
      ((List.range q).map (fun r => r * tile_size)).foldlM
        (fun acc jj =>
          ijk_jj_iteration fuel n tile_size A.data B.data (p * tile_size) jj acc) s1) e1).trans e2
  refine ⟨?_, hD, s2, s3, hpre, e3, ?_, ?_⟩
  · rw [← hEp, ← hEq, ← hEt]
    exact ijk_tile_cellWise A.data B.data hA.2 hB.2 tile_size _ _ _
  · have k1 := e1
    have k2 := e2
    have k3 := e3
    beta_reduce at k1 k2 k3
    rw [hD, zero_fill_ok hC.2]
    simp only [ok_bind, k1, k2, k3]
  · intro i j hi1 hi2 hj1 hj2
    rw [← hEp] at hi2
    rw [← hEq] at hj2
    rw [← hEt]
    have hi : i < n := lt_of_lt_of_le hi2 (tileEnd_le _ _ _)
    have hj : j < n := lt_of_lt_of_le hj2 (tileEnd_le _ _ _)
    have h1 := c1 i j hi hj
    have h2 := c2 i j hi hj
    have h3 := c3 i j hi hj
    beta_reduce at h1 h2 h3
    rw [foldl_skip (fun x => x ≤ i ∧ i < tileEnd n tile_size x) _ _ _
      (fun x hx => earlier_tile_misses hi1 hx), cell_replicate_zero hi hj] at h1
    rw [foldl_guard, foldl_skip (fun x => x ≤ j ∧ j < tileEnd n tile_size x) _ _ _
      (fun x hx => earlier_tile_misses hj1 hx), ite_self, h1] at h2
    rw [if_pos ⟨hi1, hi2⟩, if_pos ⟨hj1, hj2⟩, h2] at h3
    refine ⟨by rw [cell_lookup l2 hi hj, h2], ?_⟩
    rw [cell_lookup l3 hi hj, h3, List.range_eq_range']
    rfl

theorem cross_tile_accumulation_witness :
    1 ≤ 5 ∧ 1 ≤ 2 ∧ 5 ≤ 3 * 2 ∧ sampleM.IsSquare 5 ∧ sampleM.IsSquare 5 ∧
    sampleN.IsSquare 5 ∧ 1 * 2 < 5 ∧ 2 * 2 < 5 ∧ 1 * 2 < 5 ∧
    (CellWise 5 (ijk_tile 5 2 sampleM.data sampleM.data (1 * 2) (2 * 2)
        (1 * 2))
      (fun i j v =>
        if 1 * 2 ≤ i ∧ i < min (1 * 2 + 2) 5 then
          (if 2 * 2 ≤ j ∧ j < min (2 * 2 + 2) 5 then
            (List.range' (1 * 2)
              (min (1 * 2 + 2) 5 - 1 * 2)).foldl
              (fun acc k =>
                acc + sampleM.data.getD (i * 5 + k) 0 * sampleM.data.getD (k * 5 + j) 0) v
          else v)
        else v) ∧
    (cache_aware_multiply 3 sampleM sampleM sampleN 2 = (do
      let c0 ← zero_fill 5 sampleN.data
      let s1 ← ((List.range 1).map (fun r => r * 2)).foldlM
        (fun acc ii => ijk_ii_iteration 3 5 2 sampleM.data sampleM.data ii acc) c0
      let s2 ← ((List.range 2).map (fun r => r * 2)).foldlM
        (fun acc jj =>
          ijk_jj_iteration 3 5 2 sampleM.data sampleM.data (1 * 2) jj acc) s1
      let s3 ← ((List.range (1 + 1)).map (fun r => r * 2)).foldlM
        (fun acc kk =>
          ijk_tile 5 2 sampleM.data sampleM.data (1 * 2) (2 * 2) kk acc) s2
      let s4 ← ((List.range' (1 + 1) (tileCount 5 2 - (1 + 1))).map
        (fun r => r * 2)).foldlM
        (fun acc kk =>
          ijk_tile 5 2 sampleM.data sampleM.data (1 * 2) (2 * 2) kk acc) s3
      let s5 ← ((List.range' (2 + 1) (tileCount 5 2 - (2 + 1))).map
        (fun r => r * 2)).foldlM
        (fun acc jj =>
          ijk_jj_iteration 3 5 2 sampleM.data sampleM.data (1 * 2) jj acc) s4
      let s6 ← ((List.range' (1 + 1) (tileCount 5 2 - (1 + 1))).map
        (fun r => r * 2)).foldlM
        (fun acc ii => ijk_ii_iteration 3 5 2 sampleM.data sampleM.data ii acc) s5
      pure { sampleN with data := s6 })) ∧
    ∃ s2 s3 : List ℤ,
      (do
        let c0 ← zero_fill 5 sampleN.data
        let s1 ← ((List.range 1).map (fun r => r * 2)).foldlM
          (fun acc ii => ijk_ii_iteration 3 5 2 sampleM.data sampleM.data ii acc) c0
        ((List.range 2).map (fun r => r * 2)).foldlM
          (fun acc jj =>
            ijk_jj_iteration 3 5 2 sampleM.data sampleM.data (1 * 2) jj acc) s1)
        = .ok s2 ∧
      ((List.range (1 + 1)).map (fun r => r * 2)).foldlM
        (fun acc kk =>
          ijk_tile 5 2 sampleM.data sampleM.data (1 * 2) (2 * 2) kk acc) s2
        = .ok s3 ∧
      cache_aware_multiply 3 sampleM sampleM sampleN 2 = (do
        let s4 ← ((List.range' (1 + 1) (tileCount 5 2 - (1 + 1))).map
          (fun r => r * 2)).foldlM
          (fun acc kk =>
            ijk_tile 5 2 sampleM.data sampleM.data (1 * 2) (2 * 2) kk acc) s3
        let s5 ← ((List.range' (2 + 1) (tileCount 5 2 - (2 + 1))).map
          (fun r => r * 2)).foldlM
          (fun acc jj =>
            ijk_jj_iteration 3 5 2 sampleM.data sampleM.data (1 * 2) jj acc) s4
        let s6 ← ((List.range' (1 + 1) (tileCount 5 2 - (1 + 1))).map
          (fun r => r * 2)).foldlM
          (fun acc ii => ijk_ii_iteration 3 5 2 sampleM.data sampleM.data ii acc) s5
        pure { sampleN with data := s6 }) ∧
      ∀ i j, 1 * 2 ≤ i → i < min (1 * 2 + 2) 5 →
        2 * 2 ≤ j → j < min (2 * 2 + 2) 5 →
        s2[i * 5 + j]? = some 0 ∧
        s3[i * 5 + j]? = some ((List.range (min (1 * 2 + 2) 5)).foldl
          (fun acc k =>
            acc + sampleM.data.getD (i * 5 + k) 0 * sampleM.data.getD (k * 5 + j) 0) 0)) :=
  ⟨by decide, by decide, by decide, ⟨rfl, rfl⟩, ⟨rfl, rfl⟩, ⟨rfl, rfl⟩, by decide, by decide,
    by decide,
    cross_tile_accumulation 5 2 3 sampleM sampleM sampleN (by decide) (by decide) (by decide)
      ⟨rfl, rfl⟩ ⟨rfl, rfl⟩ ⟨rfl, rfl⟩ 1 2 1 (by decide) (by decide) (by decide)⟩

/-- C15: first-mismatch diagnostic of `verify_result`. For two `n x n` matrices: when
the call returns `0` it has printed exactly one mismatch, at the least flat index
`i < n * n` with `|C1[i] - C2[i]| > tolerance`, with the values `C1[i]`, `C2[i]` and
`|C1[i] - C2[i]|` (and it does return `0` with that line whenever such an index exists);
when it returns `1` it has printed nothing; and when it returns `0` because the sizes of
two matrices differ it has printed nothing. -/
theorem verify_result_reports_first_mismatch [LinearOrderedAddCommGroup α] (n : Nat)
    (C1 C2 : Matrix α) (tolerance : α) (h1 : C1.IsSquare n) (h2 : C2.IsSquare n) :
    (∀ out, verify_result C1 C2 tolerance = .ok (0, out) →
      ∃ i, i < n * n ∧ |C1.data.getD i 0 - C2.data.getD i 0| > tolerance ∧
        (∀ p, p < i → |C1.data.getD p 0 - C2.data.getD p 0| ≤ tolerance) ∧
        out = [{ position := i, v1 := C1.data.getD i 0, v2 := C2.data.getD i 0,
                 diff := |C1.data.getD i 0 - C2.data.getD i 0| }]) ∧
    (∀ i, i < n * n → |C1.data.getD i 0 - C2.data.getD i 0| > tolerance →
      (∀ p, p < i → |C1.data.getD p 0 - C2.data.getD p 0| ≤ tolerance) →
      verify_result C1 C2 tolerance
        = .ok (0, [{ position := i, v1 := C1.data.getD i 0, v2 := C2.data.getD i 0,
                     diff := |C1.data.getD i 0 - C2.data.getD i 0| }])) ∧
    (∀ out, verify_result C1 C2 tolerance = .ok (1, out) → out = []) ∧
    (∀ D1 D2 : Matrix α, D1.size ≠ D2.size → verify_result D1 D2 tolerance = .ok (0, [])) := by
  have hsz : verify_result C1 C2 tolerance
      = verify_loop C1.data C2.data tolerance (List.range' 0 (n * n)) := by
    rw [verify_result_same_size tolerance (h1.1.trans h2.1.symm), h1.1]
  have hcase := verify_loop_range C1.data C2.data tolerance (n * n) (by rw [h1.2]) (by rw [h2.2])
  rw [← hsz] at hcase
  refine ⟨?_, ?_, ?_, fun D1 D2 h => ?_⟩
  · intro out ho
    rcases hcase with ⟨_, hr⟩ | ⟨i, hi, hd, hpre, hr⟩
    · rw [hr] at ho
      injection ho with e
      injection e with e1 _
      exact absurd e1 (by decide)
    · rw [hr] at ho
      injection ho with e
      injection e with _ e2
      exact ⟨i, hi, hd, hpre, e2.symm⟩
  · intro i hi hd hpre
    rcases hcase with ⟨hall, _⟩ | ⟨k, hk, hkd, hkpre, hr⟩
    · exact absurd (hall i hi) (not_le.2 hd)
    · have hik : i = k := by
        rcases Nat.lt_trichotomy i k with h | h | h
        · exact absurd (hkpre i h) (not_le.2 hd)
        · exact h
        · exact absurd (hpre k h) (not_le.2 hkd)
      rw [hik]
      exact hr
  · intro out ho
    rcases hcase with ⟨_, hr⟩ | ⟨i, _, _, _, hr⟩
    · rw [hr] at ho
      injection ho with e
      injection e with _ e2
      exact e2.symm
    · rw [hr] at ho
      injection ho with e
      injection e with e1 _
      exact absurd e1 (by decide)
  · unfold verify_result
    rw [if_pos h]

theorem verify_result_reports_first_mismatch_witness :
    sampleC.IsSquare 2 ∧ sampleD.IsSquare 2 ∧
    ((∀ out, verify_result sampleC sampleD 8 = .ok (0, out) →
      ∃ i, i < 2 * 2 ∧ |sampleC.data.getD i 0 - sampleD.data.getD i 0| > 8 ∧
        (∀ p, p < i → |sampleC.data.getD p 0 - sampleD.data.getD p 0| ≤ 8) ∧
        out = [{ position := i, v1 := sampleC.data.getD i 0, v2 := sampleD.data.getD i 0,
                 diff := |sampleC.data.getD i 0 - sampleD.data.getD i 0| }]) ∧
    (∀ i, i < 2 * 2 → |sampleC.data.getD i 0 - sampleD.data.getD i 0| > 8 →
      (∀ p, p < i → |sampleC.data.getD p 0 - sampleD.data.getD p 0| ≤ 8) →
      verify_result sampleC sampleD 8
        = .ok (0, [{ position := i, v1 := sampleC.data.getD i 0,
                     v2 := sampleD.data.getD i 0,
                     diff := |sampleC.data.getD i 0 - sampleD.data.getD i 0| }])) ∧
    (∀ out, verify_result sampleC sampleD 8 = .ok (1, out) → out = []) ∧
    (∀ D1 D2 : Matrix ℤ, D1.size ≠ D2.size → verify_result D1 D2 8 = .ok (0, []))) :=
  ⟨⟨rfl, rfl⟩, ⟨rfl, rfl⟩,
    verify_result_reports_first_mismatch 2 sampleC sampleD 8 ⟨rfl, rfl⟩ ⟨rfl, rfl⟩⟩

/-- C16: operation-order identity. Let `add` and `mul` be arbitrary binary operations and
`zero` an arbitrary value standing for `+`, `*` and `0.0`, with no associativity,
commutativity, distributivity or neutrality assumed. For `n ≥ 1` and `tile_size ≥ 1`,
`naive_multiply`, `cache_aware_multiply` and `cache_aware_multiply_tiled` return the same
matrix, and every `C[i][j]` is the left-nested expression
`add (... (add (add zero (mul A[i][0] B[0][j])) (mul A[i][1] B[1][j])) ...)
(mul A[i][n-1] B[n-1][j])` with `k` increasing from `0` to `n - 1`. -/
theorem kernels_same_operation_order (add mul : α → α → α) (zero : α)
    (n tile_size fuel : Nat) (A B C : Matrix α) (_hn : 1 ≤ n) (_hts : 1 ≤ tile_size)
    (hfuel : n ≤ fuel * tile_size) (hA : A.IsSquare n) (hB : B.IsSquare n)
    (hC : C.IsSquare n) :
    ∃ R, @naive_multiply α ⟨add⟩ ⟨mul⟩ ⟨zero⟩ A B C = .ok R ∧
      @cache_aware_multiply α ⟨add⟩ ⟨mul⟩ ⟨zero⟩ fuel A B C tile_size = .ok R ∧
      @cache_aware_multiply_tiled α ⟨add⟩ ⟨mul⟩ ⟨zero⟩ fuel A B C tile_size = .ok R ∧
      R.data.length = n * n ∧
      ∀ i j, i < n → j < n →
        R.data[i * n + j]? = some ((List.range n).foldl
          (fun acc k =>
            add acc (mul (A.data.getD (i * n + k) zero) (B.data.getD (k * n + j) zero)))
          zero) := by
  letI : Add α := ⟨add⟩
  letI : Mul α := ⟨mul⟩
  letI : Zero α := ⟨zero⟩
  refine ⟨_, naive_multiply_eq hA hB.2 hC.2, cache_aware_multiply_eq hA hB.2 hC.2 hfuel,
    cache_aware_multiply_tiled_eq hA hB.2 hC.2 hfuel, product_length n A.data B.data, ?_⟩
  intro i j hi hj
  rw [List.range_eq_range']
  exact product_at A.data B.data hi hj

theorem kernels_same_operation_order_witness :
    1 ≤ 5 ∧ 1 ≤ 3 ∧ 5 ≤ 2 * 3 ∧ sampleM.IsSquare 5 ∧ sampleM.IsSquare 5 ∧
    sampleN.IsSquare 5 ∧
    ∃ R, @naive_multiply ℤ ⟨fun x y => 2 * x - y⟩ ⟨fun x y => x * y + x⟩ ⟨3⟩
        sampleM sampleM sampleN = .ok R ∧
      @cache_aware_multiply ℤ ⟨fun x y => 2 * x - y⟩ ⟨fun x y => x * y + x⟩ ⟨3⟩ 2
        sampleM sampleM sampleN 3 = .ok R ∧
      @cache_aware_multiply_tiled ℤ ⟨fun x y => 2 * x - y⟩ ⟨fun x y => x * y + x⟩ ⟨3⟩ 2
        sampleM sampleM sampleN 3 = .ok R ∧
      R.data.length = 5 * 5 ∧
      ∀ i j, i < 5 → j < 5 →
        R.data[i * 5 + j]? = some ((List.range 5).foldl
          (fun acc k =>
            (fun x y => 2 * x - y) acc ((fun x y => x * y + x)
              (sampleM.data.getD (i * 5 + k) 3) (sampleM.data.getD (k * 5 + j) 3)))
          3) :=
  ⟨by decide, by decide, by decide, ⟨rfl, rfl⟩, ⟨rfl, rfl⟩, ⟨rfl, rfl⟩,
    kernels_same_operation_order (fun x y => 2 * x - y) (fun x y => x * y + x) 3 5 3 2
      sampleM sampleM sampleN (by decide) (by decide) (by decide) ⟨rfl, rfl⟩ ⟨rfl, rfl⟩
      ⟨rfl, rfl⟩⟩

/-- C17: in-bounds indexing. For `n ≥ 1`, `tile_size ≥ 1` and matrices whose `size` is `n`
and whose buffers hold exactly `n * n` values, every index `i*n+j`, `i*n+k`, `k*n+j`
(`i, j, k < n`) and every flat index `i < n * n` lies inside the buffers, and the
bounds-checked executions never fault with an access outside a buffer: `naive_multiply`
and `verify_result` return, `cache_aware_multiply` and `cache_aware_multiply_tiled`
return when the fuel covers the tile loops and, for every fuel, never end in
`Fault.outOfBounds`. -/
theorem accesses_in_bounds [LinearOrderedRing α] (n tile_size : Nat)
    (A B C C1 C2 : Matrix α) (tolerance : α) (_hn : 1 ≤ n) (_hts : 1 ≤ tile_size)
    (hA : A.IsSquare n) (hB : B.IsSquare n) (hC : C.IsSquare n) (h1 : C1.IsSquare n)
    (h2 : C2.IsSquare n) :
    (∀ i j k, i < n → j < n → k < n →
      i * n + j < C.data.length ∧ i * n + k < A.data.length ∧ k * n + j < B.data.length) ∧
    (∀ i, i < n * n → i < C.data.length ∧ i < C1.data.length ∧ i < C2.data.length) ∧
    (∃ R, naive_multiply A B C = .ok R) ∧
    (∀ fuel, cache_aware_multiply fuel A B C tile_size ≠ .error .outOfBounds) ∧
    (∀ fuel, cache_aware_multiply_tiled fuel A B C tile_size ≠ .error .outOfBounds) ∧
    (∀ fuel, n ≤ fuel * tile_size →
      (∃ R, cache_aware_multiply fuel A B C tile_size = .ok R) ∧
      (∃ R, cache_aware_multiply_tiled fuel A B C tile_size = .ok R)) ∧
    (∃ r, verify_result C1 C2 tolerance = .ok r) := by
  refine ⟨?_, ?_, ⟨_, naive_multiply_eq hA hB.2 hC.2⟩, ?_, ?_, ?_, ?_⟩
  · intro i j k hi hj hk
    rw [hC.2, hA.2, hB.2]
    exact ⟨idx_lt hi hj, idx_lt hi hk, idx_lt hk hj⟩
  · intro i hi
    rw [hC.2, h1.2, h2.2]
    exact ⟨hi, hi, hi⟩
  · intro fuel h
    rcases cache_aware_multiply_inBounds hA hB.2 hC.2 fuel tile_size with ⟨R, hR⟩ | hR
    · rw [hR] at h; cases h
    · rw [hR] at h; cases h
  · intro fuel h
    rcases cache_aware_multiply_tiled_inBounds hA hB.2 hC.2 fuel tile_size with ⟨R, hR⟩ | hR
    · rw [hR] at h; cases h
    · rw [hR] at h; cases h
  · intro fuel hfuel
    exact ⟨⟨_, cache_aware_multiply_eq hA hB.2 hC.2 hfuel⟩,
      ⟨_, cache_aware_multiply_tiled_eq hA hB.2 hC.2 hfuel⟩⟩
  · have hsz : verify_result C1 C2 tolerance
        = verify_loop C1.data C2.data tolerance (List.range' 0 (n * n)) := by
      rw [verify_result_same_size tolerance (h1.1.trans h2.1.symm), h1.1]
    rw [hsz]
    rcases verify_loop_range C1.data C2.data tolerance (n * n) (by rw [h1.2]) (by rw [h2.2])
      with ⟨_, hr⟩ | ⟨i, _, _, _, hr⟩
    · exact ⟨_, hr⟩
    · exact ⟨_, hr⟩

theorem accesses_in_bounds_witness :
    1 ≤ 2 ∧ 1 ≤ 1 ∧ sampleA.IsSquare 2 ∧ sampleB.IsSquare 2 ∧ sampleC.IsSquare 2 ∧
    sampleC.IsSquare 2 ∧ sampleD.IsSquare 2 ∧
    ((∀ i j k, i < 2 → j < 2 → k < 2 →
      i * 2 + j < sampleC.data.length ∧ i * 2 + k < sampleA.data.length ∧
      k * 2 + j < sampleB.data.length) ∧
    (∀ i, i < 2 * 2 →
      i < sampleC.data.length ∧ i < sampleC.data.length ∧ i < sampleD.data.length) ∧
    (∃ R, naive_multiply sampleA sampleB sampleC = .ok R) ∧
    (∀ fuel, cache_aware_multiply fuel sampleA sampleB sampleC 1 ≠ .error .outOfBounds) ∧
    (∀ fuel,
      cache_aware_multiply_tiled fuel sampleA sampleB sampleC 1 ≠ .error .outOfBounds) ∧
    (∀ fuel, 2 ≤ fuel * 1 →
      (∃ R, cache_aware_multiply fuel sampleA sampleB sampleC 1 = .ok R) ∧
      (∃ R, cache_aware_multiply_tiled fuel sampleA sampleB sampleC 1 = .ok R)) ∧
    (∃ r, verify_result sampleC sampleD 3 = .ok r)) :=
  ⟨by decide, by decide, ⟨rfl, rfl⟩, ⟨rfl, rfl⟩, ⟨rfl, rfl⟩, ⟨rfl, rfl⟩, ⟨rfl, rfl⟩,
    accesses_in_bounds 2 1 sampleA sampleB sampleC sampleC sampleD 3 (by decide) (by decide)
      ⟨rfl, rfl⟩ ⟨rfl, rfl⟩ ⟨rfl, rfl⟩ ⟨rfl, rfl⟩ ⟨rfl, rfl⟩⟩

/-- C18: termination. For `n ≥ 0` and `tile_size ≥ 1` every tile loop
`for (o = 0; o < n; o += tile_size)` is the total function `forStepWF`, defined by
well-founded recursion on `n - o`, as soon as the fuel reaches `ceil(n / tile_size)`; it
runs its body exactly once for each of the `ceil(n / tile_size)` origins
`0, tile_size, 2 * tile_size, ...` (with less fuel a loop whose body returns does not
finish), and every inner loop over a tile runs at most `tile_size` iterations. Hence
`cache_aware_multiply` and `cache_aware_multiply_tiled` coincide with the total functions
`cache_aware_multiply_total` and `cache_aware_multiply_tiled_total`, which return on
`n x n` matrices. -/
theorem tile_loops_terminate [Add α] [Mul α] [Zero α] (n tile_size : Nat)
    (A B C : Matrix α) (hts : 1 ≤ tile_size) (hA : A.IsSquare n) (hB : B.IsSquare n)
    (hC : C.IsSquare n) :
    (∀ (σ : Type) (body : Nat → σ → Except Fault σ) (s : σ) (fuel : Nat),
      tileCount n tile_size ≤ fuel →
      forStep fuel 0 n tile_size body s = forStepWF n tile_size hts body 0 s) ∧
    (∀ (σ : Type) (body : Nat → σ → Except Fault σ) (s : σ),
      forStepWF n tile_size hts body 0 s
        = ((List.range (tileCount n tile_size)).map (fun t => t * tile_size)).foldlM
            (fun acc o => body o acc) s) ∧
    ((List.range (tileCount n tile_size)).map (fun t => t * tile_size)).length
      = tileCount n tile_size ∧
    (∀ t, t < tileCount n tile_size →
      ((List.range (tileCount n tile_size)).map (fun t => t * tile_size))[t]?
        = some (t * tile_size)) ∧
    (∀ (σ : Type) (body : Nat → σ → Except Fault σ) (f : Nat → σ → σ),
      (∀ o s, body o s = .ok (f o s)) → ∀ (s : σ) (fuel : Nat),
      fuel < tileCount n tile_size →
      forStep fuel 0 n tile_size body s = .error .outOfFuel) ∧
    (∀ o, (List.range' o (tileEnd n tile_size o - o)).length ≤ tile_size) ∧
    (∀ fuel, tileCount n tile_size ≤ fuel →
      cache_aware_multiply fuel A B C tile_size
        = cache_aware_multiply_total A B C tile_size hts ∧
      cache_aware_multiply_tiled fuel A B C tile_size
        = cache_aware_multiply_tiled_total A B C tile_size hts) ∧
    (∃ R, cache_aware_multiply_total A B C tile_size hts = .ok R) ∧
    (∃ R, cache_aware_multiply_tiled_total A B C tile_size hts = .ok R) := by
  have hself : n ≤ tileCount n tile_size * tile_size :=
    (tileCount_le_iff hts).1 (le_refl _)
  have hsize : A.size ≤ tileCount n tile_size * tile_size := by rw [hA.1]; exact hself
  refine ⟨?_, ?_, by simp, ?_, ?_, ?_, ?_, ?_, ?_⟩
  · intro σ body s fuel hfuel
    exact forStep_eq_wf n tile_size hts body fuel 0 s
      (by have := (tileCount_le_iff hts).1 hfuel; omega)
  · intro σ body s
    rw [← forStep_eq_wf n tile_size hts body (tileCount n tile_size) 0 s (by omega),
      forStep_eq_foldlM body n tile_size _ 0 s (by omega),
      origins_eq_map hts _ 0 (by omega)]
    simp
  · intro t ht
    rw [List.getElem?_map, List.getElem?_range ht]
    rfl
  · intro σ body f hb s fuel hfuel
    refine forStep_outOfFuel n tile_size body f hb fuel 0 s ?_
    have := (tileCount_le_iff hts).not.1 (not_le.2 hfuel)
    omega
  · intro o
    rw [List.length_range']
    unfold tileEnd
    split <;> omega
  · intro fuel hfuel
    have h : A.size ≤ fuel * tile_size := by
      rw [hA.1]; exact (tileCount_le_iff hts).1 hfuel
    exact ⟨cache_aware_multiply_eq_total A B C tile_size fuel hts h,
      cache_aware_multiply_tiled_eq_total A B C tile_size fuel hts h⟩
  · rw [← cache_aware_multiply_eq_total A B C tile_size _ hts hsize]
    exact ⟨_, cache_aware_multiply_eq hA hB.2 hC.2 hself⟩
  · rw [← cache_aware_multiply_tiled_eq_total A B C tile_size _ hts hsize]
    exact ⟨_, cache_aware_multiply_tiled_eq hA hB.2 hC.2 hself⟩

theorem tile_loops_terminate_witness :
    1 ≤ 3 ∧ sampleM.IsSquare 5 ∧ sampleM.IsSquare 5 ∧ sampleN.IsSquare 5 ∧
    ((∀ (σ : Type) (body : Nat → σ → Except Fault σ) (s : σ) (fuel : Nat),
      tileCount 5 3 ≤ fuel →
      forStep fuel 0 5 3 body s = forStepWF 5 3 (Nat.succ_pos 2) body 0 s) ∧
    (∀ (σ : Type) (body : Nat → σ → Except Fault σ) (s : σ),
      forStepWF 5 3 (Nat.succ_pos 2) body 0 s
        = ((List.range (tileCount 5 3)).map (fun t => t * 3)).foldlM
            (fun acc o => body o acc) s) ∧
    ((List.range (tileCount 5 3)).map (fun t => t * 3)).length = tileCount 5 3 ∧
    (∀ t, t < tileCount 5 3 →
      ((List.range (tileCount 5 3)).map (fun t => t * 3))[t]? = some (t * 3)) ∧
    (∀ (σ : Type) (body : Nat → σ → Except Fault σ) (f : Nat → σ → σ),
      (∀ o s, body o s = .ok (f o s)) → ∀ (s : σ) (fuel : Nat),
      fuel < tileCount 5 3 →
      forStep fuel 0 5 3 body s = .error .outOfFuel) ∧
    (∀ o, (List.range' o (tileEnd 5 3 o - o)).length ≤ 3) ∧
    (∀ fuel, tileCount 5 3 ≤ fuel →
      cache_aware_multiply fuel sampleM sampleM sampleN 3
        = cache_aware_multiply_total sampleM sampleM sampleN 3 (Nat.succ_pos 2) ∧
      cache_aware_multiply_tiled fuel sampleM sampleM sampleN 3
        = cache_aware_multiply_tiled_total sampleM sampleM sampleN 3 (Nat.succ_pos 2)) ∧
    (∃ R, cache_aware_multiply_total sampleM sampleM sampleN 3 (Nat.succ_pos 2) = .ok R) ∧
    (∃ R, cache_aware_multiply_tiled_total sampleM sampleM sampleN 3 (Nat.succ_pos 2) = .ok R)) :=
  ⟨by decide, ⟨rfl, rfl⟩, ⟨rfl, rfl⟩, ⟨rfl, rfl⟩,
    tile_loops_terminate 5 3 sampleM sampleM sampleN (by decide) ⟨rfl, rfl⟩ ⟨rfl, rfl⟩
      ⟨rfl, rfl⟩⟩

/-- C19: no 32-bit overflow. For `1 ≤ n ≤ 46340` and `1 ≤ tile_size ≤ 2^31 - 1` every
`int` expression evaluated by the kernels and the verifier has its exact value in
`[-2^31, 2^31 - 1]` and is computed unchanged by wrapping 32-bit arithmetic: the bound
`n * n`; the counters `i + 1` of the flat loops (`i < n * n`) and of the unit-stride loops
(`i < n`); the products and indices `i * n`, `i * n + j` for `i, j < n` (which are the
shapes of `i*n+j`, `i*n+k` and `k*n+j`); and, for every tile origin `o` visited by a tile
loop, the clamp operand and loop update `o + tile_size` and the end bound of the tile. -/
theorem no_int32_overflow (n tile_size : Nat) (_hn : 1 ≤ n) (hn2 : n ≤ 46340)
    (hts : 1 ≤ tile_size) (hts2 : tile_size ≤ 2147483647) :
    (Fits32 (n * n) ∧ mul32 n n = ((n * n : Nat) : Int)) ∧
    (∀ i, i < n * n → Fits32 i ∧ Fits32 (i + 1) ∧ add32 i 1 = ((i + 1 : Nat) : Int)) ∧
    (∀ i, i < n → Fits32 i ∧ Fits32 (i + 1) ∧ add32 i 1 = ((i + 1 : Nat) : Int)) ∧
    (∀ i j, i < n → j < n →
      Fits32 (i * n) ∧ Fits32 (i * n + j) ∧
      mul32 i n = ((i * n : Nat) : Int) ∧
      add32 (mul32 i n) j = ((i * n + j : Nat) : Int)) ∧
    (∀ fuel, n ≤ fuel * tile_size → ∀ o, o ∈ origins fuel 0 n tile_size →
      Fits32 o ∧ Fits32 (o + tile_size) ∧
      add32 o tile_size = ((o + tile_size : Nat) : Int) ∧
      Fits32 (tileEnd n tile_size o) ∧
      tileEnd n tile_size o = (if o + tile_size < n then o + tile_size else n)) := by
  have hsq : n * n ≤ 2147395600 := sq_le_int32 hn2
  refine ⟨⟨fits32_of_le (by omega), mul32_of_le (by omega)⟩, ?_, ?_, ?_, ?_⟩
  · intro i hi
    exact ⟨fits32_of_le (by omega), fits32_of_le (by omega), by unfold add32 wrap32; omega⟩
  · intro i hi
    exact ⟨fits32_of_le (by omega), fits32_of_le (by omega), by unfold add32 wrap32; omega⟩
  · intro i j hi hj
    have h := idx_lt hi hj
    have hm : i * n ≤ 2147483647 := by omega
    refine ⟨fits32_of_le hm, fits32_of_le (by omega), mul32_of_le hm, ?_⟩
    rw [mul32_of_le hm]
    exact add32_of_le (by omega)
  · intro fuel hfuel o ho
    obtain ⟨t, rfl, hlt⟩ := (mem_origins_iff hts hfuel o).1 ho
    have hsum : t * tile_size + tile_size ≤ 2147483647 := by
      rcases Nat.eq_zero_or_pos t with h0 | h0
      · subst h0; omega
      · have : tile_size ≤ t * tile_size := Nat.le_mul_of_pos_left tile_size h0
        omega
    have hend := tileEnd_le n tile_size (t * tile_size)
    exact ⟨fits32_of_le (by omega), fits32_of_le hsum, add32_of_le hsum,
      fits32_of_le (by omega), rfl⟩

theorem no_int32_overflow_witness :
    1 ≤ 46340 ∧ 46340 ≤ 46340 ∧ 1 ≤ 2147483647 ∧ 2147483647 ≤ 2147483647 ∧
    ((Fits32 (46340 * 46340) ∧ mul32 46340 46340 = ((46340 * 46340 : Nat) : Int)) ∧
    (∀ i, i < 46340 * 46340 →
      Fits32 i ∧ Fits32 (i + 1) ∧ add32 i 1 = ((i + 1 : Nat) : Int)) ∧
    (∀ i, i < 46340 → Fits32 i ∧ Fits32 (i + 1) ∧ add32 i 1 = ((i + 1 : Nat) : Int)) ∧
    (∀ i j, i < 46340 → j < 46340 →
      Fits32 (i * 46340) ∧ Fits32 (i * 46340 + j) ∧
      mul32 i 46340 = ((i * 46340 : Nat) : Int) ∧
      add32 (mul32 i 46340) j = ((i * 46340 + j : Nat) : Int)) ∧
    (∀ fuel, 46340 ≤ fuel * 2147483647 → ∀ o, o ∈ origins fuel 0 46340 2147483647 →
      Fits32 o ∧ Fits32 (o + 2147483647) ∧
      add32 o 2147483647 = ((o + 2147483647 : Nat) : Int) ∧
      Fits32 (tileEnd 46340 2147483647 o) ∧
      tileEnd 46340 2147483647 o
        = (if o + 2147483647 < 46340 then o + 2147483647 else 46340))) :=
  ⟨by decide, by decide, by decide, by decide,
    no_int32_overflow 46340 2147483647 (by decide) (by decide) (by decide) (by decide)⟩

end Claims

end MatMul
